import Mathlib

/-! Verification development for the expression interpreter `Interpreter`.

Shallow embedding of `src/Interpreter/Interpreter/main.cpp`.

Modelling conventions.

* A `std::string` is a `List Char`; `expr[i..]` is the list of characters that
  are still to be scanned.
* A `double` is a rational number (`ℚ`): arithmetic is exact, rounding,
  infinities and NaN are outside the model.
* `std::stod` is a library function; the interpreter is parametrised by it
  (`Stod`).  `stodDecimal` is an executable instance for unsigned decimal
  literals.
* An exception is a value of `Error`; a function that may throw returns an
  `Outcome`.  Recursion through user function bodies need not terminate, so
  the evaluator takes a fuel argument; `Outcome.noFuel` is the answer of a run
  that was cut off and is never the answer of the program.
* `std::map` is a key-sorted association list.
-/

set_option autoImplicit false

/-- A name or any other piece of program text. -/
abbrev Name := List Char

/-! ## Characters (`<cctype>` in the "C" locale) -/

/-- The C function `isspace`: space, `\t`, `\n`, `\v`, `\f`, `\r`. -/
def isspace (c : Char) : Bool :=
  c.toNat = 32 ∨ (9 ≤ c.toNat ∧ c.toNat ≤ 13)

/-- The C function `isdigit`. -/
def isdigit (c : Char) : Bool :=
  48 ≤ c.toNat ∧ c.toNat ≤ 57

/-- The C function `isalpha`. -/
def isalpha (c : Char) : Bool :=
  (65 ≤ c.toNat ∧ c.toNat ≤ 90) ∨ (97 ≤ c.toNat ∧ c.toNat ≤ 122)

/-- The C function `isalnum`. -/
def isalnum (c : Char) : Bool :=
  isalpha c || isdigit c

/-! ## Errors and outcomes -/

/-- The `runtime_error`s thrown by the interpreter, one constructor per message,
with the texts that the message is built from. -/
inductive Error where
  /-- "Division by zero" -/
  | divisionByZero
  /-- "Unknown operator: " op -/
  | unknownOperator (op : Char)
  /-- "Mismatched parentheses in expression: " expr -/
  | mismatchedParentheses (expr : Name)
  /-- "Incorrect number of arguments for function " f ": expected " k ", got " m " in expression: " expr -/
  | incorrectArguments (funcName : Name) (expected got : Nat) (expr : Name)
  /-- "Undefined variable or function: " token " in expression: " expr -/
  | undefinedName (token expr : Name)
  /-- "Invalid expression: " expr -/
  | invalidExpression (expr : Name)
  /-- "Empty expression: " expr -/
  | emptyExpression (expr : Name)
  /-- "Invalid function name: " name -/
  | invalidFunctionName (name : Name)
  /-- "Invalid variable name: " name -/
  | invalidVariableName (name : Name)
  /-- "Non-integer value for integer variable: " name -/
  | nonIntegerValue (name : Name)
  /-- "Unknown type for variable: " typeStr -/
  | unknownType (typeStr : Name)
  /-- "Variable not found: " name -/
  | variableNotFound (name : Name)
  /-- "Unknown instruction: " line -/
  | unknownInstruction (line : Name)
  deriving DecidableEq, Repr

/-- What a call produces: a result, a thrown error, or nothing because the fuel
of the model ran out. -/
inductive Outcome (α : Type) where
  | ok (v : α)
  | throw (e : Error)
  | noFuel
  deriving DecidableEq, Repr

/-! ## `std::map<string, T>` -/

/-- A `std::map` keyed by strings: an association list kept sorted by key. -/
abbrev Map (α : Type) := List (Name × α)

namespace Map

/-- The method `map::find`, as an optional value. -/
def find {α : Type} : Map α → Name → Option α
  | [], _ => none
  | (k, v) :: m, key => if key = k then some v else find m key

/-- The assignment `m[key] = v`: replaces the entry or inserts it in key order. -/
def insert {α : Type} : Map α → Name → α → Map α
  | [], key, v => [(key, v)]
  | (k, w) :: m, key, v =>
    if key = k then (key, v) :: m
    else if key < k then (key, v) :: (k, w) :: m
    else (k, w) :: insert m key v

end Map

/-! ## Data model -/

/-- The struct `Variable`: a tagged `int` or `double`.  The `int` is modelled
by an unbounded integer. -/
inductive Variable where
  | int (iValue : Int)
  | float (fValue : ℚ)
  deriving DecidableEq, Repr

/-- The method `Variable::getValue`. -/
def Variable.getValue : Variable → ℚ
  | .int i => (i : ℚ)
  | .float f => f

/-- The struct `Function`. -/
structure Function where
  params : List Name
  expression : Name
  deriving DecidableEq, Repr

/-- The fields of the class `Interpreter`. -/
structure Interpreter where
  «variables» : Map Variable
  functions : Map Function
  deriving DecidableEq, Repr

/-- The library function `std::stod(str, &pos)`: the value read and the number
of characters consumed, or `none` when it throws. -/
abbrev Stod := List Char → Option (ℚ × Nat)

namespace Interpreter

/-- The characters `" \t"` that `trim` removes. -/
def isBlank (c : Char) : Bool :=
  c = ' ' ∨ c.toNat = 9

/-- The method `trim`: drops spaces and tabs at both ends. -/
def trim (str : Name) : Name :=
  ((str.dropWhile isBlank).reverse.dropWhile isBlank).reverse

/-- The method `isValidName`. -/
def isValidName (name : Name) : Bool :=
  match name with
  | [] => false
  | c :: _ => !isdigit c && name.all isalnum

/-- The pieces `getline(ss, param, ',')` yields: the text between commas, no
piece after a final comma and none for the empty text. -/
def getlineComma : List Char → List Char → List Name
  | [], cur => if cur = [] then [] else [cur]
  | c :: cs, cur => if c = ',' then cur :: getlineComma cs [] else getlineComma cs (cur ++ [c])

/-- The method `parseParameters`. -/
def parseParameters (paramStr : Name) : List Name :=
  ((getlineComma paramStr []).map trim).filter (fun p => p ≠ [])

/-- The statement `if (s.back() == ';') s.pop_back();`.  On the empty string
(undefined behaviour in C++) the model leaves the string as it is. -/
def dropSemicolon (s : Name) : Name :=
  if s.getLast? = some ';' then s.dropLast else s

/-- The method `parseExpression`. -/
def parseExpression (expr : Name) : Name :=
  dropSemicolon (trim expr)

/-- The method `getPrecedence`. -/
def getPrecedence (op : Char) : Nat :=
  if op = '+' ∨ op = '-' then 1
  else if op = '*' ∨ op = '/' then 2
  else 0

/-- The constant `1e-10`. -/
def epsilon : ℚ := 1 / 10000000000

/-- The method `applyOperator`. -/
def applyOperator (a b : ℚ) (op : Char) : Outcome ℚ :=
  if op = '+' then .ok (a + b)
  else if op = '-' then .ok (a - b)
  else if op = '*' then .ok (a * b)
  else if op = '/' then
    if |b| < epsilon then .throw .divisionByZero else .ok (a / b)
  else .throw (.unknownOperator op)

/-- The method `isNumber`: `stod` reads the whole string. -/
def isNumber (stod : Stod) (str : Name) : Bool :=
  match stod str with
  | some (_, pos) => pos = str.length
  | none => false

/-- The value `stod(token)` pushed for a token that `isNumber` accepted. -/
def numberValue (stod : Stod) (str : Name) : ℚ :=
  match stod str with
  | some (v, _) => v
  | none => 0

/-- The token flush that `evaluateExpression` performs, with the same text, before
a parenthesis, before an operator and at the end of the input: an empty token
pushes nothing; otherwise the token is read as a number, else as a global
variable, else as a local binding, else it is an error. -/
def flushToken (I : Interpreter) (stod : Stod) (expr : Name) (localVars : Map ℚ)
    (token : Name) (values : List ℚ) : Outcome (List ℚ) :=
  if token = [] then .ok values
  else if isNumber stod token then .ok (numberValue stod token :: values)
  else match I.variables.find token with
    | some var => .ok (var.getValue :: values)
    | none =>
      match localVars.find token with
      | some v => .ok (v :: values)
      | none => .throw (.undefinedName token expr)

/-- The loop `while (!operators.empty() && operators.top() != '(' &&
getPrecedence(operators.top()) >= getPrecedence(c))` at an incoming operator `c`. -/
def reduceWhile (expr : Name) (c : Char) : List ℚ → List Char → Outcome (List ℚ × List Char)
  | values, [] => .ok (values, [])
  | values, op :: operators =>
    if op ≠ '(' ∧ getPrecedence op ≥ getPrecedence c then
      match values with
      | b :: a :: values1 =>
        match applyOperator a b op with
        | .ok r => reduceWhile expr c (r :: values1) operators
        | .throw e => .throw e
        | .noFuel => .noFuel
      | _ => .throw (.invalidExpression expr)
    else .ok (values, op :: operators)

/-- The loop `while (!operators.empty())` after the scan. -/
def reduceAll (expr : Name) : List ℚ → List Char → Outcome (List ℚ)
  | values, [] => .ok values
  | values, op :: operators =>
    match values with
    | b :: a :: values1 =>
      match applyOperator a b op with
      | .ok r => reduceAll expr (r :: values1) operators
      | .throw e => .throw e
      | .noFuel => .noFuel
    | _ => .throw (.invalidExpression expr)

/-- The inner loop that copies the text of a parenthesised group: the input from
index `i`, the counter `parenCount` and the text copied so far; returns the
text, the input after the loop and the final counter. -/
def extractSub : List Char → Nat → Name → Name × List Char × Nat
  | [], parenCount, subExpr => (subExpr, [], parenCount)
  | c :: cs, parenCount, subExpr =>
    if parenCount > 0 then
      let parenCount1 :=
        if c = '(' then parenCount + 1 else if c = ')' then parenCount - 1 else parenCount
      extractSub cs parenCount1 (if parenCount1 > 0 then subExpr ++ [c] else subExpr)
    else (subExpr, c :: cs, parenCount)

/-- The loop `for (j = 0; j <= subExpr.length(); ++j)` that splits the argument
text at top-level commas and evaluates each non-empty piece with `eval`
(the recursive call `evaluateExpression(trim(argToken), localVars)`). -/
def evalArgs (eval : Name → Outcome ℚ) : List Char → Name → Int → List ℚ → Outcome (List ℚ)
  | [], argToken, _, args =>
    if argToken ≠ [] then
      match eval (trim argToken) with
      | .ok v => .ok (args ++ [v])
      | .throw e => .throw e
      | .noFuel => .noFuel
    else .ok args
  | ch :: cs, argToken, innerParenCount, args =>
    if ch = '(' then evalArgs eval cs (argToken ++ [ch]) (innerParenCount + 1) args
    else if ch = ')' then evalArgs eval cs (argToken ++ [ch]) (innerParenCount - 1) args
    else if ch = ',' ∧ innerParenCount = 0 then
      if argToken ≠ [] then
        match eval (trim argToken) with
        | .ok v => evalArgs eval cs [] innerParenCount (args ++ [v])
        | .throw e => .throw e
        | .noFuel => .noFuel
      else evalArgs eval cs [] innerParenCount args
    else evalArgs eval cs (argToken ++ [ch]) innerParenCount args

/-- The loop `funcVars[func->params[j]] = args[j]` over `j < args.size()`. -/
def bindParams : Map ℚ → List Name → List ℚ → Map ℚ
  | funcVars, p :: params, a :: args => bindParams (funcVars.insert p a) params args
  | funcVars, _, _ => funcVars

/-- The local variables of `evaluateExpression` during the scan; `rest` is the
input from index `i` on. -/
structure Scan where
  values : List ℚ
  operators : List Char
  token : Name
  rest : List Char
  expectOperand : Bool
  deriving DecidableEq, Repr

/-- The locals at the start of `evaluateExpression`. -/
def Scan.init (expr : Name) : Scan :=
  ⟨[], [], [], expr, true⟩

/-- What one pass through the body of the scan loop leads to. -/
inductive Next where
  /-- The function returns or throws. -/
  | done (r : Outcome ℚ)
  /-- The loop goes on with these locals. -/
  | more (s : Scan)
  deriving DecidableEq, Repr

/-- The code after the scan loop: flush the last token, apply the remaining
operators, return the top of the value stack. -/
def finish (I : Interpreter) (stod : Stod) (expr : Name) (localVars : Map ℚ) (s : Scan) :
    Outcome ℚ :=
  match flushToken I stod expr localVars s.token s.values with
  | .ok values1 =>
    match reduceAll expr values1 s.operators with
    | .ok [] => .throw (.emptyExpression expr)
    | .ok (top :: _) => .ok top
    | .throw e => .throw e
    | .noFuel => .noFuel
  | .throw e => .throw e
  | .noFuel => .noFuel

/-- The call of a user function at a parenthesis: the arguments are evaluated,
counted, bound over the caller's locals, and the body is evaluated. -/
def callFunction (eval : Name → Map ℚ → Outcome ℚ) (expr : Name) (localVars : Map ℚ)
    (funcName : Name) (func : Function) (subExpr : Name) : Outcome ℚ :=
  match evalArgs (fun a => eval a localVars) subExpr [] 0 [] with
  | .ok args =>
    if args.length ≠ func.params.length then
      .throw (.incorrectArguments funcName func.params.length args.length expr)
    else eval func.expression (bindParams localVars func.params args)
  | .throw e => .throw e
  | .noFuel => .noFuel

/-- One pass through the body of `while (i < expr.length())`, or the code after
the loop when the input is used up.  `eval` stands for the recursive calls of
`evaluateExpression`. -/
def step (I : Interpreter) (stod : Stod) (eval : Name → Map ℚ → Outcome ℚ) (expr : Name)
    (localVars : Map ℚ) (s : Scan) : Next :=
  match s.rest with
  | [] => .done (finish I stod expr localVars s)
  | c :: cs =>
    if isspace c then .more { s with rest := cs }
    else if c = '(' then
      let implicit : Bool := !s.expectOperand && s.token.isEmpty
      let operators1 := if implicit then '*' :: s.operators else s.operators
      match extractSub cs 1 [] with
      | (subExpr, rest1, parenCount) =>
        if parenCount ≠ 0 then .done (.throw (.mismatchedParentheses expr))
        else
          match (if s.token ≠ [] then I.functions.find s.token else none) with
          | some func =>
            match callFunction eval expr localVars s.token func subExpr with
            | .ok v => .more ⟨v :: s.values, operators1, [], rest1, false⟩
            | .throw e => .done (.throw e)
            | .noFuel => .done .noFuel
          | none =>
            match flushToken I stod expr localVars s.token s.values with
            | .ok values1 =>
              match eval subExpr localVars with
              | .ok v => .more ⟨v :: values1, operators1, [], rest1, false⟩
              | .throw e => .done (.throw e)
              | .noFuel => .done .noFuel
            | .throw e => .done (.throw e)
            | .noFuel => .done .noFuel
    else if c = '+' ∨ c = '-' ∨ c = '*' ∨ c = '/' then
      match flushToken I stod expr localVars s.token s.values with
      | .ok values1 =>
        match reduceWhile expr c values1 s.operators with
        | .ok (values2, operators2) => .more ⟨values2, c :: operators2, [], cs, true⟩
        | .throw e => .done (.throw e)
        | .noFuel => .done .noFuel
      | .throw e => .done (.throw e)
      | .noFuel => .done .noFuel
    else .more { s with token := s.token ++ [c], rest := cs }

/-- The scan loop of `evaluateExpression` from given locals.  Each pass and each
recursive call uses one unit of fuel. -/
def scanLoop (I : Interpreter) (stod : Stod) : Nat → Name → Map ℚ → Scan → Outcome ℚ
  | 0, _, _, _ => .noFuel
  | fuel + 1, expr, localVars, s =>
    match step I stod (fun e l => scanLoop I stod fuel e l (Scan.init e)) expr localVars s with
    | .done r => r
    | .more s1 => scanLoop I stod fuel expr localVars s1

/-- The method `evaluateExpression(expr, localVars)`. -/
def evaluateExpression (I : Interpreter) (stod : Stod) (fuel : Nat) (expr : Name)
    (localVars : Map ℚ) : Outcome ℚ :=
  scanLoop I stod fuel expr localVars (Scan.init expr)

/-! ### Statements -/

/-- The call `s.find(c)`: the index of the first `c`, `none` for `npos`. -/
def findChar (c : Char) : List Char → Option Nat
  | [] => none
  | d :: ds => if d = c then some 0 else (findChar c ds).map (· + 1)

/-- The call `s.substr(pos, count)`. -/
def substr (s : Name) (pos count : Nat) : Name :=
  (s.drop pos).take count

/-- The text `s.substr(openParen + 1, closeParen - openParen - 1)` with
`closeParen = s.find(')')`.  The count is computed in `size_t`: when there is no
`)` or the first `)` stands before `openParen` it wraps to a number larger than
the string, and `substr` returns everything after `openParen`. -/
def parenText (s : Name) (openParen : Nat) : Name :=
  match findChar ')' s with
  | some closeParen =>
    if openParen < closeParen then substr s (openParen + 1) (closeParen - openParen - 1)
    else s.drop (openParen + 1)
  | none => s.drop (openParen + 1)

/-- The C function `round`: to the nearest integer, halves away from zero. -/
def cRound (v : ℚ) : Int :=
  if 0 ≤ v then ⌊v + 1 / 2⌋ else ⌈v - 1 / 2⌉

/-- The conversion `static_cast<int>(value)`: truncation towards zero.  (In C++
the result is only defined when it fits an `int`.) -/
def castInt (v : ℚ) : Int :=
  Int.tdiv v.num v.den

/-- The state after `processInstruction`, what it printed (`name = value` lines,
as pairs), and whether it returned or threw. -/
structure Effect where
  state : Interpreter
  output : List (Name × Variable)
  outcome : Outcome Unit
  deriving DecidableEq, Repr

/-- The block `if (trimmed.find(':') != npos)` of `processInstruction`; `none`
when control falls through to the next block. -/
def functionDefinitionBlock (I : Interpreter) (trimmed : Name) : Option Effect :=
  match findChar ':' trimmed with
  | none => none
  | some colonPos =>
    let nameParams := trim (substr trimmed 0 colonPos)
    let expr := parseExpression (trimmed.drop (colonPos + 1))
    match findChar '(' nameParams with
    | none => none
    | some openParen =>
      let funcName := trim (substr nameParams 0 openParen)
      let paramsStr := parenText nameParams openParen
      if !isValidName funcName then some ⟨I, [], .throw (.invalidFunctionName funcName)⟩
      else
        let func : Function := ⟨parseParameters paramsStr, expr⟩
        some ⟨{ I with functions := I.functions.insert funcName func }, [], .ok ()⟩

/-- The block `if (trimmed.find('=') != npos)` of `processInstruction`. -/
def assignmentBlock (I : Interpreter) (stod : Stod) (fuel : Nat) (trimmed : Name) :
    Option Effect :=
  match findChar '=' trimmed with
  | none => none
  | some eqPos =>
    let left := trim (substr trimmed 0 eqPos)
    let right := trim (trimmed.drop (eqPos + 1))
    match findChar '(' left with
    | some openParen =>
      let varName := trim (substr left 0 openParen)
      let typeStr := trim (parenText left openParen)
      if !isValidName varName then some ⟨I, [], .throw (.invalidVariableName varName)⟩
      else
        let right1 := dropSemicolon right
        if typeStr = ['i'] then
          match evaluateExpression I stod fuel right1 [] with
          | .ok value =>
            if |value - cRound value| > epsilon then
              some ⟨I, [], .throw (.nonIntegerValue varName)⟩
            else
              some ⟨{ I with «variables» := I.variables.insert varName (.int (castInt value)) },
                [], .ok ()⟩
          | .throw e => some ⟨I, [], .throw e⟩
          | .noFuel => some ⟨I, [], .noFuel⟩
        else if typeStr = ['f'] then
          match evaluateExpression I stod fuel right1 [] with
          | .ok value =>
            some ⟨{ I with «variables» := I.variables.insert varName (.float value) }, [], .ok ()⟩
          | .throw e => some ⟨I, [], .throw e⟩
          | .noFuel => some ⟨I, [], .noFuel⟩
        else some ⟨I, [], .throw (.unknownType typeStr)⟩
    | none =>
      let right1 := dropSemicolon right
      if !isValidName left then some ⟨I, [], .throw (.invalidVariableName left)⟩
      else
        match evaluateExpression I stod fuel right1 [] with
        | .ok value =>
          if |value - cRound value| < epsilon then
            some ⟨{ I with «variables» := I.variables.insert left (.int (castInt value)) },
              [], .ok ()⟩
          else
            some ⟨{ I with «variables» := I.variables.insert left (.float value) }, [], .ok ()⟩
        | .throw e => some ⟨I, [], .throw e⟩
        | .noFuel => some ⟨I, [], .noFuel⟩

/-- The text `"print"`. -/
def printWord : Name := ['p', 'r', 'i', 'n', 't']

/-- The block `if (trimmed.find("print") == 0)` of `processInstruction`. -/
def printBlock (I : Interpreter) (trimmed : Name) : Option Effect :=
  if trimmed.take 5 = printWord then
    if trimmed = printWord ++ [';'] ∨ trimmed = printWord then
      some ⟨I, I.variables, .ok ()⟩
    else
      let varName := dropSemicolon (trim (trimmed.drop 5))
      match I.variables.find varName with
      | none => some ⟨I, [], .throw (.variableNotFound varName)⟩
      | some var => some ⟨I, [(varName, var)], .ok ()⟩
  else none

/-- The method `processInstruction(line)`, started in state `I`. -/
def processInstruction (I : Interpreter) (stod : Stod) (fuel : Nat) (line : Name) : Effect :=
  let trimmed := trim line
  if trimmed = [] then ⟨I, [], .ok ()⟩
  else
    match functionDefinitionBlock I trimmed with
    | some eff => eff
    | none =>
      match assignmentBlock I stod fuel trimmed with
      | some eff => eff
      | none =>
        match printBlock I trimmed with
        | some eff => eff
        | none => ⟨I, [], .throw (.unknownInstruction trimmed)⟩

/-! ### An executable `stod` for decimal literals -/

/-- Reads a run of decimal digits: the number read so far, the count of digits
read, the input after them. -/
def readDigits : List Char → Nat → Nat → Nat × Nat × List Char
  | [], acc, n => (acc, n, [])
  | c :: cs, acc, n =>
    if isdigit c then readDigits cs (10 * acc + (c.toNat - 48)) (n + 1) else (acc, n, c :: cs)

/-- The exponent part `e`/`E`, optional sign, digits, if there is one with at
least one digit: the factor and the number of characters read. -/
def readExponent : List Char → ℚ × Nat
  | [] => (1, 0)
  | c :: cs =>
    if c = 'e' ∨ c = 'E' then
      match cs with
      | '-' :: ds =>
        match readDigits ds 0 0 with
        | (x, n, _) => if n = 0 then (1, 0) else (1 / 10 ^ x, n + 2)
      | '+' :: ds =>
        match readDigits ds 0 0 with
        | (x, n, _) => if n = 0 then (1, 0) else (10 ^ x, n + 2)
      | _ =>
        match readDigits cs 0 0 with
        | (x, n, _) => if n = 0 then (1, 0) else (10 ^ x, n + 1)
    else (1, 0)

/-- A model of `std::stod` on text without leading white space or sign (the scan
never puts those into a token): digits with an optional `.` and an optional
exponent, at least one digit in the mantissa.  Hexadecimal literals and the
words `inf` and `nan`, which have no rational value, are not read. -/
def stodDecimal : Stod := fun str =>
  match readDigits str 0 0 with
  | (ip, n1, r1) =>
    match r1 with
    | '.' :: r2 =>
      match readDigits r2 ip 0 with
      | (m, n2, r3) =>
        if n1 + n2 = 0 then none
        else
          match readExponent r3 with
          | (f, n3) => some ((m : ℚ) / 10 ^ n2 * f, n1 + 1 + n2 + n3)
    | _ =>
      if n1 = 0 then none
      else
        match readExponent r1 with
        | (f, n3) => some ((ip : ℚ) * f, n1 + n3)

/-! ### The driver -/

/-- How `run` ends: all lines were processed, or the loop stopped at a line that
threw (the line and the error are reported on `cerr`), or the model ran out of
fuel inside a line. -/
inductive RunEnd where
  | finished
  | stoppedAt (line : Name) (e : Error)
  | noFuel
  deriving DecidableEq, Repr

/-- The state after `run`, everything it printed on `cout`, and how it ended. -/
structure RunResult where
  state : Interpreter
  output : List (Name × Variable)
  ending : RunEnd
  deriving DecidableEq, Repr

/-- The method `run`, on the lines that `getline` reads from the file: each line
goes to `processInstruction`; the first error ends the loop. -/
def run (I : Interpreter) (stod : Stod) (fuel : Nat) : List Name → RunResult
  | [] => ⟨I, [], .finished⟩
  | line :: lines =>
    match processInstruction I stod fuel line with
    | ⟨I1, out, .ok ()⟩ =>
      match run I1 stod fuel lines with
      | ⟨I2, out2, ending⟩ => ⟨I2, out ++ out2, ending⟩
    | ⟨I1, out, .throw e⟩ => ⟨I1, out, .stoppedAt line e⟩
    | ⟨I1, out, .noFuel⟩ => ⟨I1, out, .noFuel⟩

end Interpreter

/-! ## The second program: `src/Proga/Proga`

Shallow embedding of `expression_evaluator.cpp` and `main.cpp`.  This program
reports errors on `cerr` and goes on with the value `0.0`; the messages are not
modelled. -/

namespace Proga

/-- What a call produces: a result; or behaviour that the model does not
describe (`top`/`pop` on an empty stack, an exception of `stod` that nothing
catches, a division by zero, whose result is not a rational number); or
nothing because the fuel of the model ran out. -/
inductive Result (α : Type) where
  | ok (v : α)
  | outside
  | noFuel
  deriving DecidableEq, Repr

/-- The struct `Function` of `function.h`. -/
structure Function where
  name : Name
  arguments : List Name
  expression : Name
  deriving DecidableEq, Repr

/-- The globals `variables` and `functions`. -/
structure State where
  «variables» : Map ℚ
  functions : Map Function
  deriving DecidableEq, Repr

/-- The function `trim`: drops spaces (only) at both ends. -/
def trim (str : Name) : Name :=
  ((str.dropWhile (fun c => c = ' ')).reverse.dropWhile (fun c => c = ' ')).reverse

/-- The loop of `isNumber`, with the flag `hasDecimal`. -/
def isNumberLoop : List Char → Bool → Bool
  | [], _ => true
  | c :: cs, hasDecimal =>
    if isdigit c then isNumberLoop cs hasDecimal
    else if c = '.' ∧ hasDecimal = false then isNumberLoop cs true
    else false

/-- The function `isNumber`: not empty, digits with at most one point. -/
def isNumber (str : Name) : Bool :=
  str ≠ [] && isNumberLoop str false

/-- The function `isValidIdentifier`. -/
def isValidIdentifier (str : Name) : Bool :=
  match str with
  | [] => false
  | c :: _ => isalpha c && str.all isalnum

/-- The function `getPrecedence`. -/
def getPrecedence (op : Name) : Nat :=
  if op = ['+'] ∨ op = ['-'] then 1
  else if op = ['*'] ∨ op = ['/'] then 2
  else 0

/-- The function `defineVariable`. -/
def defineVariable (S : State) (name : Name) (value : ℚ) : State :=
  { S with «variables» := S.variables.insert name value }

/-- The loop `localVariables[func.arguments[i]] = arguments[i]`. -/
def bindArguments : Map ℚ → List Name → List ℚ → Map ℚ
  | localVariables, p :: params, a :: args => bindArguments (localVariables.insert p a) params args
  | localVariables, _, _ => localVariables

/-- The function `executeFunction`; `eval` stands for `evaluateExpression`. -/
def executeFunction (S : State) (eval : Name → Map ℚ → Result ℚ) (functionName : Name)
    (arguments : List ℚ) : Result ℚ :=
  match S.functions.find functionName with
  | none => .ok 0
  | some func =>
    if func.arguments.length ≠ arguments.length then .ok 0
    else eval func.expression (bindArguments [] func.arguments arguments)

/-- One of the characters `+-*/()`. -/
def isOperatorChar (c : Char) : Bool :=
  c = '+' ∨ c = '-' ∨ c = '*' ∨ c = '/' ∨ c = '(' ∨ c = ')'

/-- The words that `ss >> token` reads: the maximal runs of characters that are
not white space. -/
def splitWords : List Char → Name → List Name
  | [], cur => if cur = [] then [] else [cur]
  | c :: cs, cur =>
    if isspace c then (if cur = [] then [] else [cur]) ++ splitWords cs []
    else splitWords cs (cur ++ [c])

/-- The inner loop of `tokenize` on one word: the runs between the characters
`+-*/()` and these characters themselves. -/
def splitWord : List Char → Name → List Name
  | [], cur => if cur = [] then [] else [cur]
  | c :: cs, cur =>
    if isOperatorChar c then (if cur = [] then [] else [cur]) ++ [c] :: splitWord cs []
    else splitWord cs (cur ++ [c])

/-- The function `tokenize`. -/
def tokenize (expression : Name) : List Name :=
  (splitWords expression []).flatMap fun token =>
    if token = ['+'] ∨ token = ['-'] ∨ token = ['*'] ∨ token = ['/'] ∨ token = ['('] ∨
        token = [')'] then [token]
    else splitWord token []

/-- The statements that pop `val2`, `val1` and push the result of `op`.  An
operator that is none of `+ - * /` (a `(` left on the stack) pushes nothing. -/
def applyTop (op : Name) : List ℚ → Result (List ℚ)
  | val2 :: val1 :: rest =>
    if op = ['+'] then .ok ((val1 + val2) :: rest)
    else if op = ['-'] then .ok ((val1 - val2) :: rest)
    else if op = ['*'] then .ok ((val1 * val2) :: rest)
    else if op = ['/'] then (if val2 = 0 then .outside else .ok ((val1 / val2) :: rest))
    else .ok rest
  | _ => .outside

/-- The loop at a `)`: `while (!operations.empty() && operations.top() != "(")`. -/
def popUntilOpen : List ℚ → List Name → Result (List ℚ × List Name)
  | numbers, [] => .ok (numbers, [])
  | numbers, op :: operations =>
    if op ≠ ['('] then
      match applyTop op numbers with
      | .ok numbers1 => popUntilOpen numbers1 operations
      | .outside => .outside
      | .noFuel => .noFuel
    else .ok (numbers, op :: operations)

/-- The loop at an operator: `while (!operations.empty() && operations.top() !=
"(" && getPrecedence(token) <= getPrecedence(operations.top()))`. -/
def popWhile (token : Name) : List ℚ → List Name → Result (List ℚ × List Name)
  | numbers, [] => .ok (numbers, [])
  | numbers, op :: operations =>
    if op ≠ ['('] ∧ getPrecedence token ≤ getPrecedence op then
      match applyTop op numbers with
      | .ok numbers1 => popWhile token numbers1 operations
      | .outside => .outside
      | .noFuel => .noFuel
    else .ok (numbers, op :: operations)

/-- The loop after the tokens: `while (!operations.empty())`. -/
def popAll : List ℚ → List Name → Result (List ℚ)
  | numbers, [] => .ok numbers
  | numbers, op :: operations =>
    match applyTop op numbers with
    | .ok numbers1 => popAll numbers1 operations
    | .outside => .outside
    | .noFuel => .noFuel

/-- The loop `for (const string& token : tokens)` of `evaluateExpression` and the
code after it.  `call` stands for `executeFunction(token, {})`. -/
def evalTokens (S : State) (stod : Stod) (call : Name → Result ℚ) (localVariables : Map ℚ) :
    List Name → List ℚ → List Name → Result ℚ
  | [], numbers, operations =>
    match popAll numbers operations with
    | .ok (top :: _) => .ok top
    | .ok [] => .ok 0
    | .outside => .outside
    | .noFuel => .noFuel
  | token :: tokens, numbers, operations =>
    if isNumber token then
      match stod token with
      | some (v, _) => evalTokens S stod call localVariables tokens (v :: numbers) operations
      | none => .outside
    else if isValidIdentifier token then
      match localVariables.find token with
      | some v => evalTokens S stod call localVariables tokens (v :: numbers) operations
      | none =>
        match S.variables.find token with
        | some v => evalTokens S stod call localVariables tokens (v :: numbers) operations
        | none =>
          match S.functions.find token with
          | some _ =>
            match call token with
            | .ok v => evalTokens S stod call localVariables tokens (v :: numbers) operations
            | .outside => .outside
            | .noFuel => .noFuel
          | none => .ok 0
    else if token = ['('] then
      evalTokens S stod call localVariables tokens numbers (token :: operations)
    else if token = [')'] then
      match popUntilOpen numbers operations with
      | .ok (numbers1, operations1) =>
        evalTokens S stod call localVariables tokens numbers1 (operations1.drop 1)
      | .outside => .outside
      | .noFuel => .noFuel
    else if token = ['+'] ∨ token = ['-'] ∨ token = ['*'] ∨ token = ['/'] then
      match popWhile token numbers operations with
      | .ok (numbers1, operations1) =>
        evalTokens S stod call localVariables tokens numbers1 (token :: operations1)
      | .outside => .outside
      | .noFuel => .noFuel
    else .ok 0

/-- The function `evaluateExpression(expression, localVariables)`.  Each call
through a user function uses one unit of fuel. -/
def evaluateExpression (S : State) (stod : Stod) : Nat → Name → Map ℚ → Result ℚ
  | 0, _, _ => .noFuel
  | fuel + 1, expression, localVariables =>
    evalTokens S stod
      (fun token => executeFunction S (evaluateExpression S stod fuel) token [])
      localVariables (tokenize expression) [] []

/-- The call `s.find(pat)` for a text `pat`. -/
def findSub (pat : Name) : List Char → Option Nat
  | [] => if pat = [] then some 0 else none
  | c :: cs =>
    if (c :: cs).take pat.length = pat then some 0 else (findSub pat cs).map (· + 1)

/-- A line on `cout`: the heading `Variables:` or `name = value`. -/
inductive Line where
  | heading
  | entry (name : Name) (value : ℚ)
  deriving DecidableEq, Repr

/-- The state after `processLine`, what it printed on `cout`, and whether the
call is described by the model. -/
structure Effect where
  state : State
  output : List Line
  status : Result Unit
  deriving DecidableEq, Repr

/-- The assignment `variables[name] = evaluateExpression(expression)`, the right
side first. -/
def assign (S : State) (stod : Stod) (fuel : Nat) (name expression : Name) : Effect :=
  match evaluateExpression S stod fuel expression [] with
  | .ok value => ⟨defineVariable S name value, [], .ok ()⟩
  | .outside => ⟨S, [], .outside⟩
  | .noFuel => ⟨S, [], .noFuel⟩

/-- The function `processLine(line)`, started in state `S`. -/
def processLine (S : State) (stod : Stod) (fuel : Nat) (line : Name) : Effect :=
  let trimmedLine := trim line
  if trimmedLine = [] then ⟨S, [], .ok ()⟩
  else
    match Interpreter.findChar '(' trimmedLine, Interpreter.findChar ')' trimmedLine,
      Interpreter.findChar ':' trimmedLine with
    | some funcDefPos, some _, some colonPos =>
      let functionName := Interpreter.substr trimmedLine 0 funcDefPos
      let argumentsStr := Interpreter.parenText trimmedLine funcDefPos
      let expression := trimmedLine.drop (colonPos + 1)
      let func : Function :=
        ⟨trim functionName, (Interpreter.getlineComma argumentsStr []).map trim, trim expression⟩
      ⟨{ S with functions := S.functions.insert func.name func }, [], .ok ()⟩
    | _, _, _ =>
      match Interpreter.findChar '=' trimmedLine with
      | some assignPos =>
        let varName := trim (Interpreter.substr trimmedLine 0 assignPos)
        let expression := trim (trimmedLine.drop (assignPos + 1))
        match Interpreter.findChar '(' varName, Interpreter.findChar ')' varName with
        | some start, some _ => assign S stod fuel (Interpreter.substr varName 0 start) expression
        | _, _ =>
          if !isValidIdentifier varName then ⟨S, [], .ok ()⟩
          else assign S stod fuel varName expression
      | none =>
        match findSub ['p', 'r', 'i', 'n', 't'] trimmedLine with
        | some printPos =>
          let printArgs := trim (trimmedLine.drop (printPos + 5))
          if printArgs = [] then
            ⟨S, .heading :: S.variables.map (fun p => .entry p.1 p.2), .ok ()⟩
          else
            match S.variables.find (trim printArgs) with
            | some value => ⟨S, [.entry (trim printArgs) value], .ok ()⟩
            | none => ⟨S, [], .ok ()⟩
        | none => ⟨S, [], .ok ()⟩

end Proga

/-! ## The evaluators over the numbers of the machine

The programs compute in `double`: `stod` rounds a literal to the nearest
`double` and throws when the number is out of range, and every operation
rounds its result.  The definitions of this part leave the number type and
its operations open: they are the two evaluators again, line by line, over an
arbitrary type `D` with four operations, the test `abs(b) < 1e-10`, the
constant `0.0` and the reader `stod`. -/

/-- The numbers of the machine: the type `double` with its operations, the test
`abs(b) < 1e-10` of `applyOperator`, the constant `0.0`, and `stod(str, &pos)`
(the value and `pos`, `none` when it throws). -/
structure Machine (D : Type) where
  add : D → D → D
  sub : D → D → D
  mul : D → D → D
  div : D → D → D
  small : D → Bool
  zero : D
  stod : List Char → Option (D × Nat)

namespace Machine

/-- The fields of the class `Interpreter` as `evaluateExpression` reads them: for
every variable the number that `getValue()` returns, and the functions. -/
structure Env (D : Type) where
  «variables» : Map D
  functions : Map Function

/-- The method `applyOperator`. -/
def applyOperator {D : Type} (M : Machine D) (a b : D) (op : Char) : Outcome D :=
  if op = '+' then .ok (M.add a b)
  else if op = '-' then .ok (M.sub a b)
  else if op = '*' then .ok (M.mul a b)
  else if op = '/' then
    if M.small b then .throw .divisionByZero else .ok (M.div a b)
  else .throw (.unknownOperator op)

/-- The method `isNumber`: `stod` does not throw and reads the whole string. -/
def isNumber {D : Type} (M : Machine D) (str : Name) : Bool :=
  match M.stod str with
  | some (_, pos) => pos = str.length
  | none => false

/-- The value `stod(token)` pushed for a token that `isNumber` accepted. -/
def numberValue {D : Type} (M : Machine D) (str : Name) : D :=
  match M.stod str with
  | some (v, _) => v
  | none => M.zero

/-- The token flush that `evaluateExpression` performs, with the same text, before
a parenthesis, before an operator and at the end of the input: an empty token
pushes nothing; otherwise the token is read as a number, else as a global
variable, else as a local binding, else it is an error. -/
def flushToken {D : Type} (M : Machine D) (I : Env D) (expr : Name) (localVars : Map D)
    (token : Name) (values : List D) : Outcome (List D) :=
  if token = [] then .ok values
  else if isNumber M token then .ok (numberValue M token :: values)
  else match I.variables.find token with
    | some x => .ok (x :: values)
    | none =>
      match localVars.find token with
      | some v => .ok (v :: values)
      | none => .throw (.undefinedName token expr)

/-- The loop `while (!operators.empty() && operators.top() != '(' &&
getPrecedence(operators.top()) >= getPrecedence(c))` at an incoming operator `c`. -/
def reduceWhile {D : Type} (M : Machine D) (expr : Name) (c : Char) :
    List D → List Char → Outcome (List D × List Char)
  | values, [] => .ok (values, [])
  | values, op :: operators =>
    if op ≠ '(' ∧ Interpreter.getPrecedence op ≥ Interpreter.getPrecedence c then
      match values with
      | b :: a :: values1 =>
        match applyOperator M a b op with
        | .ok r => reduceWhile M expr c (r :: values1) operators
        | .throw e => .throw e
        | .noFuel => .noFuel
      | _ => .throw (.invalidExpression expr)
    else .ok (values, op :: operators)

/-- The loop `while (!operators.empty())` after the scan. -/
def reduceAll {D : Type} (M : Machine D) (expr : Name) : List D → List Char → Outcome (List D)
  | values, [] => .ok values
  | values, op :: operators =>
    match values with
    | b :: a :: values1 =>
      match applyOperator M a b op with
      | .ok r => reduceAll M expr (r :: values1) operators
      | .throw e => .throw e
      | .noFuel => .noFuel
    | _ => .throw (.invalidExpression expr)

/-- The loop that splits the argument text at top-level commas and evaluates
each non-empty piece with `eval`. -/
def evalArgs {D : Type} (eval : Name → Outcome D) :
    List Char → Name → Int → List D → Outcome (List D)
  | [], argToken, _, args =>
    if argToken ≠ [] then
      match eval (Interpreter.trim argToken) with
      | .ok v => .ok (args ++ [v])
      | .throw e => .throw e
      | .noFuel => .noFuel
    else .ok args
  | ch :: cs, argToken, innerParenCount, args =>
    if ch = '(' then evalArgs eval cs (argToken ++ [ch]) (innerParenCount + 1) args
    else if ch = ')' then evalArgs eval cs (argToken ++ [ch]) (innerParenCount - 1) args
    else if ch = ',' ∧ innerParenCount = 0 then
      if argToken ≠ [] then
        match eval (Interpreter.trim argToken) with
        | .ok v => evalArgs eval cs [] innerParenCount (args ++ [v])
        | .throw e => .throw e
        | .noFuel => .noFuel
      else evalArgs eval cs [] innerParenCount args
    else evalArgs eval cs (argToken ++ [ch]) innerParenCount args

/-- The loop `funcVars[func->params[j]] = args[j]` over `j < args.size()`. -/
def bindParams {D : Type} : Map D → List Name → List D → Map D
  | funcVars, p :: params, a :: args => bindParams (funcVars.insert p a) params args
  | funcVars, _, _ => funcVars

/-- The local variables of `evaluateExpression` during the scan; `rest` is the
input from index `i` on. -/
structure Scan (D : Type) where
  values : List D
  operators : List Char
  token : Name
  rest : List Char
  expectOperand : Bool

/-- The locals at the start of `evaluateExpression`. -/
def Scan.init {D : Type} (expr : Name) : Scan D :=
  ⟨[], [], [], expr, true⟩

/-- What one pass through the body of the scan loop leads to. -/
inductive Next (D : Type) where
  /-- The function returns or throws. -/
  | done (r : Outcome D)
  /-- The loop goes on with these locals. -/
  | more (s : Scan D)

/-- The code after the scan loop: flush the last token, apply the remaining
operators, return the top of the value stack. -/
def finish {D : Type} (M : Machine D) (I : Env D) (expr : Name) (localVars : Map D)
    (s : Scan D) : Outcome D :=
  match flushToken M I expr localVars s.token s.values with
  | .ok values1 =>
    match reduceAll M expr values1 s.operators with
    | .ok [] => .throw (.emptyExpression expr)
    | .ok (top :: _) => .ok top
    | .throw e => .throw e
    | .noFuel => .noFuel
  | .throw e => .throw e
  | .noFuel => .noFuel

/-- The call of a user function at a parenthesis. -/
def callFunction {D : Type} (eval : Name → Map D → Outcome D) (expr : Name) (localVars : Map D)
    (funcName : Name) (func : Function) (subExpr : Name) : Outcome D :=
  match evalArgs (fun a => eval a localVars) subExpr [] 0 [] with
  | .ok args =>
    if args.length ≠ func.params.length then
      .throw (.incorrectArguments funcName func.params.length args.length expr)
    else eval func.expression (bindParams localVars func.params args)
  | .throw e => .throw e
  | .noFuel => .noFuel

/-- One pass through the body of `while (i < expr.length())`, or the code after
the loop when the input is used up.  `eval` stands for the recursive calls of
`evaluateExpression`. -/
def step {D : Type} (M : Machine D) (I : Env D) (eval : Name → Map D → Outcome D) (expr : Name)
    (localVars : Map D) (s : Scan D) : Next D :=
  match s.rest with
  | [] => .done (finish M I expr localVars s)
  | c :: cs =>
    if isspace c then .more { s with rest := cs }
    else if c = '(' then
      let implicit : Bool := !s.expectOperand && s.token.isEmpty
      let operators1 := if implicit then '*' :: s.operators else s.operators
      match Interpreter.extractSub cs 1 [] with
      | (subExpr, rest1, parenCount) =>
        if parenCount ≠ 0 then .done (.throw (.mismatchedParentheses expr))
        else
          match (if s.token ≠ [] then I.functions.find s.token else none) with
          | some func =>
            match callFunction eval expr localVars s.token func subExpr with
            | .ok v => .more ⟨v :: s.values, operators1, [], rest1, false⟩
            | .throw e => .done (.throw e)
            | .noFuel => .done .noFuel
          | none =>
            match flushToken M I expr localVars s.token s.values with
            | .ok values1 =>
              match eval subExpr localVars with
              | .ok v => .more ⟨v :: values1, operators1, [], rest1, false⟩
              | .throw e => .done (.throw e)
              | .noFuel => .done .noFuel
            | .throw e => .done (.throw e)
            | .noFuel => .done .noFuel
    else if c = '+' ∨ c = '-' ∨ c = '*' ∨ c = '/' then
      match flushToken M I expr localVars s.token s.values with
      | .ok values1 =>
        match reduceWhile M expr c values1 s.operators with
        | .ok (values2, operators2) => .more ⟨values2, c :: operators2, [], cs, true⟩
        | .throw e => .done (.throw e)
        | .noFuel => .done .noFuel
      | .throw e => .done (.throw e)
      | .noFuel => .done .noFuel
    else .more { s with token := s.token ++ [c], rest := cs }

/-- The scan loop of `evaluateExpression` from given locals.  Each pass and each
recursive call uses one unit of fuel. -/
def scanLoop {D : Type} (M : Machine D) (I : Env D) : Nat → Name → Map D → Scan D → Outcome D
  | 0, _, _, _ => .noFuel
  | fuel + 1, expr, localVars, s =>
    match step M I (fun e l => scanLoop M I fuel e l (Scan.init e)) expr localVars s with
    | .done r => r
    | .more s1 => scanLoop M I fuel expr localVars s1

/-- The method `evaluateExpression(expr, localVars)`. -/
def evaluateExpression {D : Type} (M : Machine D) (I : Env D) (fuel : Nat) (expr : Name)
    (localVars : Map D) : Outcome D :=
  scanLoop M I fuel expr localVars (Scan.init expr)

/-! ### The second program -/

namespace Proga

/-- The globals `variables` and `functions` of the second program. -/
structure State (D : Type) where
  «variables» : Map D
  functions : Map Proga.Function

/-- The loop `localVariables[func.arguments[i]] = arguments[i]`. -/
def bindArguments {D : Type} : Map D → List Name → List D → Map D
  | localVariables, p :: params, a :: args => bindArguments (localVariables.insert p a) params args
  | localVariables, _, _ => localVariables

/-- The function `executeFunction`; `eval` stands for `evaluateExpression`. -/
def executeFunction {D : Type} (M : Machine D) (S : State D)
    (eval : Name → Map D → Proga.Result D) (functionName : Name) (arguments : List D) :
    Proga.Result D :=
  match S.functions.find functionName with
  | none => .ok M.zero
  | some func =>
    if func.arguments.length ≠ arguments.length then .ok M.zero
    else eval func.expression (bindArguments [] func.arguments arguments)

/-- The statements that pop `val2`, `val1` and push the result of `op`.  An
operator that is none of `+ - * /` (a `(` left on the stack) pushes nothing. -/
def applyTop {D : Type} (M : Machine D) (op : Name) : List D → Proga.Result (List D)
  | val2 :: val1 :: rest =>
    if op = ['+'] then .ok (M.add val1 val2 :: rest)
    else if op = ['-'] then .ok (M.sub val1 val2 :: rest)
    else if op = ['*'] then .ok (M.mul val1 val2 :: rest)
    else if op = ['/'] then .ok (M.div val1 val2 :: rest)
    else .ok rest
  | _ => .outside

/-- The loop at a `)`: `while (!operations.empty() && operations.top() != "(")`. -/
def popUntilOpen {D : Type} (M : Machine D) :
    List D → List Name → Proga.Result (List D × List Name)
  | numbers, [] => .ok (numbers, [])
  | numbers, op :: operations =>
    if op ≠ ['('] then
      match applyTop M op numbers with
      | .ok numbers1 => popUntilOpen M numbers1 operations
      | .outside => .outside
      | .noFuel => .noFuel
    else .ok (numbers, op :: operations)

/-- The loop at an operator: `while (!operations.empty() && operations.top() !=
"(" && getPrecedence(token) <= getPrecedence(operations.top()))`. -/
def popWhile {D : Type} (M : Machine D) (token : Name) :
    List D → List Name → Proga.Result (List D × List Name)
  | numbers, [] => .ok (numbers, [])
  | numbers, op :: operations =>
    if op ≠ ['('] ∧ Proga.getPrecedence token ≤ Proga.getPrecedence op then
      match applyTop M op numbers with
      | .ok numbers1 => popWhile M token numbers1 operations
      | .outside => .outside
      | .noFuel => .noFuel
    else .ok (numbers, op :: operations)

/-- The loop after the tokens: `while (!operations.empty())`. -/
def popAll {D : Type} (M : Machine D) : List D → List Name → Proga.Result (List D)
  | numbers, [] => .ok numbers
  | numbers, op :: operations =>
    match applyTop M op numbers with
    | .ok numbers1 => popAll M numbers1 operations
    | .outside => .outside
    | .noFuel => .noFuel

/-- The loop `for (const string& token : tokens)` of `evaluateExpression` and the
code after it.  `call` stands for `executeFunction(token, {})`.  A `stod` that
throws ends the program (nothing catches it). -/
def evalTokens {D : Type} (M : Machine D) (S : State D) (call : Name → Proga.Result D)
    (localVariables : Map D) : List Name → List D → List Name → Proga.Result D
  | [], numbers, operations =>
    match popAll M numbers operations with
    | .ok (top :: _) => .ok top
    | .ok [] => .ok M.zero
    | .outside => .outside
    | .noFuel => .noFuel
  | token :: tokens, numbers, operations =>
    if Proga.isNumber token then
      match M.stod token with
      | some (v, _) => evalTokens M S call localVariables tokens (v :: numbers) operations
      | none => .outside
    else if Proga.isValidIdentifier token then
      match localVariables.find token with
      | some v => evalTokens M S call localVariables tokens (v :: numbers) operations
      | none =>
        match S.variables.find token with
        | some v => evalTokens M S call localVariables tokens (v :: numbers) operations
        | none =>
          match S.functions.find token with
          | some _ =>
            match call token with
            | .ok v => evalTokens M S call localVariables tokens (v :: numbers) operations
            | .outside => .outside
            | .noFuel => .noFuel
          | none => .ok M.zero
    else if token = ['('] then
      evalTokens M S call localVariables tokens numbers (token :: operations)
    else if token = [')'] then
      match popUntilOpen M numbers operations with
      | .ok (numbers1, operations1) =>
        evalTokens M S call localVariables tokens numbers1 (operations1.drop 1)
      | .outside => .outside
      | .noFuel => .noFuel
    else if token = ['+'] ∨ token = ['-'] ∨ token = ['*'] ∨ token = ['/'] then
      match popWhile M token numbers operations with
      | .ok (numbers1, operations1) =>
        evalTokens M S call localVariables tokens numbers1 (token :: operations1)
      | .outside => .outside
      | .noFuel => .noFuel
    else .ok M.zero

/-- The function `evaluateExpression(expression, localVariables)`.  Each call
through a user function uses one unit of fuel. -/
def evaluateExpression {D : Type} (M : Machine D) (S : State D) :
    Nat → Name → Map D → Proga.Result D
  | 0, _, _ => .noFuel
  | fuel + 1, expression, localVariables =>
    evalTokens M S
      (fun token => executeFunction M S (evaluateExpression M S fuel) token [])
      localVariables (Proga.tokenize expression) [] []

end Proga

end Machine

/-! ### A machine for examples: rounding to `double`

An executable instance of `Machine` on the rational numbers: every finite
`double` is a rational number, `stod` and the four operations round to the
nearest `double` (ties to even, 53 bits, exponents from -1074).  The
infinities and NaN are not rationals: a result of magnitude `2^1024` or more and
a division by zero are outside this instance. -/

namespace Binary64

/-- The number of binary digits of `n` (at most `fuel`). -/
def bitLength : Nat → Nat → Nat
  | 0, _ => 0
  | fuel + 1, n => if n = 0 then 0 else bitLength fuel (n / 2) + 1

/-- The test `2^d ≤ p / q` for positive `p`, `q`. -/
def atLeastPow (p q : Nat) (d : Int) : Bool :=
  if 0 ≤ d then decide (q * 2 ^ d.toNat ≤ p) else decide (q ≤ p * 2 ^ (-d).toNat)

/-- The integer `l` with `2^l ≤ p / q < 2^(l+1)`, for positive `p`, `q`. -/
def floorLog2 (p q : Nat) : Int :=
  let d : Int := (bitLength 4096 p : Int) - (bitLength 4096 q : Int)
  if atLeastPow p q d then d else d - 1

/-- The integer nearest to `num / den`, the even one of two nearest. -/
def nearestEven (num den : Nat) : Nat :=
  let n := num / den
  let r := num % den
  if 2 * r < den then n
  else if den < 2 * r then n + 1
  else if n % 2 = 0 then n else n + 1

/-- The `double` nearest to a positive rational `p / q`: 53 significant bits,
no exponent below -1074. -/
def roundPositive (p q : Nat) : ℚ :=
  let e : Int := max (floorLog2 p q - 52) (-1074)
  if 0 ≤ e then ((nearestEven p (q * 2 ^ e.toNat) * 2 ^ e.toNat : Nat) : ℚ)
  else ((nearestEven (p * 2 ^ (-e).toNat) q : Nat) : ℚ) / ((2 ^ (-e).toNat : Nat) : ℚ)

/-- Rounding to the nearest `double`. -/
def roundNearest (x : ℚ) : ℚ :=
  if x = 0 then 0
  else if 0 < x then roundPositive x.num.natAbs x.den
  else -roundPositive x.num.natAbs x.den

/-- The call `stod(str, &pos)` on text without leading white space or sign: the
decimal number that `stodDecimal` reads, rounded; `none` (the exception
`out_of_range`) when the rounded number is `2^1024` or more, or is not zero and
below the smallest normal `double` `2^-1022`. -/
def stod : Stod := fun str =>
  match Interpreter.stodDecimal str with
  | some (v, pos) =>
    if (2 : ℚ) ^ 1024 ≤ roundNearest v then none
    else if v ≠ 0 ∧ roundNearest v < 1 / (2 : ℚ) ^ 1022 then none
    else some (roundNearest v, pos)
  | none => none

/-- The machine with numbers rounded to `double`; `small` is the test
`abs(b) < 1e-10` with the constant rounded as the compiler does. -/
def machine : Machine ℚ where
  add a b := roundNearest (a + b)
  sub a b := roundNearest (a - b)
  mul a b := roundNearest (a * b)
  div a b := roundNearest (a / b)
  small b := decide (|b| < roundNearest (1 / 10000000000))
  zero := 0
  stod := stod

end Binary64

/-! ## Plain arithmetic expressions (the grammar of standard arithmetic) -/

namespace Arith

/-- Digits with at most one `.` and at least one digit. -/
def isUnsignedDecimal (s : List Char) : Bool :=
  s.all (fun c => isdigit c || c = '.') && decide ((s.filter (fun c => c = '.')).length ≤ 1) &&
    s.any isdigit

mutual
/-- Sums and differences of terms, associated to the left. -/
inductive Expr where
  | term (t : Term)
  | add (e : Expr) (t : Term)
  | sub (e : Expr) (t : Term)
/-- Products and quotients of factors, associated to the left. -/
inductive Term where
  | factor (f : Factor)
  | mul (t : Term) (f : Factor)
  | div (t : Term) (f : Factor)
/-- A literal or a parenthesised expression, with the number of spaces written
before and after it. -/
inductive Factor where
  | lit (pre : Nat) (text : List Char) (post : Nat)
  | group (pre : Nat) (e : Expr) (post : Nat)
end

mutual
/-- The text of an expression. -/
def Expr.render : Expr → List Char
  | .term t => t.render
  | .add e t => e.render ++ '+' :: t.render
  | .sub e t => e.render ++ '-' :: t.render
/-- The text of a term. -/
def Term.render : Term → List Char
  | .factor f => f.render
  | .mul t f => t.render ++ '*' :: f.render
  | .div t f => t.render ++ '/' :: f.render
/-- The text of a factor. -/
def Factor.render : Factor → List Char
  | .lit pre text post => List.replicate pre ' ' ++ text ++ List.replicate post ' '
  | .group pre e post =>
    List.replicate pre ' ' ++ '(' :: e.render ++ ')' :: List.replicate post ' '
end

mutual
/-- The value of an expression in standard arithmetic carried out by the machine:
every literal as `stod` reads it, every operation the operation of the machine,
applied in the order of the grammar. -/
def Expr.value {D : Type} (M : Machine D) : Expr → D
  | .term t => t.value M
  | .add e t => M.add (e.value M) (t.value M)
  | .sub e t => M.sub (e.value M) (t.value M)
/-- The value of a term. -/
def Term.value {D : Type} (M : Machine D) : Term → D
  | .factor f => f.value M
  | .mul t f => M.mul (t.value M) (f.value M)
  | .div t f => M.div (t.value M) (f.value M)
/-- The value of a factor. -/
def Factor.value {D : Type} (M : Machine D) : Factor → D
  | .lit _ text _ => Machine.numberValue M text
  | .group _ e _ => e.value M
end

mutual
/-- Every literal is an unsigned decimal that `stod` reads completely, and no
divisor, as the machine computes it, passes the test `abs(b) < 1e-10`. -/
def Expr.admissible {D : Type} (M : Machine D) : Expr → Bool
  | .term t => t.admissible M
  | .add e t => e.admissible M && t.admissible M
  | .sub e t => e.admissible M && t.admissible M
/-- The same for a term. -/
def Term.admissible {D : Type} (M : Machine D) : Term → Bool
  | .factor f => f.admissible M
  | .mul t f => t.admissible M && f.admissible M
  | .div t f => t.admissible M && f.admissible M && !M.small (f.value M)
/-- The same for a factor. -/
def Factor.admissible {D : Type} (M : Machine D) : Factor → Bool
  | .lit _ text _ => isUnsignedDecimal text && Machine.isNumber M text
  | .group _ e _ => e.admissible M
end

mutual
/-- Every literal is an unsigned decimal that `stod` reads completely. -/
def Expr.readable {D : Type} (M : Machine D) : Expr → Bool
  | .term t => t.readable M
  | .add e t => e.readable M && t.readable M
  | .sub e t => e.readable M && t.readable M
/-- The same for a term. -/
def Term.readable {D : Type} (M : Machine D) : Term → Bool
  | .factor f => f.readable M
  | .mul t f => t.readable M && f.readable M
  | .div t f => t.readable M && f.readable M
/-- The same for a factor. -/
def Factor.readable {D : Type} (M : Machine D) : Factor → Bool
  | .lit _ text _ => isUnsignedDecimal text && Machine.isNumber M text
  | .group _ e _ => e.readable M
end

/-- The operands of the last, not yet applied operator of a term, top first. -/
def Term.pendingValues {D : Type} (M : Machine D) : Term → List D
  | .factor f => [f.value M]
  | .mul t f => [f.value M, t.value M]
  | .div t f => [f.value M, t.value M]

/-- The last, not yet applied operator of a term. -/
def Term.pendingOperators : Term → List Char
  | .factor _ => []
  | .mul _ _ => ['*']
  | .div _ _ => ['/']

/-- The value stack of the scan after the text of an expression, top first. -/
def Expr.pendingValues {D : Type} (M : Machine D) : Expr → List D
  | .term t => t.pendingValues M
  | .add e t => t.pendingValues M ++ [e.value M]
  | .sub e t => t.pendingValues M ++ [e.value M]

/-- The operator stack of the scan after the text of an expression. -/
def Expr.pendingOperators : Expr → List Char
  | .term t => t.pendingOperators
  | .add _ t => t.pendingOperators ++ ['+']
  | .sub _ t => t.pendingOperators ++ ['-']

end Arith

namespace Machine

/-- With enough fuel the scan loop of `evaluateExpression(expr, localVars)`,
started with locals `s`, ends with `r` (a value or an error). -/
def ScanYields {D : Type} (M : Machine D) (I : Env D) (expr : Name) (localVars : Map D)
    (s : Scan D) (r : Outcome D) : Prop :=
  r ≠ .noFuel ∧ ∃ n, ∀ fuel, n ≤ fuel → scanLoop M I fuel expr localVars s = r

/-- With enough fuel `evaluateExpression(expr, localVars)` ends with `r`: it
returns a value or throws an error. -/
def Yields {D : Type} (M : Machine D) (I : Env D) (expr : Name) (localVars : Map D)
    (r : Outcome D) : Prop :=
  r ≠ .noFuel ∧ ∃ n, ∀ fuel, n ≤ fuel → evaluateExpression M I fuel expr localVars = r

end Machine

namespace Interpreter

/-- The evaluator `eval2` answers wherever `eval1` does, with the same answer. -/
def Extends (eval1 eval2 : Name → Map ℚ → Outcome ℚ) : Prop :=
  ∀ e l, eval1 e l ≠ .noFuel → eval2 e l = eval1 e l

/-- With enough fuel the scan loop of `evaluateExpression(expr, localVars)`,
started with locals `s`, ends with `r` (a value or an error). -/
def ScanYields (I : Interpreter) (stod : Stod) (expr : Name) (localVars : Map ℚ) (s : Scan)
    (r : Outcome ℚ) : Prop :=
  r ≠ .noFuel ∧ ∃ n, ∀ fuel, n ≤ fuel → scanLoop I stod fuel expr localVars s = r

/-- With enough fuel `evaluateExpression(expr, localVars)` ends with `r`: it
returns a value or throws an error. -/
def Yields (I : Interpreter) (stod : Stod) (expr : Name) (localVars : Map ℚ)
    (r : Outcome ℚ) : Prop :=
  r ≠ .noFuel ∧ ∃ n, ∀ fuel, n ≤ fuel → evaluateExpression I stod fuel expr localVars = r

/-- A character that the scan appends to the pending token. -/
def isTokenChar (c : Char) : Bool :=
  !isspace c && c ≠ '(' && c ≠ '+' && c ≠ '-' && c ≠ '*' && c ≠ '/'

/-- The text `a`, read at nesting depth `d`, closes exactly the parentheses that
are open and has no comma outside parentheses. -/
def isArgumentFrom : Nat → List Char → Bool
  | d, [] => d = 0
  | d, c :: cs =>
    if c = '(' then isArgumentFrom (d + 1) cs
    else if c = ')' then decide (0 < d) && isArgumentFrom (d - 1) cs
    else if c = ',' then decide (0 < d) && isArgumentFrom d cs
    else isArgumentFrom d cs

/-- A non-empty argument text: balanced parentheses, no top-level comma. -/
def isArgument (a : Name) : Bool :=
  a ≠ [] && isArgumentFrom 0 a

/-- The argument texts written with commas between them. -/
def joinArgs : List Name → Name
  | [] => []
  | [a] => a
  | a :: b :: as => a ++ ',' :: joinArgs (b :: as)

/-- The text, read with `d` parentheses open, closes exactly those and never
closes one that is not open. -/
def balancedFrom : Nat → List Char → Bool
  | d, [] => d = 0
  | d, c :: cs =>
    if c = '(' then balancedFrom (d + 1) cs
    else if c = ')' then decide (0 < d) && balancedFrom (d - 1) cs
    else balancedFrom d cs

/-- Every `(` of the text has its `)` and every `)` its `(`. -/
def balanced (s : List Char) : Bool :=
  balancedFrom 0 s

/-- The text after a `(`, read with `d` further parentheses open, contains the
`)` that matches that `(`. -/
def closesFrom : Nat → List Char → Bool
  | _, [] => false
  | d, c :: cs =>
    if c = '(' then closesFrom (d + 1) cs
    else if c = ')' then decide (d = 0) || closesFrom (d - 1) cs
    else closesFrom d cs

/-- No text with a `)` (and without `(`, which no token contains) is read as a
number or is the name of a global variable, of a local binding or of a function. -/
def ClosedNames (I : Interpreter) (stod : Stod) (localVars : Map ℚ) : Prop :=
  ∀ t : Name, ')' ∈ t → '(' ∉ t →
    isNumber stod t = false ∧ I.variables.find t = none ∧ localVars.find t = none ∧
      I.functions.find t = none

/-- A trimmed line that `processInstruction` takes for a function definition: it
has a `:` and a `(` before the first `:`. -/
def isFunctionLine (t : Name) : Bool :=
  decide (':' ∈ t ∧ '(' ∈ t.takeWhile (fun c => c ≠ ':'))

/-- The text before the first `:` of a function line, trimmed. -/
def definitionHead (t : Name) : Name :=
  trim (t.takeWhile (fun c => c ≠ ':'))

/-- The function name of a function line: the text before the first `(`. -/
def definedName (t : Name) : Name :=
  trim ((definitionHead t).takeWhile (fun c => c ≠ '('))

/-- The function that a function line stores: the parameters found between the
parentheses of the head, and the text after the first `:` as body. -/
def definedFunction (t : Name) : Function :=
  ⟨parseParameters (parenText (definitionHead t)
      ((definitionHead t).takeWhile (fun c => c ≠ '(')).length),
    parseExpression ((t.dropWhile (fun c => c ≠ ':')).drop 1)⟩

/-- The left side of an assignment line: the text before the first `=`, trimmed. -/
def assignmentLeft (t : Name) : Name :=
  trim (t.takeWhile (fun c => c ≠ '='))

/-- The variable that an assignment line names: the left side up to its `(`. -/
def assignedName (t : Name) : Name :=
  trim ((assignmentLeft t).takeWhile (fun c => c ≠ '('))

/-- The expression of an assignment line: the text after the first `=`, trimmed,
without the final `;`. -/
def assignedExpression (t : Name) : Name :=
  dropSemicolon (trim ((t.dropWhile (fun c => c ≠ '=')).drop 1))

/-- The effect of an assignment line whose expression evaluates with outcome
`r`: the type tag is read from the left side, the value is checked and stored. -/
def storeAssigned (I : Interpreter) (t : Name) (r : Outcome ℚ) : Effect :=
  if '(' ∈ assignmentLeft t then
    if !isValidName (assignedName t) then ⟨I, [], .throw (.invalidVariableName (assignedName t))⟩
    else
      let typeStr := trim (parenText (assignmentLeft t)
        ((assignmentLeft t).takeWhile (fun c => c ≠ '(')).length)
      if typeStr = ['i'] then
        match r with
        | .ok value =>
          if |value - cRound value| > epsilon then
            ⟨I, [], .throw (.nonIntegerValue (assignedName t))⟩
          else
            ⟨⟨I.variables.insert (assignedName t) (.int (castInt value)), I.functions⟩, [], .ok ()⟩
        | .throw e => ⟨I, [], .throw e⟩
        | .noFuel => ⟨I, [], .noFuel⟩
      else if typeStr = ['f'] then
        match r with
        | .ok value =>
          ⟨⟨I.variables.insert (assignedName t) (.float value), I.functions⟩, [], .ok ()⟩
        | .throw e => ⟨I, [], .throw e⟩
        | .noFuel => ⟨I, [], .noFuel⟩
      else ⟨I, [], .throw (.unknownType typeStr)⟩
  else
    if !isValidName (assignmentLeft t) then
      ⟨I, [], .throw (.invalidVariableName (assignmentLeft t))⟩
    else
      match r with
      | .ok value =>
        if |value - cRound value| < epsilon then
          ⟨⟨I.variables.insert (assignmentLeft t) (.int (castInt value)), I.functions⟩, [], .ok ()⟩
        else
          ⟨⟨I.variables.insert (assignmentLeft t) (.float value), I.functions⟩, [], .ok ()⟩
      | .throw e => ⟨I, [], .throw e⟩
      | .noFuel => ⟨I, [], .noFuel⟩

end Interpreter

namespace Proga

/-- The tokens of a text read in one pass: white space and the characters
`+-*/()` end the current run, and each of these six characters is a token. -/
def scanTokens : List Char → Name → List Name
  | [], cur => if cur = [] then [] else [cur]
  | c :: cs, cur =>
    if isspace c then (if cur = [] then [] else [cur]) ++ scanTokens cs []
    else if isOperatorChar c then (if cur = [] then [] else [cur]) ++ [c] :: scanTokens cs []
    else scanTokens cs (cur ++ [c])

end Proga

namespace Arith

mutual
/-- The tokens of an expression: its literals, operators and parentheses. -/
def Expr.tokens : Expr → List Name
  | .term t => t.tokens
  | .add e t => e.tokens ++ ['+'] :: t.tokens
  | .sub e t => e.tokens ++ ['-'] :: t.tokens
/-- The tokens of a term. -/
def Term.tokens : Term → List Name
  | .factor f => f.tokens
  | .mul t f => t.tokens ++ ['*'] :: f.tokens
  | .div t f => t.tokens ++ ['/'] :: f.tokens
/-- The tokens of a factor. -/
def Factor.tokens : Factor → List Name
  | .lit _ text _ => [text]
  | .group _ e _ => ['('] :: (e.tokens ++ [[')']])
end

/-- The operator stack of the second program for pending operators: each
operator as a one-character string. -/
def operatorTokens (ops : List Char) : List Name :=
  ops.map fun c => [c]

end Arith
/-! ## Fuel: a run that has an answer keeps it with more fuel -/

namespace Interpreter

theorem evalArgs_extends (eval1 eval2 : Name → Outcome ℚ)
    (h : ∀ a, eval1 a ≠ .noFuel → eval2 a = eval1 a) :
    ∀ (sub argToken : Name) (d : Int) (args : List ℚ),
      evalArgs eval1 sub argToken d args ≠ .noFuel →
      evalArgs eval2 sub argToken d args = evalArgs eval1 sub argToken d args := by
  intro sub
  induction sub with
  | nil =>
    intro argToken d args hne
    simp only [evalArgs] at hne ⊢
    by_cases ht : argToken = []
    · simp [ht]
    · simp only [ht, ne_eq, not_false_eq_true, if_true] at hne ⊢
      have h1 : eval1 (trim argToken) ≠ .noFuel := by
        intro h0
        rw [h0] at hne
        exact hne rfl
      rw [h _ h1]
  | cons ch cs ih =>
    intro argToken d args hne
    simp only [evalArgs] at hne ⊢
    by_cases h1 : ch = '('
    · simp only [h1, if_true] at hne ⊢
      exact ih _ _ _ hne
    · simp only [h1, if_false] at hne ⊢
      by_cases h2 : ch = ')'
      · simp only [h2, if_true] at hne ⊢
        exact ih _ _ _ hne
      · simp only [h2, if_false] at hne ⊢
        by_cases h3 : ch = ',' ∧ d = 0
        · simp only [h3, and_self, if_true] at hne ⊢
          by_cases ht : argToken = []
          · simp only [ht, ne_eq, not_true_eq_false, if_false] at hne ⊢
            exact ih _ _ _ hne
          · simp only [ht, ne_eq, not_false_eq_true, if_true] at hne ⊢
            have h4 : eval1 (trim argToken) ≠ .noFuel := by
              intro h0
              rw [h0] at hne
              exact hne rfl
            rw [h _ h4]
            cases h5 : eval1 (trim argToken) with
            | ok v =>
              rw [h5] at hne
              exact ih _ _ _ hne
            | throw e => rfl
            | noFuel => exact absurd h5 h4
        · simp only [h3, if_false] at hne ⊢
          exact ih _ _ _ hne

theorem callFunction_extends (eval1 eval2 : Name → Map ℚ → Outcome ℚ) (h : Extends eval1 eval2)
    (expr : Name) (localVars : Map ℚ) (funcName : Name) (func : Function) (subExpr : Name)
    (hne : callFunction eval1 expr localVars funcName func subExpr ≠ .noFuel) :
    callFunction eval2 expr localVars funcName func subExpr =
      callFunction eval1 expr localVars funcName func subExpr := by
  unfold callFunction at hne ⊢
  have hargs : evalArgs (fun a => eval1 a localVars) subExpr [] 0 [] ≠ .noFuel := by
    intro h0
    rw [h0] at hne
    exact hne rfl
  rw [evalArgs_extends (fun a => eval1 a localVars) (fun a => eval2 a localVars)
    (fun a ha => h a localVars ha) subExpr [] 0 [] hargs]
  cases h1 : evalArgs (fun a => eval1 a localVars) subExpr [] 0 [] with
  | ok args =>
    rw [h1] at hne
    simp only at hne ⊢
    by_cases h2 : args.length ≠ func.params.length
    · rw [if_pos h2, if_pos h2]
    · rw [if_neg h2] at hne ⊢
      rw [if_neg h2]
      exact h _ _ hne
  | throw e => rfl
  | noFuel => exact absurd h1 hargs

theorem step_extends (I : Interpreter) (stod : Stod) (eval1 eval2 : Name → Map ℚ → Outcome ℚ)
    (h : Extends eval1 eval2) (expr : Name) (localVars : Map ℚ) (s : Scan)
    (hne : step I stod eval1 expr localVars s ≠ .done .noFuel) :
    step I stod eval2 expr localVars s = step I stod eval1 expr localVars s := by
  cases hr : s.rest with
  | nil =>
    unfold step
    simp only [hr]
  | cons c cs =>
    unfold step at hne ⊢
    simp only [hr] at hne ⊢
    by_cases h1 : isspace c = true
    · simp only [h1, if_true]
    · simp only [h1, if_false, Bool.false_eq_true] at hne ⊢
      by_cases h2 : c = '('
      · simp only [h2, if_true] at hne ⊢
        rcases hx : extractSub cs 1 [] with ⟨subExpr, rest1, parenCount⟩
        simp only [hx] at hne ⊢
        by_cases h3 : parenCount ≠ 0
        · rw [if_pos h3, if_pos h3]
        · rw [if_neg h3] at hne ⊢
          rw [if_neg h3]
          cases hf : (if s.token ≠ [] then I.functions.find s.token else none) with
          | some func =>
            simp only [hf] at hne ⊢
            have hc : callFunction eval1 expr localVars s.token func subExpr ≠ .noFuel := by
              intro h0
              rw [h0] at hne
              exact hne rfl
            rw [callFunction_extends eval1 eval2 h expr localVars s.token func subExpr hc]
          | none =>
            simp only [hf] at hne ⊢
            cases hfl : flushToken I stod expr localVars s.token s.values with
            | ok values1 =>
              simp only [hfl] at hne ⊢
              have hc : eval1 subExpr localVars ≠ .noFuel := by
                intro h0
                rw [h0] at hne
                exact hne rfl
              rw [h _ _ hc]
            | throw e => simp only
            | noFuel => simp only
      · simp only [h2, if_false]

theorem scanLoop_succ (I : Interpreter) (stod : Stod) :
    ∀ (fuel : Nat) (expr : Name) (localVars : Map ℚ) (s : Scan),
      scanLoop I stod fuel expr localVars s ≠ .noFuel →
      scanLoop I stod (fuel + 1) expr localVars s = scanLoop I stod fuel expr localVars s := by
  intro fuel
  induction fuel with
  | zero =>
    intro expr localVars s hne
    exact absurd rfl hne
  | succ n ih =>
    intro expr localVars s hne
    have hext : Extends (fun e l => scanLoop I stod n e l (Scan.init e))
        (fun e l => scanLoop I stod (n + 1) e l (Scan.init e)) :=
      fun e l he => ih e l (Scan.init e) he
    rw [scanLoop] at hne
    rw [scanLoop.eq_def I stod (n + 1 + 1)]
    simp only
    have hstep : step I stod (fun e l => scanLoop I stod n e l (Scan.init e)) expr localVars s ≠
        .done .noFuel := by
      intro h0
      rw [h0] at hne
      exact hne rfl
    rw [step_extends I stod _ _ hext expr localVars s hstep]
    rw [scanLoop.eq_def I stod (n + 1)]
    simp only
    cases hs : step I stod (fun e l => scanLoop I stod n e l (Scan.init e)) expr localVars s with
    | done r => rfl
    | more s1 =>
      rw [hs] at hne
      exact ih expr localVars s1 hne

theorem scanLoop_mono (I : Interpreter) (stod : Stod) (fuel k : Nat) (expr : Name)
    (localVars : Map ℚ) (s : Scan) (hne : scanLoop I stod fuel expr localVars s ≠ .noFuel) :
    scanLoop I stod (fuel + k) expr localVars s = scanLoop I stod fuel expr localVars s := by
  induction k with
  | zero => rfl
  | succ k ih =>
    rw [← Nat.add_assoc, scanLoop_succ I stod (fuel + k) expr localVars s (by rw [ih]; exact hne), ih]

theorem evaluateExpression_mono (I : Interpreter) (stod : Stod) (fuel fuel1 : Nat) (expr : Name)
    (localVars : Map ℚ) (hle : fuel ≤ fuel1)
    (hne : evaluateExpression I stod fuel expr localVars ≠ .noFuel) :
    evaluateExpression I stod fuel1 expr localVars = evaluateExpression I stod fuel expr localVars := by
  obtain ⟨k, rfl⟩ := Nat.exists_eq_add_of_le hle
  exact scanLoop_mono I stod fuel k expr localVars (Scan.init expr) hne

/-! ## The scan loop, one pass at a time -/

theorem scanLoop_succ_eq (I : Interpreter) (stod : Stod) (fuel : Nat) (expr : Name)
    (localVars : Map ℚ) (s : Scan) :
    scanLoop I stod (fuel + 1) expr localVars s =
      match step I stod (evaluateExpression I stod fuel) expr localVars s with
      | .done r => r
      | .more s1 => scanLoop I stod fuel expr localVars s1 := rfl

theorem yields_iff_scanYields (I : Interpreter) (stod : Stod) (expr : Name) (localVars : Map ℚ)
    (r : Outcome ℚ) :
    Yields I stod expr localVars r ↔ ScanYields I stod expr localVars (Scan.init expr) r :=
  Iff.rfl

theorem yields_of_eq (I : Interpreter) (stod : Stod) (expr : Name) (localVars : Map ℚ)
    (r : Outcome ℚ) (n : Nat) (h : evaluateExpression I stod n expr localVars = r)
    (hr : r ≠ .noFuel) : Yields I stod expr localVars r := by
  refine ⟨hr, n, fun fuel hle => ?_⟩
  rw [evaluateExpression_mono I stod n fuel expr localVars hle (by rw [h]; exact hr), h]

theorem yields_unique (I : Interpreter) (stod : Stod) (expr : Name) (localVars : Map ℚ)
    (r1 r2 : Outcome ℚ) (h1 : Yields I stod expr localVars r1)
    (h2 : Yields I stod expr localVars r2) : r1 = r2 := by
  obtain ⟨_, n1, h1⟩ := h1
  obtain ⟨_, n2, h2⟩ := h2
  rw [← h1 (max n1 n2) (le_max_left _ _), ← h2 (max n1 n2) (le_max_right _ _)]

theorem scanYields_more (I : Interpreter) (stod : Stod) (expr : Name) (localVars : Map ℚ)
    (s s1 : Scan) (r : Outcome ℚ)
    (hstep : ∃ m, ∀ k, m ≤ k →
      step I stod (evaluateExpression I stod k) expr localVars s = .more s1)
    (h : ScanYields I stod expr localVars s1 r) : ScanYields I stod expr localVars s r := by
  obtain ⟨m, hm⟩ := hstep
  obtain ⟨hr, n, hn⟩ := h
  refine ⟨hr, max m n + 1, fun fuel hle => ?_⟩
  obtain ⟨f, rfl⟩ : ∃ f, fuel = f + 1 := ⟨fuel - 1, by omega⟩
  have h1 : m ≤ f := by
    have := le_max_left m n
    omega
  have h2 : n ≤ f := by
    have := le_max_right m n
    omega
  rw [scanLoop_succ_eq, hm f h1]
  exact hn f h2

theorem scanYields_done (I : Interpreter) (stod : Stod) (expr : Name) (localVars : Map ℚ)
    (s : Scan) (r : Outcome ℚ) (hr : r ≠ .noFuel)
    (hstep : ∃ m, ∀ k, m ≤ k →
      step I stod (evaluateExpression I stod k) expr localVars s = .done r) :
    ScanYields I stod expr localVars s r := by
  obtain ⟨m, hm⟩ := hstep
  refine ⟨hr, m + 1, fun fuel hle => ?_⟩
  obtain ⟨f, rfl⟩ : ∃ f, fuel = f + 1 := ⟨fuel - 1, by omega⟩
  rw [scanLoop_succ_eq, hm f (by omega)]

theorem step_end (I : Interpreter) (stod : Stod) (eval : Name → Map ℚ → Outcome ℚ) (expr : Name)
    (localVars : Map ℚ) (s : Scan) (hrest : s.rest = []) :
    step I stod eval expr localVars s = .done (finish I stod expr localVars s) := by
  unfold step
  simp only [hrest]

theorem step_space (I : Interpreter) (stod : Stod) (eval : Name → Map ℚ → Outcome ℚ)
    (expr : Name) (localVars : Map ℚ) (s : Scan) (c : Char) (cs : List Char)
    (hrest : s.rest = c :: cs) (hc : isspace c = true) :
    step I stod eval expr localVars s = .more { s with rest := cs } := by
  unfold step
  simp only [hrest, hc, if_true]

theorem isTokenChar_iff (c : Char) :
    isTokenChar c = true ↔
      isspace c = false ∧ c ≠ '(' ∧ c ≠ '+' ∧ c ≠ '-' ∧ c ≠ '*' ∧ c ≠ '/' := by
  simp [isTokenChar, and_assoc]

theorem step_tokenChar (I : Interpreter) (stod : Stod) (eval : Name → Map ℚ → Outcome ℚ)
    (expr : Name) (localVars : Map ℚ) (s : Scan) (c : Char) (cs : List Char)
    (hrest : s.rest = c :: cs) (hc : isTokenChar c = true) :
    step I stod eval expr localVars s = .more { s with token := s.token ++ [c], rest := cs } := by
  obtain ⟨h1, h2, h3, h4, h5, h6⟩ := (isTokenChar_iff c).1 hc
  unfold step
  simp [hrest, h1, h2, h3, h4, h5, h6]

theorem step_operator (I : Interpreter) (stod : Stod) (eval : Name → Map ℚ → Outcome ℚ)
    (expr : Name) (localVars : Map ℚ) (s : Scan) (c : Char) (cs : List Char)
    (hrest : s.rest = c :: cs) (hc : c = '+' ∨ c = '-' ∨ c = '*' ∨ c = '/') :
    step I stod eval expr localVars s =
      match flushToken I stod expr localVars s.token s.values with
      | .ok values1 =>
        match reduceWhile expr c values1 s.operators with
        | .ok (values2, operators2) => .more ⟨values2, c :: operators2, [], cs, true⟩
        | .throw e => .done (.throw e)
        | .noFuel => .done .noFuel
      | .throw e => .done (.throw e)
      | .noFuel => .done .noFuel := by
  have h1 : isspace c = false := by
    rcases hc with h | h | h | h <;> (subst h; decide)
  have h2 : c ≠ '(' := by
    rcases hc with h | h | h | h <;> (subst h; decide)
  unfold step
  simp only [hrest, h1, h2, hc, if_true, if_false, Bool.false_eq_true]

theorem step_paren (I : Interpreter) (stod : Stod) (eval : Name → Map ℚ → Outcome ℚ)
    (expr : Name) (localVars : Map ℚ) (s : Scan) (cs : List Char)
    (hrest : s.rest = '(' :: cs) :
    step I stod eval expr localVars s =
      if (extractSub cs 1 []).2.2 ≠ 0 then .done (.throw (.mismatchedParentheses expr))
      else
        match (if s.token ≠ [] then I.functions.find s.token else none) with
        | some func =>
          match callFunction eval expr localVars s.token func (extractSub cs 1 []).1 with
          | .ok v =>
            .more ⟨v :: s.values,
              if (!s.expectOperand && s.token.isEmpty) = true then '*' :: s.operators
              else s.operators, [], (extractSub cs 1 []).2.1, false⟩
          | .throw e => .done (.throw e)
          | .noFuel => .done .noFuel
        | none =>
          match flushToken I stod expr localVars s.token s.values with
          | .ok values1 =>
            match eval (extractSub cs 1 []).1 localVars with
            | .ok v =>
              .more ⟨v :: values1,
                if (!s.expectOperand && s.token.isEmpty) = true then '*' :: s.operators
                else s.operators, [], (extractSub cs 1 []).2.1, false⟩
            | .throw e => .done (.throw e)
            | .noFuel => .done .noFuel
          | .throw e => .done (.throw e)
          | .noFuel => .done .noFuel := by
  have h1 : isspace '(' = false := by decide
  unfold step
  simp only [hrest, h1, if_true, if_false, Bool.false_eq_true]

/-! ## Scanning white space and token characters -/

theorem scanYields_spaces (I : Interpreter) (stod : Stod) (expr : Name) (localVars : Map ℚ)
    (vs : List ℚ) (ops : List Char) (tok : Name) (eo : Bool) (r : Outcome ℚ) :
    ∀ (n : Nat) (rest : List Char),
      ScanYields I stod expr localVars ⟨vs, ops, tok, rest, eo⟩ r →
      ScanYields I stod expr localVars ⟨vs, ops, tok, List.replicate n ' ' ++ rest, eo⟩ r := by
  intro n
  induction n with
  | zero => intro rest h; simpa using h
  | succ n ih =>
    intro rest h
    refine scanYields_more I stod expr localVars _ ⟨vs, ops, tok, List.replicate n ' ' ++ rest, eo⟩
      r ⟨0, fun k _ => ?_⟩ (ih rest h)
    exact step_space I stod _ expr localVars _ ' ' (List.replicate n ' ' ++ rest)
      (by simp [List.replicate_succ]) (by decide)

theorem scanYields_token (I : Interpreter) (stod : Stod) (expr : Name) (localVars : Map ℚ)
    (vs : List ℚ) (ops : List Char) (eo : Bool) (r : Outcome ℚ) :
    ∀ (text : List Char) (tok : Name) (rest : List Char),
      (∀ c ∈ text, isTokenChar c = true) →
      ScanYields I stod expr localVars ⟨vs, ops, tok ++ text, rest, eo⟩ r →
      ScanYields I stod expr localVars ⟨vs, ops, tok, text ++ rest, eo⟩ r := by
  intro text
  induction text with
  | nil => intro tok rest _ h; simpa using h
  | cons c cs ih =>
    intro tok rest hall h
    have hc : isTokenChar c = true := hall c (List.mem_cons_self _ _)
    have hcs : ∀ d ∈ cs, isTokenChar d = true := fun d hd => hall d (List.mem_cons_of_mem _ hd)
    refine scanYields_more I stod expr localVars _ ⟨vs, ops, tok ++ [c], cs ++ rest, eo⟩
      r ⟨0, fun k _ => ?_⟩ (ih (tok ++ [c]) rest hcs (by simpa using h))
    exact step_tokenChar I stod _ expr localVars _ c (cs ++ rest) rfl hc

/-! ## The operator stack -/

theorem getPrecedence_le_two (c : Char) : getPrecedence c ≤ 2 := by
  unfold getPrecedence
  split
  · omega
  · split <;> omega

theorem reduceWhile_low (expr : Name) (c : Char) (hc : c = '*' ∨ c = '/') (vs : List ℚ)
    (ops : List Char) (hops : ops = [] ∨ ops = ['+'] ∨ ops = ['-']) :
    reduceWhile expr c vs ops = .ok (vs, ops) := by
  have h2 : getPrecedence c = 2 := by
    rcases hc with h | h <;> (subst h; decide)
  rcases hops with h | h | h <;> subst h
  · simp [reduceWhile]
  · have : getPrecedence '+' = 1 := by decide
    simp [reduceWhile, h2, this]
  · have : getPrecedence '-' = 1 := by decide
    simp [reduceWhile, h2, this]

theorem reduceWhile_apply (expr : Name) (c op : Char) (a b v : ℚ) (vs : List ℚ)
    (ops : List Char) (hop : op ≠ '(') (hprec : getPrecedence c ≤ getPrecedence op)
    (happly : applyOperator a b op = .ok v) :
    reduceWhile expr c (b :: a :: vs) (op :: ops) = reduceWhile expr c (v :: vs) ops := by
  rw [reduceWhile]
  simp only [ne_eq, hop, not_false_eq_true, ge_iff_le, hprec, and_self, if_true, happly]

theorem applyOperator_add (a b : ℚ) : applyOperator a b '+' = .ok (a + b) := by
  simp [applyOperator]

theorem applyOperator_sub (a b : ℚ) : applyOperator a b '-' = .ok (a - b) := by
  simp [applyOperator]

theorem applyOperator_mul (a b : ℚ) : applyOperator a b '*' = .ok (a * b) := by
  simp [applyOperator]

theorem extractSub_zero (cs : List Char) (acc : Name) : extractSub cs 0 acc = (acc, cs, 0) := by
  cases cs <;> simp [extractSub]

theorem extractSub_plain (text : List Char) (hp : ∀ c ∈ text, c ≠ '(' ∧ c ≠ ')') :
    ∀ (d : Nat) (acc : Name) (tail : List Char),
      extractSub (text ++ tail) (d + 1) acc = extractSub tail (d + 1) (acc ++ text) := by
  induction text with
  | nil => intro d acc tail; simp
  | cons c cs ih =>
    intro d acc tail
    obtain ⟨h1, h2⟩ := hp c (List.mem_cons_self _ _)
    have := ih (fun x hx => hp x (List.mem_cons_of_mem _ hx)) d (acc ++ [c]) tail
    simp only [List.cons_append, extractSub, h1, h2, if_false, Nat.succ_pos, if_true,
      Nat.lt_add_left_iff_pos, Nat.zero_lt_succ, gt_iff_lt]
    simpa using this

theorem extractSub_open (d : Nat) (acc : Name) (tail : List Char) :
    extractSub ('(' :: tail) (d + 1) acc = extractSub tail (d + 2) (acc ++ ['(']) := by
  simp [extractSub]

theorem extractSub_close (d : Nat) (acc : Name) (tail : List Char) :
    extractSub (')' :: tail) (d + 2) acc = extractSub tail (d + 1) (acc ++ [')']) := by
  simp [extractSub]

theorem extractSub_last (acc : Name) (tail : List Char) :
    extractSub (')' :: tail) 1 acc = (acc, tail, 0) := by
  rw [extractSub]
  simp [extractSub_zero]

end Interpreter

/-! ## Maps -/

namespace Map

theorem find_insert {α : Type} (m : Map α) (k : Name) (v : α) (x : Name) :
    (m.insert k v).find x = if x = k then some v else m.find x := by
  induction m with
  | nil => simp [insert, find]
  | cons p m ih =>
    obtain ⟨k1, w⟩ := p
    simp only [insert]
    by_cases h1 : k = k1
    · subst h1
      simp only [if_true, find]
      by_cases hx : x = k <;> simp [hx]
    · simp only [h1, if_false]
      by_cases h2 : k < k1
      · simp only [h2, if_true, find]
      · simp only [h2, if_false, find, ih]
        by_cases h3 : x = k1
        · subst h3
          have : ¬ x = k := fun h => h1 h.symm
          simp [this]
        · simp [h3]

end Map

namespace Interpreter

/-! ## Function calls -/

theorem find_bindParams_of_not_mem (x : Name) :
    ∀ (params : List Name) (l : Map ℚ) (vals : List ℚ), x ∉ params →
      (bindParams l params vals).find x = l.find x := by
  intro params
  induction params with
  | nil => intro l vals _; cases vals <;> rfl
  | cons p ps ih =>
    intro l vals hx
    cases vals with
    | nil => rfl
    | cons v vs =>
      have h1 : x ≠ p := fun h => hx (h ▸ List.mem_cons_self _ _)
      have h2 : x ∉ ps := fun h => hx (List.mem_cons_of_mem _ h)
      rw [bindParams, ih _ _ h2, Map.find_insert, if_neg h1]

theorem find_bindParams_of_mem :
    ∀ (params : List Name) (l : Map ℚ) (vals : List ℚ) (p : Name) (v : ℚ), params.Nodup →
      (p, v) ∈ params.zip vals → (bindParams l params vals).find p = some v := by
  intro params
  induction params with
  | nil => intro l vals p v _ h; simp at h
  | cons q ps ih =>
    intro l vals p v hnd h
    cases vals with
    | nil => simp at h
    | cons w vs =>
      rw [List.nodup_cons] at hnd
      rw [List.zip_cons_cons, List.mem_cons] at h
      rw [bindParams]
      rcases h with h | h
      · obtain ⟨rfl, rfl⟩ := Prod.mk.inj h
        rw [find_bindParams_of_not_mem _ _ _ _ hnd.1, Map.find_insert, if_pos rfl]
      · exact ih _ _ _ _ hnd.2 h

theorem extractSub_argument : ∀ (a : List Char) (d : Nat) (acc : Name) (tail : List Char),
    isArgumentFrom d a = true →
    extractSub (a ++ tail) (d + 1) acc = extractSub tail 1 (acc ++ a) := by
  intro a
  induction a with
  | nil =>
    intro d acc tail h
    simp only [isArgumentFrom, decide_eq_true_eq] at h
    subst h
    simp
  | cons c cs ih =>
    intro d acc tail h
    rw [isArgumentFrom] at h
    by_cases h1 : c = '('
    · subst h1
      simp only [if_true] at h
      have := ih (d + 1) (acc ++ ['(']) tail h
      rw [List.cons_append, extractSub_open, this]
      simp
    · simp only [h1, if_false] at h
      by_cases h2 : c = ')'
      · subst h2
        simp only [if_true, Bool.and_eq_true, decide_eq_true_eq] at h
        obtain ⟨d1, rfl⟩ : ∃ d1, d = d1 + 1 := ⟨d - 1, by omega⟩
        have := ih d1 (acc ++ [')']) tail (by simpa using h.2)
        rw [List.cons_append, extractSub_close, this]
        simp
      · have hh : isArgumentFrom d cs = true := by
          by_cases h3 : c = ','
          · subst h3
            simp only [show ¬ (',' = ')') by decide, if_false, if_true, Bool.and_eq_true] at h
            exact h.2
          · simpa only [h2, if_false, h3] using h
        have := ih d (acc ++ [c]) tail hh
        rw [List.cons_append, extractSub]
        simp only [h1, h2, if_false, Nat.succ_pos, if_true, gt_iff_lt, Nat.zero_lt_succ]
        rw [this]
        simp

theorem extractSub_joinArgs : ∀ (args : List Name) (acc : Name) (tail : List Char),
    (∀ a ∈ args, isArgument a = true) →
    extractSub (joinArgs args ++ tail) 1 acc = extractSub tail 1 (acc ++ joinArgs args) := by
  intro args
  induction args with
  | nil => intro acc tail _; simp [joinArgs]
  | cons a as ih =>
    intro acc tail h
    have ha : isArgumentFrom 0 a = true := by
      have := h a (List.mem_cons_self _ _)
      simp only [isArgument, Bool.and_eq_true] at this
      exact this.2
    cases as with
    | nil =>
      simpa [joinArgs] using extractSub_argument a 0 acc tail ha
    | cons b bs =>
      have h1 := extractSub_argument a 0 acc (',' :: (joinArgs (b :: bs) ++ tail)) ha
      have h2 := extractSub_plain [','] (by decide) 0 (acc ++ a) (joinArgs (b :: bs) ++ tail)
      have h3 := ih (acc ++ a ++ [',']) tail (fun x hx => h x (List.mem_cons_of_mem _ hx))
      simp only [joinArgs, List.append_assoc, List.cons_append, List.nil_append,
        List.singleton_append, Nat.zero_add] at h1 h2 h3 ⊢
      rw [h1, h2, h3]

/-- The inner loop at the `(` of a call copies the argument list up to its `)`. -/
theorem extractSub_call (args : List Name) (tail : List Char)
    (h : ∀ a ∈ args, isArgument a = true) :
    extractSub (joinArgs args ++ ')' :: tail) 1 [] = (joinArgs args, tail, 0) := by
  rw [extractSub_joinArgs args [] (')' :: tail) h, List.nil_append, extractSub_last]

theorem evalArgs_argument (eval : Name → Outcome ℚ) :
    ∀ (a : List Char) (d : Nat) (tok : Name) (args : List ℚ) (tail : List Char),
      isArgumentFrom d a = true →
      evalArgs eval (a ++ tail) tok (d : Int) args = evalArgs eval tail (tok ++ a) 0 args := by
  intro a
  induction a with
  | nil =>
    intro d tok args tail h
    simp only [isArgumentFrom, decide_eq_true_eq] at h
    subst h
    simp
  | cons c cs ih =>
    intro d tok args tail h
    rw [isArgumentFrom] at h
    by_cases h1 : c = '('
    · subst h1
      simp only [if_true] at h
      have := ih (d + 1) (tok ++ ['(']) args tail h
      rw [List.cons_append, evalArgs]
      simp only [if_true]
      push_cast at this
      rw [this]
      simp
    · simp only [h1, if_false] at h
      by_cases h2 : c = ')'
      · subst h2
        simp only [if_true, Bool.and_eq_true, decide_eq_true_eq] at h
        obtain ⟨d1, rfl⟩ : ∃ d1, d = d1 + 1 := ⟨d - 1, by omega⟩
        have := ih d1 (tok ++ [')']) args tail (by simpa using h.2)
        rw [List.cons_append, evalArgs]
        simp only [h1, if_false, if_true]
        push_cast
        rw [add_sub_cancel_right, this]
        simp
      · have hh : isArgumentFrom d cs = true ∧ ¬ (c = ',' ∧ (d : Int) = 0) := by
          by_cases h3 : c = ','
          · subst h3
            simp only [show ¬ (',' = ')') by decide, if_false, if_true, Bool.and_eq_true,
              decide_eq_true_eq] at h
            refine ⟨h.2, fun hc => ?_⟩
            have := hc.2
            omega
          · exact ⟨by simpa only [h2, if_false, h3] using h, fun hc => h3 hc.1⟩
        have := ih d (tok ++ [c]) args tail hh.1
        rw [List.cons_append, evalArgs]
        simp only [h1, h2, if_false, hh.2]
        rw [this]
        simp

theorem evalArgs_joinArgs (eval : Name → Outcome ℚ) (args : List Name) (vals : List ℚ)
    (h : List.Forall₂ (fun a v => isArgument a = true ∧ eval (trim a) = .ok v) args vals) :
    ∀ (acc : List ℚ), evalArgs eval (joinArgs args) [] 0 acc = .ok (acc ++ vals) := by
  induction h with
  | nil => intro acc; simp [joinArgs, evalArgs]
  | @cons a v as vs hav hrest ih =>
    intro acc
    have ha : isArgumentFrom 0 a = true ∧ a ≠ [] := by
      have := hav.1
      simp only [isArgument, Bool.and_eq_true, decide_eq_true_eq] at this
      exact ⟨this.2, this.1⟩
    cases as with
    | nil =>
      cases hrest
      have h1 := evalArgs_argument eval a 0 [] acc [] ha.1
      simp only [List.append_nil, List.nil_append, Nat.cast_zero] at h1
      rw [joinArgs, h1, evalArgs]
      simp [ha.2, hav.2]
    | cons b bs =>
      have h1 := evalArgs_argument eval a 0 [] acc (',' :: joinArgs (b :: bs)) ha.1
      simp only [List.nil_append, Nat.cast_zero] at h1
      rw [joinArgs, h1, evalArgs]
      simp only [show ¬ (',' = '(') by decide, show ¬ (',' = ')') by decide, if_false, and_self,
        if_true, ne_eq, ha.2, not_false_eq_true, hav.2]
      rw [ih (acc ++ [v])]
      simp

/-- The arguments of a call all have their values from one fuel level on. -/
theorem yields_args (I : Interpreter) (stod : Stod) (localVars : Map ℚ) (args : List Name)
    (vals : List ℚ)
    (h : List.Forall₂
      (fun a v => isArgument a = true ∧ Yields I stod (trim a) localVars (.ok v)) args vals) :
    ∃ m, ∀ k, m ≤ k → List.Forall₂
      (fun a v => isArgument a = true ∧ evaluateExpression I stod k (trim a) localVars = .ok v)
      args vals := by
  induction h with
  | nil => exact ⟨0, fun _ _ => List.Forall₂.nil⟩
  | @cons a v as vs hav _ ih =>
    obtain ⟨m1, h1⟩ := ih
    obtain ⟨_, m2, h2⟩ := hav.2
    refine ⟨max m1 m2, fun k hk => List.Forall₂.cons ⟨hav.1, h2 k ?_⟩ (h1 k ?_)⟩
    · exact le_trans (le_max_right _ _) hk
    · exact le_trans (le_max_left _ _) hk

theorem step_call (I : Interpreter) (stod : Stod) (eval : Name → Map ℚ → Outcome ℚ)
    (expr : Name) (localVars : Map ℚ) (vs : List ℚ) (ops : List Char) (f : Name) (eo : Bool)
    (cs sub rest1 : List Char) (func : Function) (hf : I.functions.find f = some func)
    (hname : f ≠ []) (hx : extractSub cs 1 [] = (sub, rest1, 0)) :
    step I stod eval expr localVars ⟨vs, ops, f, '(' :: cs, eo⟩ =
      match callFunction eval expr localVars f func sub with
      | .ok v => .more ⟨v :: vs, ops, [], rest1, false⟩
      | .throw e => .done (.throw e)
      | .noFuel => .done .noFuel := by
  rw [step_paren I stod eval expr localVars _ cs rfl]
  have h1 : f.isEmpty = false := by
    cases f with
    | nil => exact absurd rfl hname
    | cons _ _ => rfl
  simp [hx, hf, hname, h1]

theorem callFunction_eq (eval : Name → Map ℚ → Outcome ℚ) (expr : Name) (localVars : Map ℚ)
    (f : Name) (func : Function) (args : List Name) (vals : List ℚ)
    (h : List.Forall₂ (fun a v => isArgument a = true ∧ eval (trim a) localVars = .ok v)
      args vals) :
    callFunction eval expr localVars f func (joinArgs args) =
      if vals.length ≠ func.params.length then
        .throw (.incorrectArguments f func.params.length vals.length expr)
      else eval func.expression (bindParams localVars func.params vals) := by
  unfold callFunction
  rw [evalArgs_joinArgs (fun a => eval a localVars) args vals h []]
  simp

end Interpreter

namespace Interpreter

theorem isArgument_of_forall₂ (P : Name → ℚ → Prop) (args : List Name) (vals : List ℚ)
    (h : List.Forall₂ (fun a v => isArgument a = true ∧ P a v) args vals) :
    ∀ a ∈ args, isArgument a = true := by
  induction h with
  | nil => intro a ha; simp at ha
  | @cons a v as vs hav _ ih =>
    intro x hx
    rcases List.mem_cons.1 hx with h1 | h1
    · rw [h1]; exact hav.1
    · exact ih x h1

/-- A call with the wrong number of arguments throws, whatever follows it. -/
theorem yields_call_arity (I : Interpreter) (stod : Stod) (localVars : Map ℚ) (f : Name)
    (func : Function) (args : List Name) (vals : List ℚ) (rest : List Char)
    (hf : I.functions.find f = some func) (hname : f ≠ [])
    (htok : ∀ c ∈ f, isTokenChar c = true)
    (hargs : List.Forall₂
      (fun a v => isArgument a = true ∧ Yields I stod (trim a) localVars (.ok v)) args vals)
    (hne : args.length ≠ func.params.length) :
    Yields I stod (f ++ '(' :: (joinArgs args ++ ')' :: rest)) localVars
      (.throw (.incorrectArguments f func.params.length args.length
        (f ++ '(' :: (joinArgs args ++ ')' :: rest)))) := by
  rw [yields_iff_scanYields]
  refine scanYields_token I stod _ localVars [] [] true _ f [] _ htok ?_
  rw [List.nil_append]
  obtain ⟨m, hm⟩ := yields_args I stod localVars args vals hargs
  have hisarg := isArgument_of_forall₂ _ args vals hargs
  refine scanYields_done I stod _ localVars _ _ (by simp) ⟨m, fun k hk => ?_⟩
  rw [step_call I stod _ _ localVars [] [] f true _ (joinArgs args) rest func hf hname
    (extractSub_call args rest hisarg)]
  rw [callFunction_eq _ _ localVars f func args vals (hm k hk)]
  have hlen : vals.length = args.length := (List.Forall₂.length_eq hargs).symm
  rw [hlen, if_pos hne]

/-- A call with the right number of arguments ends as the body does under the
bound parameters. -/
theorem yields_call (I : Interpreter) (stod : Stod) (localVars : Map ℚ) (f : Name)
    (func : Function) (args : List Name) (vals : List ℚ) (r : Outcome ℚ)
    (hf : I.functions.find f = some func) (hname : f ≠ [])
    (htok : ∀ c ∈ f, isTokenChar c = true)
    (hargs : List.Forall₂
      (fun a v => isArgument a = true ∧ Yields I stod (trim a) localVars (.ok v)) args vals)
    (hlen : args.length = func.params.length)
    (hbody : Yields I stod func.expression (bindParams localVars func.params vals) r) :
    Yields I stod (f ++ '(' :: (joinArgs args ++ [')'])) localVars r := by
  rw [yields_iff_scanYields]
  refine scanYields_token I stod _ localVars [] [] true _ f [] _ htok ?_
  rw [List.nil_append]
  obtain ⟨m, hm⟩ := yields_args I stod localVars args vals hargs
  obtain ⟨hr, m2, hm2⟩ := hbody
  have hisarg := isArgument_of_forall₂ _ args vals hargs
  have hlen2 : ¬ vals.length ≠ func.params.length := by
    rw [← List.Forall₂.length_eq hargs]
    exact not_not.2 hlen
  have hstep : ∀ k, max m m2 ≤ k →
      step I stod (evaluateExpression I stod k) (f ++ '(' :: (joinArgs args ++ [')'])) localVars
        ⟨[], [], f, '(' :: (joinArgs args ++ [')']), true⟩ =
      match r with
      | .ok v => .more ⟨[v], [], [], [], false⟩
      | .throw e => .done (.throw e)
      | .noFuel => .done .noFuel := by
    intro k hk
    rw [step_call I stod _ _ localVars [] [] f true _ (joinArgs args) [] func hf hname
      (extractSub_call args [] hisarg)]
    rw [callFunction_eq _ _ localVars f func args vals (hm k (le_trans (le_max_left _ _) hk))]
    rw [if_neg hlen2, hm2 k (le_trans (le_max_right _ _) hk)]
    cases r <;> rfl
  cases r with
  | ok v =>
    refine scanYields_more I stod _ localVars _ ⟨[v], [], [], [], false⟩ _
      ⟨max m m2, fun k hk => hstep k hk⟩ ?_
    refine scanYields_done I stod _ localVars _ _ (by simp) ⟨0, fun k _ => ?_⟩
    rw [step_end I stod _ _ localVars _ rfl]
    simp [finish, flushToken, reduceAll]
  | throw e =>
    exact scanYields_done I stod _ localVars _ _ (by simp) ⟨max m m2, fun k hk => hstep k hk⟩
  | noFuel => exact absurd rfl hr

end Interpreter

/-! ## Text: `trim`, `find`, `substr` -/

namespace Interpreter

theorem dropWhile_append_cons {p : Char → Bool} (c : Char) (hc : p c = false) :
    ∀ (l1 l2 : List Char), (l1 ++ c :: l2).dropWhile p = l1.dropWhile p ++ c :: l2 ∨
      (l1.dropWhile p = [] ∧ (l1 ++ c :: l2).dropWhile p = c :: l2) := by
  intro l1
  induction l1 with
  | nil => intro l2; right; simp [List.dropWhile, hc]
  | cons d ds ih =>
    intro l2
    by_cases hd : p d = true
    · simp only [List.cons_append, List.dropWhile_cons_of_pos hd]
      exact ih l2
    · left
      simp [List.dropWhile, hd]

theorem dropWhile_append_cons_eq {p : Char → Bool} (c : Char) (hc : p c = false)
    (l1 l2 : List Char) : (l1 ++ c :: l2).dropWhile p = l1.dropWhile p ++ c :: l2 := by
  rcases dropWhile_append_cons c hc l1 l2 with h | h
  · exact h
  · rw [h.2, h.1, List.nil_append]

theorem isBlank_of_isalnum (c : Char) (h : isalnum c = true) : isBlank c = false := by
  simp only [isalnum, isalpha, isdigit, Bool.or_eq_true, decide_eq_true_eq] at h
  simp only [isBlank, Bool.decide_or, Bool.or_eq_false_iff, decide_eq_false_iff_not]
  constructor
  · intro h0
    subst h0
    revert h
    decide
  · omega

theorem isTokenChar_of_isalnum (c : Char) (h : isalnum c = true) : isTokenChar c = true := by
  simp only [isalnum, isalpha, isdigit, Bool.or_eq_true, decide_eq_true_eq] at h
  rw [isTokenChar_iff]
  refine ⟨?_, ?_, ?_, ?_, ?_, ?_⟩
  · simp only [isspace, decide_eq_false_iff_not]
    omega
  all_goals
    intro h0
    subst h0
    revert h
    decide

theorem isValidName_chars (name : Name) (h : isValidName name = true) :
    name ≠ [] ∧ ∀ c ∈ name, isalnum c = true := by
  cases name with
  | nil => simp [isValidName] at h
  | cons c cs =>
    simp only [isValidName, Bool.and_eq_true, List.all_eq_true] at h
    exact ⟨by simp, h.2⟩

/-- Text that begins and ends with a character other than space and tab keeps
its beginning under `trim`; only the end of what follows is trimmed. -/
theorem trim_append (c0 c1 : Char) (mid body : List Char) (h0 : isBlank c0 = false)
    (h1 : isBlank c1 = false) :
    trim (c0 :: (mid ++ c1 :: body)) =
      c0 :: (mid ++ c1 :: (body.reverse.dropWhile isBlank).reverse) := by
  unfold trim
  rw [List.dropWhile_cons_of_neg (by simp [h0])]
  have : (c0 :: (mid ++ c1 :: body)).reverse = body.reverse ++ c1 :: (c0 :: mid).reverse := by
    simp
  rw [this, dropWhile_append_cons_eq c1 h1]
  simp

theorem trim_of_not_blank (s : List Char) (h : ∀ c ∈ s, isBlank c = false) : trim s = s := by
  unfold trim
  have h1 : s.dropWhile isBlank = s := by
    cases s with
    | nil => rfl
    | cons c cs => exact List.dropWhile_cons_of_neg (by simp [h c (List.mem_cons_self _ _)])
  rw [h1]
  have h2 : s.reverse.dropWhile isBlank = s.reverse := by
    cases hr : s.reverse with
    | nil => rfl
    | cons c cs =>
      have : c ∈ s := by
        rw [← List.mem_reverse, hr]
        exact List.mem_cons_self _ _
      exact List.dropWhile_cons_of_neg (by simp [h c this])
  rw [h2, List.reverse_reverse]

theorem dropWhile_eq_nil_of_all {p : Char → Bool} (s : List Char) (h : ∀ c ∈ s, p c = true) :
    s.dropWhile p = [] := by
  rw [List.dropWhile_eq_nil_iff]
  exact h

/-- Trimming the end first does not change what `trim` returns. -/
theorem trim_trimEnd (body : List Char) :
    trim (body.reverse.dropWhile isBlank).reverse = trim body := by
  by_cases hall : ∀ c ∈ body, isBlank c = true
  · have h1 : body.reverse.dropWhile isBlank = [] :=
      dropWhile_eq_nil_of_all _ (fun c hc => hall c (List.mem_reverse.1 hc))
    have h2 : body.dropWhile isBlank = [] := dropWhile_eq_nil_of_all _ hall
    simp [trim, h1, h2]
  · -- split the text at its first character that is not blank
    have hsplit : body.takeWhile isBlank ++ body.dropWhile isBlank = body :=
      List.takeWhile_append_dropWhile _ _
    cases hd : body.dropWhile isBlank with
    | nil =>
      exfalso
      apply hall
      rw [List.dropWhile_eq_nil_iff] at hd
      exact hd
    | cons c post =>
      have hc : isBlank c = false := by
        have := List.head_dropWhile_not isBlank body (by rw [hd]; simp)
        simpa [hd] using this
      have hpre : ∀ x ∈ body.takeWhile isBlank, isBlank x = true :=
        fun x hx => List.mem_takeWhile_imp hx
      rw [hd] at hsplit
      have he : (body.reverse.dropWhile isBlank).reverse =
          body.takeWhile isBlank ++ c :: (post.reverse.dropWhile isBlank).reverse := by
        conv_lhs => rw [← hsplit]
        have : (body.takeWhile isBlank ++ c :: post).reverse =
            post.reverse ++ c :: (body.takeWhile isBlank).reverse := by simp
        rw [this, dropWhile_append_cons_eq c hc]
        simp
      rw [he]
      unfold trim
      rw [dropWhile_append_cons_eq c hc, dropWhile_eq_nil_of_all _ hpre, List.nil_append, hd]
      have h3 : (c :: (post.reverse.dropWhile isBlank).reverse).reverse =
          post.reverse.dropWhile isBlank ++ c :: [] := by simp
      have h4 : (c :: post).reverse = post.reverse ++ c :: [] := by simp
      rw [h3, h4, dropWhile_append_cons_eq c hc, dropWhile_append_cons_eq c hc,
        List.dropWhile_idempotent]

theorem findChar_append (c : Char) : ∀ (pre post : List Char), (∀ x ∈ pre, x ≠ c) →
    findChar c (pre ++ c :: post) = some pre.length := by
  intro pre
  induction pre with
  | nil => intro post _; simp [findChar]
  | cons d ds ih =>
    intro post h
    have hd : d ≠ c := h d (List.mem_cons_self _ _)
    simp [findChar, hd, ih post (fun x hx => h x (List.mem_cons_of_mem _ hx))]

theorem findChar_none (c : Char) : ∀ (s : List Char), (∀ x ∈ s, x ≠ c) → findChar c s = none := by
  intro s
  induction s with
  | nil => intro _; rfl
  | cons d ds ih =>
    intro h
    have hd : d ≠ c := h d (List.mem_cons_self _ _)
    simp [findChar, hd, ih (fun x hx => h x (List.mem_cons_of_mem _ hx))]

end Interpreter

namespace Interpreter

theorem isalnum_ne (c : Char) (h : isalnum c = true) :
    c ≠ ':' ∧ c ≠ '(' ∧ c ≠ ')' ∧ c ≠ '=' := by
  simp only [isalnum, isalpha, isdigit, Bool.or_eq_true, decide_eq_true_eq] at h
  refine ⟨?_, ?_, ?_, ?_⟩ <;>
  · intro h0
    subst h0
    revert h
    decide

/-- A line `name(params):body` with a valid name stores the function, whatever
the body is. -/
theorem processInstruction_define (I : Interpreter) (stod : Stod) (fuel : Nat)
    (name params body : Name) (hname : isValidName name = true)
    (hparams : ∀ c ∈ params, c ≠ ')' ∧ c ≠ ':') :
    processInstruction I stod fuel (name ++ '(' :: (params ++ ')' :: ':' :: body)) =
      ⟨{ I with functions :=
          I.functions.insert name ⟨parseParameters params, parseExpression body⟩ }, [], .ok ()⟩ := by
  obtain ⟨hne, halnum⟩ := isValidName_chars name hname
  obtain ⟨c0, name1, rfl⟩ : ∃ c0 name1, name = c0 :: name1 := by
    cases name with
    | nil => exact absurd rfl hne
    | cons c cs => exact ⟨c, cs, rfl⟩
  have hc0 : isBlank c0 = false := isBlank_of_isalnum c0 (halnum c0 (List.mem_cons_self _ _))
  have hblank : ∀ c ∈ c0 :: name1, isBlank c = false :=
    fun c hc => isBlank_of_isalnum c (halnum c hc)
  -- the trimmed line
  have htrim : trim (c0 :: name1 ++ '(' :: (params ++ ')' :: ':' :: body)) =
      (c0 :: name1 ++ '(' :: (params ++ [')'])) ++
        ':' :: (body.reverse.dropWhile isBlank).reverse := by
    have := trim_append c0 ':' (name1 ++ '(' :: (params ++ [')'])) body hc0 (by decide)
    simpa using this
  have hheader_colon : ∀ x ∈ c0 :: name1 ++ '(' :: (params ++ [')']), x ≠ ':' := by
    intro x hx
    simp only [List.mem_append, List.mem_cons, List.mem_singleton, List.not_mem_nil,
      or_false] at hx
    rcases hx with (hx | hx) | hx | hx | hx
    · subst hx; exact (isalnum_ne _ (halnum _ (List.mem_cons_self _ _))).1
    · exact (isalnum_ne x (halnum x (List.mem_cons_of_mem _ hx))).1
    · subst hx; decide
    · exact (hparams x hx).2
    · subst hx; decide
  have hfind_colon := findChar_append ':' (c0 :: name1 ++ '(' :: (params ++ [')']))
    ((body.reverse.dropWhile isBlank).reverse) hheader_colon
  have hheader_trim : trim (c0 :: name1 ++ '(' :: (params ++ [')'])) =
      c0 :: name1 ++ '(' :: (params ++ [')']) := by
    have := trim_append c0 ')' (name1 ++ '(' :: params) [] hc0 (by decide)
    simpa using this
  have hname_open : ∀ x ∈ c0 :: name1, x ≠ '(' :=
    fun x hx => (isalnum_ne x (halnum x hx)).2.1
  have hfind_open := findChar_append '(' (c0 :: name1) (params ++ [')']) hname_open
  have hpre_close : ∀ x ∈ c0 :: name1 ++ '(' :: params, x ≠ ')' := by
    intro x hx
    simp only [List.mem_append, List.mem_cons] at hx
    rcases hx with (hx | hx) | hx | hx
    · subst hx; exact (isalnum_ne _ (halnum _ (List.mem_cons_self _ _))).2.2.1
    · exact (isalnum_ne x (halnum x (List.mem_cons_of_mem _ hx))).2.2.1
    · subst hx; decide
    · exact (hparams x hx).1
  have hfind_close := findChar_append ')' (c0 :: name1 ++ '(' :: params) [] hpre_close
  have hheader_eq : c0 :: name1 ++ '(' :: (params ++ [')']) =
      (c0 :: name1 ++ '(' :: params) ++ [')'] := by simp
  have hparen : parenText (c0 :: name1 ++ '(' :: (params ++ [')'])) (c0 :: name1).length =
      params := by
    unfold parenText
    rw [hheader_eq, hfind_close]
    have hlt : (c0 :: name1).length < (c0 :: name1 ++ '(' :: params).length := by
      simp
    simp only [hlt, if_true, substr]
    have hdrop : List.drop ((c0 :: name1).length + 1) ((c0 :: name1 ++ '(' :: params) ++ [')']) =
        params ++ [')'] := by
      have : (c0 :: name1 ++ '(' :: params) ++ [')'] =
          (c0 :: name1 ++ ['(']) ++ (params ++ [')']) := by simp
      rw [this]
      exact List.drop_left' (by simp)
    rw [hdrop]
    have : (c0 :: name1 ++ '(' :: params).length - (c0 :: name1).length - 1 = params.length := by
      simp
    rw [this, List.take_left']
    rfl
  have hsub1 : substr ((c0 :: name1 ++ '(' :: (params ++ [')'])) ++
      ':' :: (body.reverse.dropWhile isBlank).reverse) 0
        (c0 :: name1 ++ '(' :: (params ++ [')'])).length =
      c0 :: name1 ++ '(' :: (params ++ [')']) := by
    unfold substr
    rw [List.drop_zero, List.take_left']
    rfl
  have hsub2 : substr (c0 :: name1 ++ '(' :: (params ++ [')'])) 0 (c0 :: name1).length =
      c0 :: name1 := by
    unfold substr
    rw [List.drop_zero, List.take_left']
    rfl
  have hdrop2 : List.drop ((c0 :: name1 ++ '(' :: (params ++ [')'])).length + 1)
      ((c0 :: name1 ++ '(' :: (params ++ [')'])) ++
        ':' :: (body.reverse.dropWhile isBlank).reverse) =
      (body.reverse.dropWhile isBlank).reverse := by
    have : (c0 :: name1 ++ '(' :: (params ++ [')'])) ++
        ':' :: (body.reverse.dropWhile isBlank).reverse =
        ((c0 :: name1 ++ '(' :: (params ++ [')'])) ++ [':']) ++
          (body.reverse.dropWhile isBlank).reverse := by simp
    rw [this]
    exact List.drop_left' (by simp; omega)
  have hexpr : parseExpression (body.reverse.dropWhile isBlank).reverse = parseExpression body := by
    unfold parseExpression
    rw [trim_trimEnd]
  unfold processInstruction
  simp only [htrim]
  rw [if_neg (by simp)]
  unfold functionDefinitionBlock
  simp only [hfind_colon, hsub1, hheader_trim, hfind_open, hsub2, trim_of_not_blank _ hblank,
    hparen, hname, hdrop2, hexpr]
  simp

end Interpreter

namespace Interpreter

theorem scanYields_whitespace (I : Interpreter) (stod : Stod) (expr : Name) (localVars : Map ℚ)
    (vs : List ℚ) (ops : List Char) (tok : Name) (eo : Bool) (r : Outcome ℚ) :
    ∀ (ws rest : List Char), (∀ c ∈ ws, isspace c = true) →
      ScanYields I stod expr localVars ⟨vs, ops, tok, rest, eo⟩ r →
      ScanYields I stod expr localVars ⟨vs, ops, tok, ws ++ rest, eo⟩ r := by
  intro ws
  induction ws with
  | nil => intro rest _ h; simpa using h
  | cons c cs ih =>
    intro rest hws h
    refine scanYields_more I stod expr localVars _ ⟨vs, ops, tok, cs ++ rest, eo⟩
      r ⟨0, fun k _ => ?_⟩ (ih rest (fun x hx => hws x (List.mem_cons_of_mem _ hx)) h)
    exact step_space I stod _ expr localVars _ c (cs ++ rest) rfl (hws c (List.mem_cons_self _ _))

theorem flushToken_undefined (I : Interpreter) (stod : Stod) (expr : Name) (localVars : Map ℚ)
    (token : Name) (values : List ℚ) (hne : token ≠ []) (hnum : isNumber stod token = false)
    (hvar : I.variables.find token = none) (hloc : localVars.find token = none) :
    flushToken I stod expr localVars token values = .throw (.undefinedName token expr) := by
  simp [flushToken, hne, hnum, hvar, hloc]

end Interpreter

namespace Interpreter

/-! ## Statements -/

theorem functionDefinitionBlock_state (I : Interpreter) (trimmed : Name) (eff : Effect)
    (h : functionDefinitionBlock I trimmed = some eff) (e : Error)
    (he : eff.outcome = .throw e) : eff.state = I := by
  unfold functionDefinitionBlock at h
  dsimp only at h
  repeat' split at h
  all_goals cases h <;> first | rfl | cases he

theorem assignmentBlock_state (I : Interpreter) (stod : Stod) (fuel : Nat) (trimmed : Name)
    (eff : Effect) (h : assignmentBlock I stod fuel trimmed = some eff) (e : Error)
    (he : eff.outcome = .throw e) : eff.state = I := by
  unfold assignmentBlock at h
  dsimp only at h
  repeat' split at h
  all_goals cases h <;> first | rfl | cases he

theorem printBlock_state (I : Interpreter) (trimmed : Name) (eff : Effect)
    (h : printBlock I trimmed = some eff) : eff.state = I := by
  unfold printBlock at h
  dsimp only at h
  repeat' split at h
  all_goals cases h <;> rfl

theorem assignmentBlock_mono (I : Interpreter) (stod : Stod) (fuel fuel1 : Nat) (trimmed : Name)
    (hle : fuel ≤ fuel1)
    (hne : ∀ eff, assignmentBlock I stod fuel trimmed = some eff → eff.outcome ≠ .noFuel) :
    assignmentBlock I stod fuel1 trimmed = assignmentBlock I stod fuel trimmed := by
  have key : ∀ X, evaluateExpression I stod fuel X [] ≠ .noFuel →
      evaluateExpression I stod fuel1 X [] = evaluateExpression I stod fuel X [] :=
    fun X hX => evaluateExpression_mono I stod fuel fuel1 X [] hle hX
  unfold assignmentBlock at hne ⊢
  dsimp only at hne ⊢
  cases h1 : findChar '=' trimmed with
  | none => rfl
  | some eqPos =>
    simp only [h1] at hne ⊢
    generalize dropSemicolon (trim (List.drop (eqPos + 1) trimmed)) = X at hne ⊢
    by_cases hX : evaluateExpression I stod fuel X [] = .noFuel
    · rw [hX] at hne
      cases h2 : findChar '(' (trim (substr trimmed 0 eqPos)) with
      | some openParen =>
        simp only [h2] at hne ⊢
        split
        · rfl
        · rename_i hv
          simp only [hv, if_false] at hne
          split
          · rename_i hi
            simp only [hi, if_true] at hne
            exact absurd rfl (hne _ rfl)
          · rename_i hi
            simp only [hi, if_false] at hne
            split
            · rename_i hf
              simp only [hf, if_true] at hne
              exact absurd rfl (hne _ rfl)
            · rfl
      | none =>
        simp only [h2] at hne ⊢
        split
        · rfl
        · rename_i hv
          simp only [hv, if_false] at hne
          exact absurd rfl (hne _ rfl)
    · rw [key X hX]

/-- An instruction that has an answer keeps it, with the same effect, when it is
given more fuel. -/
theorem processInstruction_mono (I : Interpreter) (stod : Stod) (fuel fuel1 : Nat) (line : Name)
    (hle : fuel ≤ fuel1) (hne : (processInstruction I stod fuel line).outcome ≠ .noFuel) :
    processInstruction I stod fuel1 line = processInstruction I stod fuel line := by
  unfold processInstruction at hne ⊢
  dsimp only at hne ⊢
  split
  · rfl
  · rename_i ht
    simp only [ht, if_false] at hne
    cases h1 : functionDefinitionBlock I (trim line) with
    | some eff => rfl
    | none =>
      simp only [h1] at hne ⊢
      have h2 := assignmentBlock_mono I stod fuel fuel1 (trim line) hle (by
        intro eff heff
        rw [heff] at hne
        exact hne)
      rw [h2]

end Interpreter

/-! ## Text: positions and the parts of a line -/

namespace Interpreter

theorem findChar_eq_none_iff (c : Char) (s : List Char) : findChar c s = none ↔ c ∉ s := by
  induction s with
  | nil => simp [findChar]
  | cons d ds ih =>
    by_cases h : d = c
    · simp [findChar, h]
    · have h1 : ¬ c = d := fun h0 => h h0.symm
      simp [findChar, h, h1, ih]

/-- The index that `find` returns cuts the text at the first occurrence. -/
theorem findChar_some (c : Char) : ∀ (s : List Char) (i : Nat), findChar c s = some i →
    substr s 0 i = s.takeWhile (fun x => x ≠ c) ∧
      s.drop (i + 1) = (s.dropWhile (fun x => x ≠ c)).drop 1 ∧
      i = (s.takeWhile (fun x => x ≠ c)).length ∧ c ∈ s := by
  intro s
  induction s with
  | nil => intro i h; simp [findChar] at h
  | cons d ds ih =>
    intro i h
    by_cases hd : d = c
    · subst hd
      simp only [findChar, if_true, Option.some.injEq] at h
      subst h
      simp [substr]
    · simp only [findChar, hd, if_false, Option.map_eq_some'] at h
      obtain ⟨j, hj, rfl⟩ := h
      obtain ⟨h1, h2, h3, h4⟩ := ih j hj
      simp only [substr, List.drop_zero] at h1
      refine ⟨?_, ?_, ?_, List.mem_cons_of_mem _ h4⟩
      · simp [substr, hd, h1]
      · simp [hd, h2]
      · simp [hd, h3]

theorem findChar_of_mem (c : Char) (s : List Char) (h : c ∈ s) :
    findChar c s = some (s.takeWhile (fun x => x ≠ c)).length := by
  cases hf : findChar c s with
  | none => exact absurd h ((findChar_eq_none_iff c s).1 hf)
  | some i => rw [(findChar_some c s i hf).2.2.1]

theorem mem_dropWhile_of_not (p : Char → Bool) (c : Char) (hc : p c = false) :
    ∀ (s : List Char), c ∈ s.dropWhile p ↔ c ∈ s := by
  intro s
  induction s with
  | nil => simp
  | cons d ds ih =>
    by_cases hd : p d = true
    · rw [List.dropWhile_cons_of_pos hd, ih]
      constructor
      · exact List.mem_cons_of_mem _
      · intro h
        rcases List.mem_cons.1 h with h1 | h1
        · rw [h1, hd] at hc
          cases hc
        · exact h1
    · rw [List.dropWhile_cons_of_neg hd]

/-- A character other than space and tab is in the trimmed text exactly when it
is in the text. -/
theorem mem_trim (c : Char) (hc : isBlank c = false) (s : List Char) : c ∈ trim s ↔ c ∈ s := by
  unfold trim
  rw [List.mem_reverse, mem_dropWhile_of_not isBlank c hc, List.mem_reverse,
    mem_dropWhile_of_not isBlank c hc]

theorem trim_trim (s : List Char) : trim (trim s) = trim s := by
  have h1 : trim s = ((s.dropWhile isBlank).reverse.dropWhile isBlank).reverse := rfl
  rw [h1, trim_trimEnd]
  unfold trim
  rw [List.dropWhile_idempotent]

theorem takeWhile_eq_self_of_not_mem (c : Char) (s : List Char) (h : c ∉ s) :
    s.takeWhile (fun x => x ≠ c) = s := by
  rw [List.takeWhile_eq_self_iff]
  intro x hx
  have : x ≠ c := fun h0 => h (h0 ▸ hx)
  simpa using this

end Interpreter

/-! ## The blocks of `processInstruction`, by the shape of the line -/

namespace Interpreter

theorem isFunctionLine_iff (t : Name) :
    isFunctionLine t = true ↔ ':' ∈ t ∧ '(' ∈ t.takeWhile (fun c => c ≠ ':') := by
  simp [isFunctionLine]

/-- The effect of a function line: the function is stored when its name is a valid
identifier, else the line is rejected. -/
theorem functionDefinitionBlock_eq (I : Interpreter) (t : Name) :
    functionDefinitionBlock I t =
      if isFunctionLine t = true then
        some (if isValidName (definedName t) = true then
          ⟨⟨I.variables, I.functions.insert (definedName t) (definedFunction t)⟩, [], .ok ()⟩
        else ⟨I, [], .throw (.invalidFunctionName (definedName t))⟩)
      else none := by
  unfold functionDefinitionBlock
  cases h1 : findChar ':' t with
  | none =>
    have : ¬ (isFunctionLine t = true) := by
      rw [isFunctionLine_iff]
      exact fun h => (findChar_eq_none_iff ':' t).1 h1 h.1
    simp [this]
  | some colonPos =>
    obtain ⟨hs1, hs2, _, hmem⟩ := findChar_some ':' t colonPos h1
    simp only [hs1, hs2]
    cases h2 : findChar '(' (trim (t.takeWhile (fun c => c ≠ ':'))) with
    | none =>
      have : ¬ (isFunctionLine t = true) := by
        rw [isFunctionLine_iff]
        intro h
        exact (findChar_eq_none_iff '(' _).1 h2 ((mem_trim '(' (by decide) _).2 h.2)
      simp [this]
    | some openParen =>
      obtain ⟨hs3, _, hs5, hmem2⟩ := findChar_some '(' _ openParen h2
      have hfl : isFunctionLine t = true := by
        rw [isFunctionLine_iff]
        exact ⟨hmem, (mem_trim '(' (by decide) _).1 hmem2⟩
      simp only [hs3, hfl, if_true]
      rw [hs5]
      by_cases hv : isValidName (definedName t) = true
      · have hv1 : isValidName (trim (List.takeWhile (fun x => decide (x ≠ '('))
            (trim (List.takeWhile (fun c => decide (c ≠ ':')) t)))) = true := hv
        simp only [hv, if_true, hv1, Bool.not_true, Bool.false_eq_true, if_false]
        rfl
      · have hv1 : isValidName (trim (List.takeWhile (fun x => decide (x ≠ '('))
            (trim (List.takeWhile (fun c => decide (c ≠ ':')) t)))) = false := by
          simpa [definedName, definitionHead] using hv
        simp only [hv, hv1, Bool.not_false, if_true]
        rfl

/-- The effect of an assignment line, in terms of the outcome of its expression. -/
theorem assignmentBlock_eq (I : Interpreter) (stod : Stod) (fuel : Nat) (t : Name) :
    assignmentBlock I stod fuel t =
      if '=' ∈ t then
        some (storeAssigned I t (evaluateExpression I stod fuel (assignedExpression t) []))
      else none := by
  unfold assignmentBlock
  cases h1 : findChar '=' t with
  | none =>
    have : '=' ∉ t := (findChar_eq_none_iff '=' t).1 h1
    simp [this]
  | some eqPos =>
    obtain ⟨hs1, hs2, _, hmem⟩ := findChar_some '=' t eqPos h1
    simp only [hs1, hs2, hmem, if_true]
    unfold storeAssigned
    cases h2 : findChar '(' (trim (t.takeWhile (fun c => c ≠ '='))) with
    | none =>
      have hno : '(' ∉ assignmentLeft t := (findChar_eq_none_iff '(' _).1 h2
      simp only [hno, if_false]
      simp only [assignmentLeft, assignedExpression, assignedName]
      split
      · rfl
      · cases evaluateExpression I stod fuel
          (dropSemicolon (trim (List.drop 1 (List.dropWhile (fun x => decide (x ≠ '=')) t)))) [] with
        | ok value =>
          simp only
          split <;> rfl
        | throw e => rfl
        | noFuel => rfl
    | some openParen =>
      obtain ⟨hs3, _, hs5, hmem2⟩ := findChar_some '(' _ openParen h2
      have hyes : '(' ∈ assignmentLeft t := hmem2
      simp only [hyes, if_true, hs3]
      rw [hs5]
      simp only [assignmentLeft, assignedExpression, assignedName]
      split
      · rfl
      · split
        · cases evaluateExpression I stod fuel
            (dropSemicolon (trim (List.drop 1 (List.dropWhile (fun x => decide (x ≠ '=')) t)))) [] with
          | ok value =>
            simp only
            split <;> rfl
          | throw e => rfl
          | noFuel => rfl
        · split
          · cases evaluateExpression I stod fuel
              (dropSemicolon (trim (List.drop 1 (List.dropWhile (fun x => decide (x ≠ '=')) t)))) [] with
            | ok value => rfl
            | throw e => rfl
            | noFuel => rfl
          · rfl

theorem printBlock_eq_none_iff (I : Interpreter) (t : Name) :
    printBlock I t = none ↔ t.take 5 ≠ printWord := by
  unfold printBlock
  by_cases h : t.take 5 = printWord
  · simp only [h, if_true, ne_eq, not_true_eq_false, iff_false]
    split
    · simp
    · split <;> simp
  · simp [h]

theorem printBlock_some (I : Interpreter) (t : Name) (eff : Effect)
    (h : printBlock I t = some eff) :
    eff.state = I ∧ (eff.outcome = .ok () ∨ ∃ n, eff.outcome = .throw (.variableNotFound n)) := by
  unfold printBlock at h
  dsimp only at h
  repeat' split at h
  all_goals cases h
  · exact ⟨rfl, Or.inl rfl⟩
  · exact ⟨rfl, Or.inr ⟨_, rfl⟩⟩
  · exact ⟨rfl, Or.inl rfl⟩

/-- The method `processInstruction`, by the shape of the trimmed line. -/
theorem processInstruction_eq (I : Interpreter) (stod : Stod) (fuel : Nat) (line : Name) :
    processInstruction I stod fuel line =
      if trim line = [] then ⟨I, [], .ok ()⟩
      else if isFunctionLine (trim line) = true then
        (if isValidName (definedName (trim line)) = true then
          ⟨⟨I.variables,
            I.functions.insert (definedName (trim line)) (definedFunction (trim line))⟩, [], .ok ()⟩
        else ⟨I, [], .throw (.invalidFunctionName (definedName (trim line)))⟩)
      else if '=' ∈ trim line then
        storeAssigned I (trim line)
          (evaluateExpression I stod fuel (assignedExpression (trim line)) [])
      else
        match printBlock I (trim line) with
        | some eff => eff
        | none => ⟨I, [], .throw (.unknownInstruction (trim line))⟩ := by
  unfold processInstruction
  dsimp only
  rw [functionDefinitionBlock_eq, assignmentBlock_eq]
  by_cases h0 : trim line = []
  · simp [h0]
  · simp only [h0, if_false]
    by_cases h1 : isFunctionLine (trim line) = true
    · simp only [h1, if_true]
    · simp only [h1, if_false, Bool.false_eq_true]
      by_cases h2 : '=' ∈ trim line
      · simp only [h2, if_true]
      · simp only [h2, if_false]

end Interpreter

/-! ## Overwriting an entry, and the driver -/

namespace Map

/-- Writing the same key again replaces the entry that the first write made. -/
theorem insert_insert {α : Type} (m : Map α) (k : Name) (v w : α) :
    (m.insert k v).insert k w = m.insert k w := by
  induction m with
  | nil => simp [insert]
  | cons p m ih =>
    obtain ⟨k1, u⟩ := p
    simp only [insert]
    by_cases h1 : k = k1
    · simp [h1, insert]
    · simp only [h1, if_false]
      by_cases h2 : k < k1
      · simp [h2, insert]
      · simp [h2, insert, h1, ih]

end Map

namespace Interpreter

theorem storeAssigned_output (I : Interpreter) (t : Name) (r : Outcome ℚ) :
    (storeAssigned I t r).output = [] := by
  unfold storeAssigned
  dsimp only
  repeat' split
  all_goals rfl

/-- A stored assignment writes one variable; the functions stay. -/
theorem storeAssigned_ok (I : Interpreter) (t : Name) (r : Outcome ℚ)
    (h : (storeAssigned I t r).outcome = .ok ()) :
    ∃ value var, r = .ok value ∧ isValidName (assignedName t) = true ∧
      (∀ J : Interpreter, storeAssigned J t r =
        ⟨⟨J.variables.insert (assignedName t) var, J.functions⟩, [], .ok ()⟩) := by
  have hname : '(' ∉ assignmentLeft t → assignedName t = assignmentLeft t := by
    intro hno
    unfold assignedName
    rw [takeWhile_eq_self_of_not_mem '(' _ hno]
    unfold assignmentLeft
    rw [trim_trim]
  unfold storeAssigned at h ⊢
  by_cases h1 : '(' ∈ assignmentLeft t
  · simp only [h1, if_true] at h ⊢
    by_cases h2 : isValidName (assignedName t) = true
    · simp only [h2, Bool.not_true, Bool.false_eq_true, if_false] at h ⊢
      by_cases h3 : trim (parenText (assignmentLeft t)
          ((assignmentLeft t).takeWhile (fun c => c ≠ '(')).length) = ['i']
      · simp only [h3, if_true] at h ⊢
        cases r with
        | ok value =>
          simp only at h ⊢
          by_cases h4 : |value - cRound value| > epsilon
          · simp only [h4, if_true] at h
            cases h
          · simp only [h4, if_false]
            exact ⟨value, .int (castInt value), rfl, trivial, fun J => rfl⟩
        | throw e => cases h
        | noFuel => cases h
      · simp only [h3, if_false] at h ⊢
        by_cases h5 : trim (parenText (assignmentLeft t)
            ((assignmentLeft t).takeWhile (fun c => c ≠ '(')).length) = ['f']
        · simp only [h5, if_true] at h ⊢
          cases r with
          | ok value => exact ⟨value, .float value, rfl, trivial, fun J => rfl⟩
          | throw e => cases h
          | noFuel => cases h
        · simp only [h5, if_false] at h
          cases h
    · simp only [h2, Bool.not_false, if_true] at h
      cases h
  · simp only [h1, if_false] at h ⊢
    rw [hname h1]
    by_cases h2 : isValidName (assignmentLeft t) = true
    · simp only [h2, Bool.not_true, Bool.false_eq_true, if_false] at h ⊢
      cases r with
      | ok value =>
        simp only at h ⊢
        by_cases h4 : |value - cRound value| < epsilon
        · simp only [h4, if_true]
          exact ⟨value, .int (castInt value), rfl, trivial, fun J => rfl⟩
        · simp only [h4, if_false]
          exact ⟨value, .float value, rfl, trivial, fun J => rfl⟩
      | throw e => cases h
      | noFuel => cases h
    · simp only [h2] at h
      cases h

/-- An assignment that does not store leaves the state as it is. -/
theorem storeAssigned_state (I : Interpreter) (t : Name) (r : Outcome ℚ)
    (h : (storeAssigned I t r).outcome ≠ .ok ()) : (storeAssigned I t r).state = I := by
  unfold storeAssigned at h ⊢
  cases r <;> simp only [] at h ⊢ <;> split_ifs at h ⊢ <;> first | rfl | exact absurd rfl h

theorem printBlock_output_of_throw (I : Interpreter) (t : Name) (eff : Effect)
    (h : printBlock I t = some eff) (e : Error) (he : eff.outcome = .throw e) :
    eff.output = [] := by
  unfold printBlock at h
  dsimp only at h
  repeat' split at h
  all_goals cases h <;> first | rfl | cases he

/-- A line that throws prints nothing and changes nothing. -/
theorem processInstruction_throw (I : Interpreter) (stod : Stod) (fuel : Nat) (line : Name)
    (e : Error) (h : (processInstruction I stod fuel line).outcome = .throw e) :
    (processInstruction I stod fuel line).state = I ∧
      (processInstruction I stod fuel line).output = [] := by
  rw [processInstruction_eq] at h ⊢
  by_cases h0 : trim line = []
  · rw [if_pos h0] at h
    cases h
  · rw [if_neg h0] at h ⊢
    by_cases h1 : isFunctionLine (trim line) = true
    · rw [if_pos h1] at h ⊢
      by_cases h2 : isValidName (definedName (trim line)) = true
      · rw [if_pos h2] at h
        cases h
      · rw [if_neg h2]
        exact ⟨rfl, rfl⟩
    · rw [if_neg h1] at h ⊢
      by_cases h2 : '=' ∈ trim line
      · rw [if_pos h2] at h ⊢
        exact ⟨storeAssigned_state I _ _ (by rw [h]; simp), storeAssigned_output I _ _⟩
      · rw [if_neg h2] at h ⊢
        cases h3 : printBlock I (trim line) with
        | some eff =>
          simp only [h3] at h ⊢
          exact ⟨(printBlock_some I _ eff h3).1, printBlock_output_of_throw I _ eff h3 e h⟩
        | none => exact ⟨rfl, rfl⟩

/-- The lines after a part that runs to its end are run from the state that the
part leaves. -/
theorem run_append (stod : Stod) (fuel : Nat) : ∀ (pre : List Name) (I : Interpreter)
    (rest : List Name), (run I stod fuel pre).ending = .finished →
    run I stod fuel (pre ++ rest) =
      ⟨(run (run I stod fuel pre).state stod fuel rest).state,
        (run I stod fuel pre).output ++ (run (run I stod fuel pre).state stod fuel rest).output,
        (run (run I stod fuel pre).state stod fuel rest).ending⟩ := by
  intro pre
  induction pre with
  | nil => intro I rest _; simp [run]
  | cons line lines ih =>
    intro I rest h
    rw [List.cons_append]
    simp only [run] at h ⊢
    rcases hp : processInstruction I stod fuel line with ⟨I1, out, oc⟩
    rw [hp] at h
    cases oc with
    | ok u =>
      simp only at h ⊢
      rw [ih I1 rest h]
      simp
    | throw e => simp at h
    | noFuel => simp at h

end Interpreter

/-! ## Parenthesised groups and balanced text -/

namespace Interpreter

theorem extractSub_balanced : ∀ (a : List Char) (d : Nat) (acc : Name) (tail : List Char),
    balancedFrom d a = true →
    extractSub (a ++ tail) (d + 1) acc = extractSub tail 1 (acc ++ a) := by
  intro a
  induction a with
  | nil =>
    intro d acc tail h
    simp only [balancedFrom, decide_eq_true_eq] at h
    subst h
    simp
  | cons c cs ih =>
    intro d acc tail h
    rw [balancedFrom] at h
    by_cases h1 : c = '('
    · subst h1
      simp only [if_true] at h
      have := ih (d + 1) (acc ++ ['(']) tail h
      rw [List.cons_append, extractSub_open, this]
      simp
    · simp only [h1, if_false] at h
      by_cases h2 : c = ')'
      · subst h2
        simp only [if_true, Bool.and_eq_true, decide_eq_true_eq] at h
        obtain ⟨d1, rfl⟩ : ∃ d1, d = d1 + 1 := ⟨d - 1, by omega⟩
        have := ih d1 (acc ++ [')']) tail (by simpa using h.2)
        rw [List.cons_append, extractSub_close, this]
        simp
      · have hh : balancedFrom d cs = true := by
          simpa only [h2, if_false] using h
        have := ih d (acc ++ [c]) tail hh
        rw [List.cons_append, extractSub]
        simp only [h1, h2, if_false, Nat.succ_pos, if_true, gt_iff_lt, Nat.zero_lt_succ]
        rw [this]
        simp

/-- The inner loop at a `(` copies a balanced text up to the `)` after it. -/
theorem extractSub_balanced_group (e tail : List Char) (h : balanced e = true) :
    extractSub (e ++ ')' :: tail) 1 [] = (e, tail, 0) := by
  rw [extractSub_balanced e 0 [] (')' :: tail) h, List.nil_append, extractSub_last]

/-- The value that a token resolves to does not depend on the operands already
pushed nor on the expression named in error messages. -/
theorem flushToken_resolved (I : Interpreter) (stod : Stod) (expr : Name) (localVars : Map ℚ)
    (t : Name) (x : ℚ) (ht : t ≠ [])
    (h : flushToken I stod expr localVars t [] = .ok [x]) (expr1 : Name) (values : List ℚ) :
    flushToken I stod expr1 localVars t values = .ok (x :: values) := by
  simp only [flushToken, if_neg ht] at h ⊢
  split at h
  · rename_i hn
    simp only [hn, if_true]
    cases h
    rfl
  · rename_i hn
    simp only [hn, if_false]
    cases hvar : I.variables.find t with
    | some var =>
      simp only [hvar] at h ⊢
      cases h
      rfl
    | none =>
      simp only [hvar] at h ⊢
      cases hloc : localVars.find t with
      | some w =>
        simp only [hloc] at h ⊢
        cases h
        rfl
      | none =>
        simp only [hloc] at h
        cases h

/-- The pass at a `(` that follows a pending token that is not a function name:
the token is resolved, the group is evaluated, both values are pushed and the
operator stack is left as it was. -/
theorem step_token_group (I : Interpreter) (stod : Stod) (eval : Name → Map ℚ → Outcome ℚ)
    (expr : Name) (localVars : Map ℚ) (vs : List ℚ) (ops : List Char) (t cs sub rest1 : List Char)
    (eo : Bool) (x v : ℚ) (ht : t ≠ []) (hfun : I.functions.find t = none)
    (hx : flushToken I stod expr localVars t vs = .ok (x :: vs))
    (hsub : extractSub cs 1 [] = (sub, rest1, 0)) (hv : eval sub localVars = .ok v) :
    step I stod eval expr localVars ⟨vs, ops, t, '(' :: cs, eo⟩ =
      .more ⟨v :: x :: vs, ops, [], rest1, false⟩ := by
  rw [step_paren I stod eval expr localVars _ cs rfl]
  have h1 : t.isEmpty = false := by
    cases t with
    | nil => exact absurd rfl ht
    | cons _ _ => rfl
  simp [hsub, hv, hx, hfun, h1]

end Interpreter

/-! ## Unbalanced parentheses -/

namespace Interpreter

/-- The inner loop at a `(` ends with the counter at zero exactly when the text
contains the matching `)`. -/
theorem extractSub_count : ∀ (cs : List Char) (d : Nat) (acc : Name),
    (extractSub cs (d + 1) acc).2.2 = 0 ↔ closesFrom d cs = true := by
  intro cs
  induction cs with
  | nil => intro d acc; simp [extractSub, closesFrom]
  | cons c cs ih =>
    intro d acc
    rw [extractSub, closesFrom]
    simp only [gt_iff_lt, Nat.zero_lt_succ, if_true]
    by_cases h1 : c = '('
    · subst h1
      simp only [if_true]
      exact ih (d + 1) _
    · simp only [if_neg h1]
      by_cases h2 : c = ')'
      · subst h2
        simp only [if_true, Nat.add_sub_cancel]
        cases d with
        | zero => simp [extractSub_zero]
        | succ d1 =>
          simp only [Nat.zero_lt_succ, if_true, Nat.add_sub_cancel]
          rw [ih d1 _]
          simp
      · simp only [if_neg h2, Nat.zero_lt_succ, if_true]
        exact ih d _

/-- When the inner loop at a `(` finds the matching `)` and the text after it is
balanced, the text after the `(` is balanced with one parenthesis open. -/
theorem balancedFrom_of_extractSub : ∀ (cs : List Char) (d : Nat) (acc : Name),
    (extractSub cs (d + 1) acc).2.2 = 0 →
    balancedFrom 0 (extractSub cs (d + 1) acc).2.1 = true →
    balancedFrom (d + 1) cs = true := by
  intro cs
  induction cs with
  | nil => intro d acc h; simp [extractSub] at h
  | cons c cs ih =>
    intro d acc
    rw [extractSub, balancedFrom]
    simp only [gt_iff_lt, Nat.zero_lt_succ, if_true]
    by_cases h1 : c = '('
    · subst h1
      simp only [if_true]
      exact ih (d + 1) _
    · simp only [if_neg h1]
      by_cases h2 : c = ')'
      · subst h2
        simp only [if_true, Nat.add_sub_cancel, decide_True, Bool.true_and]
        cases d with
        | zero =>
          simp only [Nat.lt_irrefl, if_false, extractSub_zero]
          intro _ h
          exact h
        | succ d1 =>
          simp only [Nat.zero_lt_succ, if_true]
          exact ih d1 _
      · simp only [if_neg h2, Nat.zero_lt_succ, if_true]
        exact ih d _

/-- A pending token with a `)` is never resolved: the scan from there does not
return a number. -/
theorem scanLoop_closing_token (I : Interpreter) (stod : Stod) (localVars : Map ℚ)
    (hclosed : ClosedNames I stod localVars) (expr : Name) :
    ∀ (fuel : Nat) (s : Scan), ')' ∈ s.token → '(' ∉ s.token →
      ∀ v, scanLoop I stod fuel expr localVars s ≠ .ok v := by
  intro fuel
  induction fuel with
  | zero => intro s _ _ v h; simp [scanLoop] at h
  | succ fuel ih =>
    intro s hc ho v
    obtain ⟨hnum, hvar, hloc, hfun⟩ := hclosed s.token hc ho
    have hne : s.token ≠ [] := by
      intro h
      rw [h] at hc
      simp at hc
    have hflush : ∀ values, flushToken I stod expr localVars s.token values =
        .throw (.undefinedName s.token expr) :=
      fun values => flushToken_undefined I stod expr localVars s.token values hne hnum hvar hloc
    rw [scanLoop_succ_eq]
    cases hr : s.rest with
    | nil =>
      rw [step_end I stod _ expr localVars s hr]
      simp [finish, hflush]
    | cons c cs =>
      by_cases h1 : isspace c = true
      · rw [step_space I stod _ expr localVars s c cs hr h1]
        exact ih ⟨s.values, s.operators, s.token, cs, s.expectOperand⟩ hc ho v
      · by_cases h2 : c = '('
        · subst h2
          rw [step_paren I stod _ expr localVars s cs hr]
          by_cases h0 : (extractSub cs 1 []).2.2 = 0
          · rw [if_neg (not_not.2 h0)]
            simp [hne, hfun, hflush]
          · rw [if_pos h0]
            simp
        · by_cases h3 : c = '+' ∨ c = '-' ∨ c = '*' ∨ c = '/'
          · rw [step_operator I stod _ expr localVars s c cs hr h3]
            simp [hflush]
          · have htc : isTokenChar c = true := by
              rw [isTokenChar_iff]
              simp only [not_or] at h3
              exact ⟨by simpa using h1, h2, h3.1, h3.2.1, h3.2.2.1, h3.2.2.2⟩
            rw [step_tokenChar I stod _ expr localVars s c cs hr htc]
            refine ih ⟨s.values, s.operators, s.token ++ [c], cs, s.expectOperand⟩
              (List.mem_append_left _ hc) ?_ v
            simp only [List.mem_append, List.mem_singleton, not_or]
            exact ⟨ho, fun h => h2 h.symm⟩

/-- When the scan returns a number, the input that was still to be read was
balanced. -/
theorem balanced_of_scanLoop (I : Interpreter) (stod : Stod) (localVars : Map ℚ)
    (hclosed : ClosedNames I stod localVars) (expr : Name) :
    ∀ (fuel : Nat) (s : Scan) (v : ℚ), ')' ∉ s.token → '(' ∉ s.token →
      scanLoop I stod fuel expr localVars s = .ok v → balancedFrom 0 s.rest = true := by
  intro fuel
  induction fuel with
  | zero => intro s v _ _ h; simp [scanLoop] at h
  | succ fuel ih =>
    intro s v hc ho h
    rw [scanLoop_succ_eq] at h
    cases hr : s.rest with
    | nil => simp [balancedFrom]
    | cons c cs =>
      by_cases h1 : isspace c = true
      · rw [step_space I stod _ expr localVars s c cs hr h1] at h
        have := ih ⟨s.values, s.operators, s.token, cs, s.expectOperand⟩ v hc ho h
        have hp1 : c ≠ '(' := by rintro rfl; simp [isspace] at h1
        have hp2 : c ≠ ')' := by rintro rfl; simp [isspace] at h1
        rw [balancedFrom, if_neg hp1, if_neg hp2]
        exact this
      · by_cases h2 : c = '('
        · subst h2
          rw [step_paren I stod _ expr localVars s cs hr] at h
          rw [balancedFrom, if_pos rfl]
          by_cases h0 : (extractSub cs 1 []).2.2 = 0
          · refine balancedFrom_of_extractSub cs 0 [] h0 ?_
            rw [if_neg (not_not.2 h0)] at h
            cases hX : (if s.token ≠ [] then I.functions.find s.token else none) with
            | some func =>
              simp only [hX] at h
              cases hcf : callFunction (evaluateExpression I stod fuel) expr localVars s.token func
                  (extractSub cs 1 []).1 with
              | ok w =>
                simp only [hcf] at h
                exact ih ⟨_, _, [], (extractSub cs 1 []).2.1, false⟩ v (by simp) (by simp) h
              | throw e => simp only [hcf] at h; cases h
              | noFuel => simp only [hcf] at h; cases h
            | none =>
              simp only [hX] at h
              cases hfl : flushToken I stod expr localVars s.token s.values with
              | ok values1 =>
                simp only [hfl] at h
                cases hev : evaluateExpression I stod fuel (extractSub cs 1 []).1 localVars with
                | ok w =>
                  simp only [hev] at h
                  exact ih ⟨_, _, [], (extractSub cs 1 []).2.1, false⟩ v (by simp) (by simp) h
                | throw e => simp only [hev] at h; cases h
                | noFuel => simp only [hev] at h; cases h
              | throw e => simp only [hfl] at h; cases h
              | noFuel => simp only [hfl] at h; cases h
          · rw [if_pos h0] at h
            cases h
        · by_cases h3 : c = '+' ∨ c = '-' ∨ c = '*' ∨ c = '/'
          · rw [step_operator I stod _ expr localVars s c cs hr h3] at h
            have hp2 : c ≠ ')' := by
              rintro rfl
              revert h3
              decide
            rw [balancedFrom, if_neg h2, if_neg hp2]
            cases hfl : flushToken I stod expr localVars s.token s.values with
            | ok values1 =>
              simp only [hfl] at h
              cases hrw : reduceWhile expr c values1 s.operators with
              | ok p =>
                obtain ⟨values2, operators2⟩ := p
                simp only [hrw] at h
                exact ih ⟨values2, c :: operators2, [], cs, true⟩ v (by simp) (by simp) h
              | throw e => simp only [hrw] at h; cases h
              | noFuel => simp only [hrw] at h; cases h
            | throw e => simp only [hfl] at h; cases h
            | noFuel => simp only [hfl] at h; cases h
          · have htc : isTokenChar c = true := by
              rw [isTokenChar_iff]
              simp only [not_or] at h3
              exact ⟨by simpa using h1, h2, h3.1, h3.2.1, h3.2.2.1, h3.2.2.2⟩
            rw [step_tokenChar I stod _ expr localVars s c cs hr htc] at h
            have ho1 : '(' ∉ s.token ++ [c] := by
              simp only [List.mem_append, List.mem_singleton, not_or]
              exact ⟨ho, fun e => h2 e.symm⟩
            by_cases hp2 : c = ')'
            · subst hp2
              exact absurd h (scanLoop_closing_token I stod localVars hclosed expr fuel
                ⟨s.values, s.operators, s.token ++ [')'], cs, s.expectOperand⟩ (by simp) ho1 v)
            · rw [balancedFrom, if_neg h2, if_neg hp2]
              refine ih ⟨s.values, s.operators, s.token ++ [c], cs, s.expectOperand⟩ v ?_ ho1 h
              simp only [List.mem_append, List.mem_singleton, not_or]
              exact ⟨hc, fun e => hp2 e.symm⟩

end Interpreter

/-! ## What the decimal reader consumes -/

namespace Interpreter

theorem readDigits_split : ∀ (s : List Char) (acc n : Nat),
    ∃ ds, s = ds ++ (readDigits s acc n).2.2 ∧ (readDigits s acc n).2.1 = n + ds.length ∧
      ∀ c ∈ ds, isdigit c = true := by
  intro s
  induction s with
  | nil => intro acc n; exact ⟨[], by simp [readDigits]⟩
  | cons c cs ih =>
    intro acc n
    rw [readDigits]
    by_cases h : isdigit c = true
    · simp only [h, if_true]
      obtain ⟨ds, h1, h2, h3⟩ := ih (10 * acc + (c.toNat - 48)) (n + 1)
      refine ⟨c :: ds, ?_, ?_, ?_⟩
      · rw [List.cons_append, ← h1]
      · rw [h2, List.length_cons]
        omega
      · intro x hx
        rcases List.mem_cons.1 hx with rfl | hx
        · exact h
        · exact h3 x hx
    · simp only [h, if_false]
      exact ⟨[], by simp⟩

theorem isdigit_ne_close (c : Char) (h : isdigit c = true) : c ≠ ')' := by
  rintro rfl
  revert h
  decide

theorem readExponent_split (r : List Char) :
    ∃ pre post, r = pre ++ post ∧ pre.length = (readExponent r).2 ∧ ∀ c ∈ pre, c ≠ ')' := by
  have hnil : ∀ (f : ℚ), ∃ pre post, r = pre ++ post ∧ pre.length = (f, 0).2 ∧
      ∀ c ∈ pre, c ≠ ')' := fun _ => ⟨[], r, by simp⟩
  unfold readExponent
  split
  · exact hnil _
  · rename_i c cs
    split
    · rename_i hc
      have hc1 : c ≠ ')' := by
        rintro rfl
        revert hc
        decide
      split
      · rename_i ds
        obtain ⟨dd, h1, h2, h3⟩ := readDigits_split ds 0 0
        split
        rename_i x n rem heq
        rw [heq] at h1 h2
        simp only [Nat.zero_add] at h2
        split
        · exact hnil _
        · refine ⟨c :: '-' :: dd, rem, ?_, ?_, ?_⟩
          · simp only [List.cons_append]
            rw [← h1]
          · simp [h2]
          · intro y hy
            rcases List.mem_cons.1 hy with rfl | hy
            · exact hc1
            · rcases List.mem_cons.1 hy with rfl | hy
              · decide
              · exact isdigit_ne_close y (h3 y hy)
      · rename_i ds
        obtain ⟨dd, h1, h2, h3⟩ := readDigits_split ds 0 0
        split
        rename_i x n rem heq
        rw [heq] at h1 h2
        simp only [Nat.zero_add] at h2
        split
        · exact hnil _
        · refine ⟨c :: '+' :: dd, rem, ?_, ?_, ?_⟩
          · simp only [List.cons_append]
            rw [← h1]
          · simp [h2]
          · intro y hy
            rcases List.mem_cons.1 hy with rfl | hy
            · exact hc1
            · rcases List.mem_cons.1 hy with rfl | hy
              · decide
              · exact isdigit_ne_close y (h3 y hy)
      · obtain ⟨dd, h1, h2, h3⟩ := readDigits_split cs 0 0
        split
        rename_i x n rem heq
        rw [heq] at h1 h2
        simp only [Nat.zero_add] at h2
        split
        · exact hnil _
        · refine ⟨c :: dd, rem, ?_, ?_, ?_⟩
          · simp only [List.cons_append]
            rw [← h1]
          · simp [h2]
          · intro y hy
            rcases List.mem_cons.1 hy with rfl | hy
            · exact hc1
            · exact isdigit_ne_close y (h3 y hy)
    · exact hnil _

/-- The decimal reader reads a prefix of the text, and no `)` is in it. -/
theorem stodDecimal_split (str : List Char) (v : ℚ) (pos : Nat)
    (h : stodDecimal str = some (v, pos)) :
    ∃ pre post, str = pre ++ post ∧ pre.length = pos ∧ ∀ c ∈ pre, c ≠ ')' := by
  unfold stodDecimal at h
  obtain ⟨d1, hd1, hn1, hdig1⟩ := readDigits_split str 0 0
  split at h
  rename_i ip n1 r1 heq1
  rw [heq1] at hd1 hn1
  simp only [Nat.zero_add] at hn1
  split at h
  · rename_i r2
    obtain ⟨d2, hd2, hn2, hdig2⟩ := readDigits_split r2 ip 0
    split at h
    rename_i m n2 r3 heq2
    rw [heq2] at hd2 hn2
    simp only [Nat.zero_add] at hn2
    split at h
    · cases h
    · obtain ⟨pre, post, hp1, hp2, hp3⟩ := readExponent_split r3
      split at h
      rename_i f n3 heq3
      rw [heq3] at hp2
      simp only [Option.some.injEq, Prod.mk.injEq] at h
      refine ⟨d1 ++ '.' :: (d2 ++ pre), post, ?_, ?_, ?_⟩
      · rw [hd1, hd2, hp1]
        simp
      · rw [← h.2, hn1, hn2]
        simp only [List.length_append, List.length_cons, hp2]
        omega
      · intro y hy
        simp only [List.mem_append, List.mem_cons] at hy
        rcases hy with hy | rfl | hy | hy
        · exact isdigit_ne_close y (hdig1 y hy)
        · decide
        · exact isdigit_ne_close y (hdig2 y hy)
        · exact hp3 y hy
  · split at h
    · cases h
    · obtain ⟨pre, post, hp1, hp2, hp3⟩ := readExponent_split r1
      split at h
      rename_i f n3 heq3
      rw [heq3] at hp2
      simp only [Option.some.injEq, Prod.mk.injEq] at h
      refine ⟨d1 ++ pre, post, ?_, ?_, ?_⟩
      · rw [hd1, hp1]
        simp
      · rw [← h.2, hn1]
        simp only [List.length_append, hp2]
      · intro y hy
        simp only [List.mem_append] at hy
        rcases hy with hy | hy
        · exact isdigit_ne_close y (hdig1 y hy)
        · exact hp3 y hy

/-- The decimal reader takes no text with a `)` for a number. -/
theorem isNumber_stodDecimal_close (t : Name) (h : ')' ∈ t) : isNumber stodDecimal t = false := by
  cases hs : stodDecimal t with
  | none => simp [isNumber, hs]
  | some p =>
    obtain ⟨v, pos⟩ := p
    simp only [isNumber, hs, decide_eq_false_iff_not]
    intro hpos
    obtain ⟨pre, post, h1, h2, h3⟩ := stodDecimal_split t v pos hs
    have hlen : post.length = 0 := by
      have := congrArg List.length h1
      simp only [List.length_append] at this
      omega
    have hpost : post = [] := List.length_eq_zero.1 hlen
    rw [hpost, List.append_nil] at h1
    rw [h1] at h
    exact h3 ')' h rfl

/-- With no variables, no functions and no local bindings, the names are closed. -/
theorem closedNames_empty : ClosedNames ⟨[], []⟩ stodDecimal [] :=
  fun t h _ => ⟨isNumber_stodDecimal_close t h, rfl, rfl, rfl⟩

end Interpreter

/-! ## Termination when no function is defined -/

namespace Interpreter

theorem applyOperator_ne_noFuel (a b : ℚ) (op : Char) : applyOperator a b op ≠ .noFuel := by
  unfold applyOperator
  repeat' split
  all_goals simp

theorem flushToken_ne_noFuel (I : Interpreter) (stod : Stod) (expr : Name) (localVars : Map ℚ)
    (token : Name) (values : List ℚ) :
    flushToken I stod expr localVars token values ≠ .noFuel := by
  unfold flushToken
  repeat' split
  all_goals simp

theorem reduceWhile_ne_noFuel (expr : Name) (c : Char) : ∀ (operators : List Char)
    (values : List ℚ), reduceWhile expr c values operators ≠ .noFuel := by
  intro operators
  induction operators with
  | nil => intro values; simp [reduceWhile]
  | cons op operators ih =>
    intro values
    by_cases hc : op ≠ '(' ∧ getPrecedence op ≥ getPrecedence c
    · rcases values with _ | ⟨b, _ | ⟨a, values1⟩⟩
      · simp [reduceWhile, hc]
      · simp [reduceWhile, hc]
      · rw [reduceWhile, if_pos hc]
        cases h : applyOperator a b op with
        | ok r => exact ih (r :: values1)
        | throw e => simp
        | noFuel => exact absurd h (applyOperator_ne_noFuel a b op)
    · rcases values with _ | ⟨b, _ | ⟨a, values1⟩⟩ <;> simp [reduceWhile, hc]

theorem reduceAll_ne_noFuel (expr : Name) : ∀ (operators : List Char) (values : List ℚ),
    reduceAll expr values operators ≠ .noFuel := by
  intro operators
  induction operators with
  | nil => intro values; simp [reduceAll]
  | cons op operators ih =>
    intro values
    rcases values with _ | ⟨b, _ | ⟨a, values1⟩⟩
    · simp [reduceAll]
    · simp [reduceAll]
    · rw [reduceAll]
      cases h : applyOperator a b op with
      | ok r => exact ih (r :: values1)
      | throw e => simp
      | noFuel => exact absurd h (applyOperator_ne_noFuel a b op)

theorem finish_ne_noFuel (I : Interpreter) (stod : Stod) (expr : Name) (localVars : Map ℚ)
    (s : Scan) : finish I stod expr localVars s ≠ .noFuel := by
  unfold finish
  cases hfl : flushToken I stod expr localVars s.token s.values with
  | ok values1 =>
    simp only []
    cases hra : reduceAll expr values1 s.operators with
    | ok vs => cases vs <;> simp
    | throw e => simp
    | noFuel => exact absurd hra (reduceAll_ne_noFuel expr _ _)
  | throw e => simp
  | noFuel => exact absurd hfl (flushToken_ne_noFuel I stod expr localVars _ _)

/-- The inner loop at a `(` copies and leaves no more than it was given. -/
theorem extractSub_length : ∀ (cs : List Char) (d : Nat) (acc : Name),
    (extractSub cs d acc).1.length + (extractSub cs d acc).2.1.length ≤ acc.length + cs.length := by
  intro cs
  induction cs with
  | nil => intro d acc; simp [extractSub]
  | cons c cs ih =>
    intro d acc
    rw [extractSub]
    have hacc : ∀ (P : Prop) [Decidable P],
        (if P then acc ++ [c] else acc).length ≤ acc.length + 1 := by
      intro P _
      split <;> simp
    split
    · simp only []
      refine le_trans (ih _ _) ?_
      have := hacc ((if c = '(' then d + 1 else if c = ')' then d - 1 else d) > 0)
      simp only [List.length_cons]
      omega
    · simp

/-- With no function defined, the scan from any locals ends (with a value or an
error) once the groups of the remaining input do. -/
theorem scanYields_total (I : Interpreter) (stod : Stod) (hfun : I.functions = []) (m : Nat)
    (hsub : ∀ e : Name, e.length < m → ∀ lv, ∃ r, Yields I stod e lv r) (expr : Name)
    (localVars : Map ℚ) :
    ∀ (k : Nat) (s : Scan), s.rest.length ≤ k → k ≤ m →
      ∃ r, ScanYields I stod expr localVars s r := by
  intro k
  induction k with
  | zero =>
    intro s hk _
    have hr : s.rest = [] := List.length_eq_zero.1 (Nat.le_zero.1 hk)
    exact ⟨_, scanYields_done I stod expr localVars s _ (finish_ne_noFuel I stod expr localVars s)
      ⟨0, fun f _ => step_end I stod _ expr localVars s hr⟩⟩
  | succ k ih =>
    intro s hk hm
    cases hr : s.rest with
    | nil =>
      exact ⟨_, scanYields_done I stod expr localVars s _
        (finish_ne_noFuel I stod expr localVars s)
        ⟨0, fun f _ => step_end I stod _ expr localVars s hr⟩⟩
    | cons c cs =>
      have hcs : cs.length ≤ k := by
        rw [hr, List.length_cons] at hk
        omega
      by_cases h1 : isspace c = true
      · obtain ⟨r, h⟩ := ih ⟨s.values, s.operators, s.token, cs, s.expectOperand⟩ hcs
          (by omega)
        exact ⟨r, scanYields_more I stod expr localVars s _ r
          ⟨0, fun f _ => step_space I stod _ expr localVars s c cs hr h1⟩ h⟩
      · by_cases h2 : c = '('
        · subst h2
          have hX : (if s.token ≠ [] then I.functions.find s.token else none) = none := by
            rw [hfun]
            split <;> rfl
          have hlen := extractSub_length cs 1 []
          simp only [List.length_nil, Nat.zero_add] at hlen
          by_cases h0 : (extractSub cs 1 []).2.2 = 0
          · cases hfl : flushToken I stod expr localVars s.token s.values with
            | ok values1 =>
              obtain ⟨r1, hr1, n1, hn1⟩ := hsub (extractSub cs 1 []).1 (by omega) localVars
              cases r1 with
              | ok v =>
                obtain ⟨r, h⟩ := ih ⟨v :: values1,
                  if (!s.expectOperand && s.token.isEmpty) = true then '*' :: s.operators
                  else s.operators, [], (extractSub cs 1 []).2.1, false⟩
                  (by simp only []; omega) (by omega)
                refine ⟨r, scanYields_more I stod expr localVars s _ r ⟨n1, fun f hf => ?_⟩ h⟩
                rw [step_paren I stod _ expr localVars s cs hr, if_neg (not_not.2 h0)]
                simp only [hX, hfl, hn1 f hf]
              | throw e =>
                refine ⟨.throw e, scanYields_done I stod expr localVars s _ (by simp)
                  ⟨n1, fun f hf => ?_⟩⟩
                rw [step_paren I stod _ expr localVars s cs hr, if_neg (not_not.2 h0)]
                simp only [hX, hfl, hn1 f hf]
              | noFuel => exact absurd rfl hr1
            | throw e =>
              refine ⟨.throw e, scanYields_done I stod expr localVars s _ (by simp)
                ⟨0, fun f _ => ?_⟩⟩
              rw [step_paren I stod _ expr localVars s cs hr, if_neg (not_not.2 h0)]
              simp only [hX, hfl]
            | noFuel => exact absurd hfl (flushToken_ne_noFuel I stod expr localVars _ _)
          · refine ⟨_, scanYields_done I stod expr localVars s
              (.throw (.mismatchedParentheses expr)) (by simp) ⟨0, fun f _ => ?_⟩⟩
            rw [step_paren I stod _ expr localVars s cs hr, if_pos h0]
        · by_cases h3 : c = '+' ∨ c = '-' ∨ c = '*' ∨ c = '/'
          · cases hfl : flushToken I stod expr localVars s.token s.values with
            | ok values1 =>
              cases hrw : reduceWhile expr c values1 s.operators with
              | ok p =>
                obtain ⟨values2, operators2⟩ := p
                obtain ⟨r, h⟩ := ih ⟨values2, c :: operators2, [], cs, true⟩ hcs (by omega)
                refine ⟨r, scanYields_more I stod expr localVars s _ r ⟨0, fun f _ => ?_⟩ h⟩
                rw [step_operator I stod _ expr localVars s c cs hr h3]
                simp only [hfl, hrw]
              | throw e =>
                refine ⟨.throw e, scanYields_done I stod expr localVars s _ (by simp)
                  ⟨0, fun f _ => ?_⟩⟩
                rw [step_operator I stod _ expr localVars s c cs hr h3]
                simp only [hfl, hrw]
              | noFuel => exact absurd hrw (reduceWhile_ne_noFuel expr c _ _)
            | throw e =>
              refine ⟨.throw e, scanYields_done I stod expr localVars s _ (by simp)
                ⟨0, fun f _ => ?_⟩⟩
              rw [step_operator I stod _ expr localVars s c cs hr h3]
              simp only [hfl]
            | noFuel => exact absurd hfl (flushToken_ne_noFuel I stod expr localVars _ _)
          · have htc : isTokenChar c = true := by
              rw [isTokenChar_iff]
              simp only [not_or] at h3
              exact ⟨by simpa using h1, h2, h3.1, h3.2.1, h3.2.2.1, h3.2.2.2⟩
            obtain ⟨r, h⟩ := ih ⟨s.values, s.operators, s.token ++ [c], cs, s.expectOperand⟩ hcs
              (by omega)
            exact ⟨r, scanYields_more I stod expr localVars s _ r
              ⟨0, fun f _ => step_tokenChar I stod _ expr localVars s c cs hr htc⟩ h⟩

/-- With no function defined, `evaluateExpression` ends on every expression:
it returns a value or throws. -/
theorem yields_total (I : Interpreter) (stod : Stod) (hfun : I.functions = []) :
    ∀ (m : Nat) (expr : Name), expr.length < m → ∀ localVars,
      ∃ r, Yields I stod expr localVars r := by
  intro m
  induction m with
  | zero => intro expr h; omega
  | succ m ih =>
    intro expr h localVars
    have := scanYields_total I stod hfun expr.length
      (fun e he => ih e (by omega)) expr localVars expr.length (Scan.init expr)
      (le_of_eq rfl) (le_refl _)
    exact this

end Interpreter

/-! ## Termination when the function bodies terminate -/

namespace Interpreter

end Interpreter

namespace Interpreter

end Interpreter

namespace Interpreter

end Interpreter

namespace Interpreter

end Interpreter

/-! ## The second program: tokens -/

namespace Proga

theorem splitWord_operator (w : Name) :
    (if w = ['+'] ∨ w = ['-'] ∨ w = ['*'] ∨ w = ['/'] ∨ w = ['('] ∨ w = [')'] then [w]
      else splitWord w []) = splitWord w [] := by
  split
  · rename_i h
    rcases h with h | h | h | h | h | h <;> (subst h; rfl)
  · rfl

theorem scanTokens_word : ∀ (w cur : Name), (∀ c ∈ w, isspace c = false) →
    scanTokens w cur = splitWord w cur := by
  intro w
  induction w with
  | nil => intro cur _; rfl
  | cons x w ih =>
    intro cur h
    have hx : isspace x = false := h x (List.mem_cons_self _ _)
    have hw : ∀ c ∈ w, isspace c = false := fun c hc => h c (List.mem_cons_of_mem _ hc)
    rw [scanTokens, splitWord]
    simp only [hx, Bool.false_eq_true, if_false]
    split
    · rw [ih [] hw]
    · exact ih _ hw

theorem scanTokens_word_space : ∀ (w cur : Name) (c : Char) (cs : List Char),
    (∀ x ∈ w, isspace x = false) → isspace c = true →
    scanTokens (w ++ c :: cs) cur = splitWord w cur ++ scanTokens cs [] := by
  intro w
  induction w with
  | nil =>
    intro cur c cs _ hc
    rw [List.nil_append, scanTokens, splitWord]
    simp only [hc, if_true]
  | cons x w ih =>
    intro cur c cs h hc
    have hx : isspace x = false := h x (List.mem_cons_self _ _)
    have hw : ∀ y ∈ w, isspace y = false := fun y hy => h y (List.mem_cons_of_mem _ hy)
    rw [List.cons_append, scanTokens, splitWord]
    simp only [hx, Bool.false_eq_true, if_false]
    split
    · rw [ih [] c cs hw hc]
      simp
    · exact ih _ c cs hw hc

theorem splitWords_flatMap : ∀ (s : List Char) (cur : Name), (∀ c ∈ cur, isspace c = false) →
    (splitWords s cur).flatMap (fun w => splitWord w []) = scanTokens (cur ++ s) [] := by
  intro s
  induction s with
  | nil =>
    intro cur h
    rw [List.append_nil, scanTokens_word cur [] h, splitWords]
    split
    · rename_i h0
      subst h0
      rfl
    · simp
  | cons c cs ih =>
    intro cur h
    rw [splitWords]
    by_cases hc : isspace c = true
    · simp only [hc, if_true, List.flatMap_append]
      rw [ih [] (by simp), scanTokens_word_space cur [] c cs h hc, List.nil_append]
      congr 1
      split
      · rename_i h0
        subst h0
        rfl
      · simp
    · simp only [hc, if_false, Bool.false_eq_true]
      rw [ih (cur ++ [c]) (by
        intro x hx
        rcases List.mem_append.1 hx with hx | hx
        · exact h x hx
        · rw [List.mem_singleton.1 hx]
          simpa using hc)]
      simp

/-- The function `tokenize` yields the tokens of the one-pass description. -/
theorem tokenize_eq_scanTokens (expression : Name) :
    tokenize expression = scanTokens expression [] := by
  unfold tokenize
  have h : (fun token : Name =>
      if token = ['+'] ∨ token = ['-'] ∨ token = ['*'] ∨ token = ['/'] ∨ token = ['('] ∨
          token = [')'] then [token]
      else splitWord token []) = fun w => splitWord w [] := by
    funext w
    exact splitWord_operator w
  rw [h, splitWords_flatMap expression [] (by simp), List.nil_append]

theorem scanTokens_spaces (n : Nat) (rest : List Char) :
    scanTokens (List.replicate n ' ' ++ rest) [] = scanTokens rest [] := by
  induction n with
  | zero => simp
  | succ n ih =>
    rw [List.replicate_succ, List.cons_append, scanTokens]
    simp only [show isspace ' ' = true by decide, if_true]
    simpa using ih

/-- A pending run is a token when the input ends or goes on with white space or
one of `+-*/()`. -/
theorem scanTokens_flush (cur : Name) (hcur : cur ≠ []) (rest : List Char)
    (hrest : ∀ c cs, rest = c :: cs → isspace c = true ∨ isOperatorChar c = true) :
    scanTokens rest cur = cur :: scanTokens rest [] := by
  cases rest with
  | nil => simp [scanTokens, hcur]
  | cons c cs =>
    rw [scanTokens, scanTokens]
    by_cases h1 : isspace c = true
    · simp [h1, hcur]
    · have h2 : isOperatorChar c = true := by
        rcases hrest c cs rfl with h | h
        · exact absurd h h1
        · exact h
      simp [h1, h2, hcur]

theorem scanTokens_run : ∀ (text cur : Name) (rest : List Char),
    (∀ c ∈ text, isspace c = false ∧ isOperatorChar c = false) →
    scanTokens (text ++ rest) cur = scanTokens rest (cur ++ text) := by
  intro text
  induction text with
  | nil => intro cur rest _; simp
  | cons x text ih =>
    intro cur rest h
    obtain ⟨h1, h2⟩ := h x (List.mem_cons_self _ _)
    rw [List.cons_append, scanTokens]
    simp only [h1, h2, Bool.false_eq_true, if_false]
    rw [ih (cur ++ [x]) rest (fun c hc => h c (List.mem_cons_of_mem _ hc))]
    simp

end Proga


/-! ## The evaluator over the numbers of the machine: the scan, one pass at a time -/

namespace Machine

/-! ## The scan loop, one pass at a time -/

theorem scanLoop_succ_eq_m {D : Type} (M : Machine D) (I : Env D) (fuel : Nat) (expr : Name)
    (localVars : Map D) (s : Scan D) :
    scanLoop M I (fuel + 1) expr localVars s =
      match step M I (evaluateExpression M I fuel) expr localVars s with
      | .done r => r
      | .more s1 => scanLoop M I fuel expr localVars s1 := rfl

theorem yields_iff_scanYields_m {D : Type} (M : Machine D) (I : Env D) (expr : Name) (localVars : Map D)
    (r : Outcome D) :
    Yields M I expr localVars r ↔ ScanYields M I expr localVars (Scan.init expr) r :=
  Iff.rfl

theorem scanYields_more_m {D : Type} (M : Machine D) (I : Env D) (expr : Name) (localVars : Map D)
    (s s1 : Scan D) (r : Outcome D)
    (hstep : ∃ m, ∀ k, m ≤ k →
      step M I (evaluateExpression M I k) expr localVars s = .more s1)
    (h : ScanYields M I expr localVars s1 r) : ScanYields M I expr localVars s r := by
  obtain ⟨m, hm⟩ := hstep
  obtain ⟨hr, n, hn⟩ := h
  refine ⟨hr, max m n + 1, fun fuel hle => ?_⟩
  obtain ⟨f, rfl⟩ : ∃ f, fuel = f + 1 := ⟨fuel - 1, by omega⟩
  have h1 : m ≤ f := by
    have := le_max_left m n
    omega
  have h2 : n ≤ f := by
    have := le_max_right m n
    omega
  rw [scanLoop_succ_eq_m, hm f h1]
  exact hn f h2

theorem scanYields_done_m {D : Type} (M : Machine D) (I : Env D) (expr : Name) (localVars : Map D)
    (s : Scan D) (r : Outcome D) (hr : r ≠ .noFuel)
    (hstep : ∃ m, ∀ k, m ≤ k →
      step M I (evaluateExpression M I k) expr localVars s = .done r) :
    ScanYields M I expr localVars s r := by
  obtain ⟨m, hm⟩ := hstep
  refine ⟨hr, m + 1, fun fuel hle => ?_⟩
  obtain ⟨f, rfl⟩ : ∃ f, fuel = f + 1 := ⟨fuel - 1, by omega⟩
  rw [scanLoop_succ_eq_m, hm f (by omega)]

theorem step_end_m {D : Type} (M : Machine D) (I : Env D) (eval : Name → Map D → Outcome D) (expr : Name)
    (localVars : Map D) (s : Scan D) (hrest : s.rest = []) :
    step M I eval expr localVars s = .done (finish M I expr localVars s) := by
  unfold step
  simp only [hrest]

theorem step_space_m {D : Type} (M : Machine D) (I : Env D) (eval : Name → Map D → Outcome D)
    (expr : Name) (localVars : Map D) (s : Scan D) (c : Char) (cs : List Char)
    (hrest : s.rest = c :: cs) (hc : isspace c = true) :
    step M I eval expr localVars s = .more { s with rest := cs } := by
  unfold step
  simp only [hrest, hc, if_true]

theorem step_tokenChar_m {D : Type} (M : Machine D) (I : Env D) (eval : Name → Map D → Outcome D)
    (expr : Name) (localVars : Map D) (s : Scan D) (c : Char) (cs : List Char)
    (hrest : s.rest = c :: cs) (hc : Interpreter.isTokenChar c = true) :
    step M I eval expr localVars s = .more { s with token := s.token ++ [c], rest := cs } := by
  obtain ⟨h1, h2, h3, h4, h5, h6⟩ := (Interpreter.isTokenChar_iff c).1 hc
  unfold step
  simp [hrest, h1, h2, h3, h4, h5, h6]

theorem step_operator_m {D : Type} (M : Machine D) (I : Env D) (eval : Name → Map D → Outcome D)
    (expr : Name) (localVars : Map D) (s : Scan D) (c : Char) (cs : List Char)
    (hrest : s.rest = c :: cs) (hc : c = '+' ∨ c = '-' ∨ c = '*' ∨ c = '/') :
    step M I eval expr localVars s =
      match flushToken M I expr localVars s.token s.values with
      | .ok values1 =>
        match reduceWhile M expr c values1 s.operators with
        | .ok (values2, operators2) => .more ⟨values2, c :: operators2, [], cs, true⟩
        | .throw e => .done (.throw e)
        | .noFuel => .done .noFuel
      | .throw e => .done (.throw e)
      | .noFuel => .done .noFuel := by
  have h1 : isspace c = false := by
    rcases hc with h | h | h | h <;> (subst h; decide)
  have h2 : c ≠ '(' := by
    rcases hc with h | h | h | h <;> (subst h; decide)
  unfold step
  simp only [hrest, h1, h2, hc, if_true, if_false, Bool.false_eq_true]

theorem step_paren_m {D : Type} (M : Machine D) (I : Env D) (eval : Name → Map D → Outcome D)
    (expr : Name) (localVars : Map D) (s : Scan D) (cs : List Char)
    (hrest : s.rest = '(' :: cs) :
    step M I eval expr localVars s =
      if (Interpreter.extractSub cs 1 []).2.2 ≠ 0 then .done (.throw (.mismatchedParentheses expr))
      else
        match (if s.token ≠ [] then I.functions.find s.token else none) with
        | some func =>
          match callFunction eval expr localVars s.token func (Interpreter.extractSub cs 1 []).1 with
          | .ok v =>
            .more ⟨v :: s.values,
              if (!s.expectOperand && s.token.isEmpty) = true then '*' :: s.operators
              else s.operators, [], (Interpreter.extractSub cs 1 []).2.1, false⟩
          | .throw e => .done (.throw e)
          | .noFuel => .done .noFuel
        | none =>
          match flushToken M I expr localVars s.token s.values with
          | .ok values1 =>
            match eval (Interpreter.extractSub cs 1 []).1 localVars with
            | .ok v =>
              .more ⟨v :: values1,
                if (!s.expectOperand && s.token.isEmpty) = true then '*' :: s.operators
                else s.operators, [], (Interpreter.extractSub cs 1 []).2.1, false⟩
            | .throw e => .done (.throw e)
            | .noFuel => .done .noFuel
          | .throw e => .done (.throw e)
          | .noFuel => .done .noFuel := by
  have h1 : isspace '(' = false := by decide
  unfold step
  simp only [hrest, h1, if_true, if_false, Bool.false_eq_true]

/-! ## Scanning white space and token characters -/

theorem scanYields_spaces_m {D : Type} (M : Machine D) (I : Env D) (expr : Name) (localVars : Map D)
    (vs : List D) (ops : List Char) (tok : Name) (eo : Bool) (r : Outcome D) :
    ∀ (n : Nat) (rest : List Char),
      ScanYields M I expr localVars ⟨vs, ops, tok, rest, eo⟩ r →
      ScanYields M I expr localVars ⟨vs, ops, tok, List.replicate n ' ' ++ rest, eo⟩ r := by
  intro n
  induction n with
  | zero => intro rest h; simpa using h
  | succ n ih =>
    intro rest h
    refine scanYields_more_m M I expr localVars _ ⟨vs, ops, tok, List.replicate n ' ' ++ rest, eo⟩
      r ⟨0, fun k _ => ?_⟩ (ih rest h)
    exact step_space_m M I _ expr localVars _ ' ' (List.replicate n ' ' ++ rest)
      (by simp [List.replicate_succ]) (by decide)

theorem scanYields_token_m {D : Type} (M : Machine D) (I : Env D) (expr : Name) (localVars : Map D)
    (vs : List D) (ops : List Char) (eo : Bool) (r : Outcome D) :
    ∀ (text : List Char) (tok : Name) (rest : List Char),
      (∀ c ∈ text, Interpreter.isTokenChar c = true) →
      ScanYields M I expr localVars ⟨vs, ops, tok ++ text, rest, eo⟩ r →
      ScanYields M I expr localVars ⟨vs, ops, tok, text ++ rest, eo⟩ r := by
  intro text
  induction text with
  | nil => intro tok rest _ h; simpa using h
  | cons c cs ih =>
    intro tok rest hall h
    have hc : Interpreter.isTokenChar c = true := hall c (List.mem_cons_self _ _)
    have hcs : ∀ d ∈ cs, Interpreter.isTokenChar d = true := fun d hd => hall d (List.mem_cons_of_mem _ hd)
    refine scanYields_more_m M I expr localVars _ ⟨vs, ops, tok ++ [c], cs ++ rest, eo⟩
      r ⟨0, fun k _ => ?_⟩ (ih (tok ++ [c]) rest hcs (by simpa using h))
    exact step_tokenChar_m M I _ expr localVars _ c (cs ++ rest) rfl hc

/-! ## The operator stack -/

theorem reduceWhile_low_m {D : Type} (M : Machine D) (expr : Name) (c : Char)
    (hc : c = '*' ∨ c = '/') (vs : List D) (ops : List Char) (hops : ops = [] ∨ ops = ['+'] ∨ ops = ['-']) :
    reduceWhile M expr c vs ops = .ok (vs, ops) := by
  have h2 : Interpreter.getPrecedence c = 2 := by
    rcases hc with h | h <;> (subst h; decide)
  rcases hops with h | h | h <;> subst h
  · simp [reduceWhile]
  · have : Interpreter.getPrecedence '+' = 1 := by decide
    simp [reduceWhile, h2, this]
  · have : Interpreter.getPrecedence '-' = 1 := by decide
    simp [reduceWhile, h2, this]

theorem reduceWhile_apply_m {D : Type} (M : Machine D) (expr : Name) (c op : Char) (a b v : D)
    (vs : List D) (ops : List Char) (hop : op ≠ '(')
    (hprec : Interpreter.getPrecedence c ≤ Interpreter.getPrecedence op)
    (happly : applyOperator M a b op = .ok v) :
    reduceWhile M expr c (b :: a :: vs) (op :: ops) = reduceWhile M expr c (v :: vs) ops := by
  rw [reduceWhile]
  simp only [ne_eq, hop, not_false_eq_true, ge_iff_le, hprec, and_self, if_true, happly]

theorem applyOperator_add_m {D : Type} (M : Machine D) (a b : D) :
    applyOperator M a b '+' = .ok (M.add a b) := by
  simp [applyOperator]

theorem applyOperator_sub_m {D : Type} (M : Machine D) (a b : D) :
    applyOperator M a b '-' = .ok (M.sub a b) := by
  simp [applyOperator]

theorem applyOperator_mul_m {D : Type} (M : Machine D) (a b : D) :
    applyOperator M a b '*' = .ok (M.mul a b) := by
  simp [applyOperator]

theorem applyOperator_div_m {D : Type} (M : Machine D) (a b : D) (hb : M.small b = false) :
    applyOperator M a b '/' = .ok (M.div a b) := by
  simp [applyOperator, hb]

theorem applyOperator_div_small_m {D : Type} (M : Machine D) (a b : D)
    (hb : M.small b = true) : applyOperator M a b '/' = .throw .divisionByZero := by
  simp [applyOperator, hb]

end Machine

/-! ## Plain arithmetic: stacks, literals and parenthesised text -/

namespace Arith

open Machine

theorem Term.admissible_mul {D : Type} (M : Machine D) (t : Term) (f : Factor)
    (h : (Term.mul t f).admissible M = true) :
    t.admissible M = true ∧ f.admissible M = true := by
  simpa [Term.admissible] using h

theorem Term.admissible_div {D : Type} (M : Machine D) (t : Term) (f : Factor)
    (h : (Term.div t f).admissible M = true) :
    t.admissible M = true ∧ f.admissible M = true ∧ M.small (f.value M) = false := by
  simpa [Term.admissible, and_assoc] using h

theorem Expr.admissible_add {D : Type} (M : Machine D) (e : Expr) (t : Term)
    (h : (Expr.add e t).admissible M = true) :
    e.admissible M = true ∧ t.admissible M = true := by
  simpa [Expr.admissible] using h

theorem Expr.admissible_sub {D : Type} (M : Machine D) (e : Expr) (t : Term)
    (h : (Expr.sub e t).admissible M = true) :
    e.admissible M = true ∧ t.admissible M = true := by
  simpa [Expr.admissible] using h

theorem Term.readable_mul {D : Type} (M : Machine D) (t : Term) (f : Factor)
    (h : (Term.mul t f).readable M = true) : t.readable M = true ∧ f.readable M = true := by
  simpa [Term.readable] using h

theorem Term.readable_div {D : Type} (M : Machine D) (t : Term) (f : Factor)
    (h : (Term.div t f).readable M = true) : t.readable M = true ∧ f.readable M = true := by
  simpa [Term.readable] using h

theorem Expr.readable_add {D : Type} (M : Machine D) (e : Expr) (t : Term)
    (h : (Expr.add e t).readable M = true) : e.readable M = true ∧ t.readable M = true := by
  simpa [Expr.readable] using h

theorem Expr.readable_sub {D : Type} (M : Machine D) (e : Expr) (t : Term)
    (h : (Expr.sub e t).readable M = true) : e.readable M = true ∧ t.readable M = true := by
  simpa [Expr.readable] using h

theorem Factor.admissible_lit {D : Type} (M : Machine D) (pre : Nat) (text : List Char)
    (post : Nat) (h : (Factor.lit pre text post).admissible M = true) :
    isUnsignedDecimal text = true ∧ Machine.isNumber M text = true := by
  simpa [Factor.admissible] using h

theorem Factor.readable_lit {D : Type} (M : Machine D) (pre : Nat) (text : List Char) (post : Nat)
    (h : (Factor.lit pre text post).readable M = true) :
    isUnsignedDecimal text = true ∧ Machine.isNumber M text = true := by
  simpa [Factor.readable] using h

mutual
theorem readable_of_admissible_expr {D : Type} (M : Machine D) : ∀ (e : Expr),
    e.admissible M = true → e.readable M = true
  | .term t, h => by
    have ht : t.admissible M = true := by simpa [Expr.admissible] using h
    simpa [Expr.readable] using readable_of_admissible_term M t ht
  | .add e t, h => by
    obtain ⟨he, ht⟩ := Expr.admissible_add M e t h
    simp [Expr.readable, readable_of_admissible_expr M e he, readable_of_admissible_term M t ht]
  | .sub e t, h => by
    obtain ⟨he, ht⟩ := Expr.admissible_sub M e t h
    simp [Expr.readable, readable_of_admissible_expr M e he, readable_of_admissible_term M t ht]
theorem readable_of_admissible_term {D : Type} (M : Machine D) : ∀ (t : Term),
    t.admissible M = true → t.readable M = true
  | .factor f, h => by
    have hf : f.admissible M = true := by simpa [Term.admissible] using h
    simpa [Term.readable] using readable_of_admissible_factor M f hf
  | .mul t f, h => by
    obtain ⟨ht, hf⟩ := Term.admissible_mul M t f h
    simp [Term.readable, readable_of_admissible_term M t ht,
      readable_of_admissible_factor M f hf]
  | .div t f, h => by
    obtain ⟨ht, hf, _⟩ := Term.admissible_div M t f h
    simp [Term.readable, readable_of_admissible_term M t ht,
      readable_of_admissible_factor M f hf]
theorem readable_of_admissible_factor {D : Type} (M : Machine D) : ∀ (f : Factor),
    f.admissible M = true → f.readable M = true
  | .lit pre text post, h => by
    simpa [Factor.readable, Factor.admissible] using h
  | .group pre e post, h => by
    have he : e.admissible M = true := by simpa [Factor.admissible] using h
    simpa [Factor.readable] using readable_of_admissible_expr M e he
end

/-- Any incoming operator first applies the pending `*` or `/` of a term. -/
theorem reduceWhile_term {D : Type} (M : Machine D) (expr : Name) (c : Char) (t : Term)
    (ht : t.admissible M = true) (vs : List D) (ops : List Char) :
    reduceWhile M expr c (t.pendingValues M ++ vs) (t.pendingOperators ++ ops) =
      reduceWhile M expr c (t.value M :: vs) ops := by
  cases t with
  | factor f => simp [Term.pendingValues, Term.pendingOperators, Term.value]
  | mul t1 f =>
    simp only [Term.pendingValues, Term.pendingOperators, Term.value, List.cons_append,
      List.nil_append]
    exact reduceWhile_apply_m M expr c '*' _ _ _ vs ops (by decide)
      (by have := Interpreter.getPrecedence_le_two c; simpa [Interpreter.getPrecedence] using this)
      (applyOperator_mul_m M _ _)
  | div t1 f =>
    obtain ⟨_, _, hsafe⟩ := Term.admissible_div M t1 f ht
    simp only [Term.pendingValues, Term.pendingOperators, Term.value, List.cons_append,
      List.nil_append]
    exact reduceWhile_apply_m M expr c '/' _ _ _ vs ops (by decide)
      (by have := Interpreter.getPrecedence_le_two c; simpa [Interpreter.getPrecedence] using this)
      (applyOperator_div_m M _ _ hsafe)

/-- An incoming `*` or `/` leaves the value of the term on top of the base stacks. -/
theorem reduceWhile_term_mul {D : Type} (M : Machine D) (expr : Name) (c : Char)
    (hc : c = '*' ∨ c = '/') (t : Term) (ht : t.admissible M = true) (vs : List D) (ops : List Char)
    (hops : ops = [] ∨ ops = ['+'] ∨ ops = ['-']) :
    reduceWhile M expr c (t.pendingValues M ++ vs) (t.pendingOperators ++ ops) =
      .ok (t.value M :: vs, ops) := by
  rw [reduceWhile_term M expr c t ht vs ops, reduceWhile_low_m M expr c hc _ ops hops]

/-- An incoming `+` or `-` leaves the value of the expression alone on the stack. -/
theorem reduceWhile_expr {D : Type} (M : Machine D) (expr : Name) (c : Char)
    (hc : c = '+' ∨ c = '-') (e : Expr) (he : e.admissible M = true) :
    reduceWhile M expr c (e.pendingValues M) e.pendingOperators = .ok ([e.value M], []) := by
  have h1 : Interpreter.getPrecedence c = 1 := by
    rcases hc with h | h <;> (subst h; decide)
  cases e with
  | term t =>
    have ht : t.admissible M = true := by simpa [Expr.admissible] using he
    have := reduceWhile_term M expr c t ht [] []
    simp only [List.append_nil] at this
    simp only [Expr.pendingValues, Expr.pendingOperators, Expr.value, this]
    simp [reduceWhile]
  | add e1 t =>
    obtain ⟨_, ht⟩ := Expr.admissible_add M e1 t he
    simp only [Expr.pendingValues, Expr.pendingOperators, Expr.value]
    rw [reduceWhile_term M expr c t ht [e1.value M] ['+']]
    rw [reduceWhile_apply_m M expr c '+' _ _ _ [] [] (by decide) (by rw [h1]; decide)
      (applyOperator_add_m M _ _)]
    simp [reduceWhile]
  | sub e1 t =>
    obtain ⟨_, ht⟩ := Expr.admissible_sub M e1 t he
    simp only [Expr.pendingValues, Expr.pendingOperators, Expr.value]
    rw [reduceWhile_term M expr c t ht [e1.value M] ['-']]
    rw [reduceWhile_apply_m M expr c '-' _ _ _ [] [] (by decide) (by rw [h1]; decide)
      (applyOperator_sub_m M _ _)]
    simp [reduceWhile]

theorem reduceAll_term {D : Type} (M : Machine D) (expr : Name) (t : Term)
    (ht : t.admissible M = true) (vs : List D) (ops : List Char) :
    reduceAll M expr (t.pendingValues M ++ vs) (t.pendingOperators ++ ops) =
      reduceAll M expr (t.value M :: vs) ops := by
  cases t with
  | factor f => simp [Term.pendingValues, Term.pendingOperators, Term.value]
  | mul t1 f =>
    simp [Term.pendingValues, Term.pendingOperators, Term.value, reduceAll, applyOperator_mul_m]
  | div t1 f =>
    obtain ⟨_, _, hsafe⟩ := Term.admissible_div M t1 f ht
    simp [Term.pendingValues, Term.pendingOperators, Term.value, reduceAll,
      applyOperator_div_m M _ _ hsafe]

/-- The loop after the scan leaves the value of the expression alone on the stack. -/
theorem reduceAll_expr {D : Type} (M : Machine D) (expr : Name) (e : Expr)
    (he : e.admissible M = true) :
    reduceAll M expr (e.pendingValues M) e.pendingOperators = .ok [e.value M] := by
  cases e with
  | term t =>
    have ht : t.admissible M = true := by simpa [Expr.admissible] using he
    have := reduceAll_term M expr t ht [] []
    simp only [List.append_nil] at this
    simp only [Expr.pendingValues, Expr.pendingOperators, Expr.value, this]
    simp [reduceAll]
  | add e1 t =>
    obtain ⟨_, ht⟩ := Expr.admissible_add M e1 t he
    simp only [Expr.pendingValues, Expr.pendingOperators, Expr.value]
    rw [reduceAll_term M expr t ht [e1.value M] ['+']]
    simp [reduceAll, applyOperator_add_m]
  | sub e1 t =>
    obtain ⟨_, ht⟩ := Expr.admissible_sub M e1 t he
    simp only [Expr.pendingValues, Expr.pendingOperators, Expr.value]
    rw [reduceAll_term M expr t ht [e1.value M] ['-']]
    simp [reduceAll, applyOperator_sub_m]

/-! ### Literals -/

theorem isUnsignedDecimal_chars (s : List Char) (h : isUnsignedDecimal s = true) :
    ∀ c ∈ s, isdigit c = true ∨ c = '.' := by
  intro c hc
  simp only [isUnsignedDecimal, Bool.and_eq_true, List.all_eq_true, Bool.or_eq_true,
    decide_eq_true_eq] at h
  exact h.1.1 c hc

theorem isUnsignedDecimal_ne_nil (s : List Char) (h : isUnsignedDecimal s = true) : s ≠ [] := by
  intro h0
  subst h0
  simp [isUnsignedDecimal] at h

theorem isTokenChar_of_digit (c : Char) (h : isdigit c = true ∨ c = '.') :
    Interpreter.isTokenChar c = true := by
  rcases h with h | h
  · simp only [isdigit, decide_eq_true_eq] at h
    rw [Interpreter.isTokenChar_iff]
    refine ⟨?_, ?_, ?_, ?_, ?_, ?_⟩
    · simp only [isspace, decide_eq_false_iff_not]
      omega
    all_goals
      intro h0
      subst h0
      revert h
      decide
  · subst h
    decide

theorem not_paren_of_digit (c : Char) (h : isdigit c = true ∨ c = '.') : c ≠ '(' ∧ c ≠ ')' := by
  rcases h with h | h
  · simp only [isdigit, decide_eq_true_eq] at h
    constructor <;>
    · intro h0
      subst h0
      revert h
      decide
  · subst h
    decide

theorem flushToken_literal {D : Type} (M : Machine D) (I : Env D) (expr : Name)
    (localVars : Map D) (text : List Char) (h : isUnsignedDecimal text = true)
    (hnum : Machine.isNumber M text = true) (vs : List D) :
    flushToken M I expr localVars text vs = .ok (numberValue M text :: vs) := by
  simp [flushToken, isUnsignedDecimal_ne_nil text h, hnum]

/-! ### The text of a rendered group -/

theorem space_not_paren (n : Nat) : ∀ c ∈ List.replicate n ' ', c ≠ '(' ∧ c ≠ ')' := by
  intro c hc
  rw [List.eq_of_mem_replicate hc]
  decide

mutual
theorem extractSub_render_expr {D : Type} (M : Machine D) : ∀ (e : Expr), e.readable M = true →
    ∀ (d : Nat) (acc : Name) (tail : List Char),
      Interpreter.extractSub (e.render ++ tail) (d + 1) acc = Interpreter.extractSub tail (d + 1) (acc ++ e.render)
  | .term t, h, d, acc, tail => by
    have ht : t.readable M = true := by simpa [Expr.readable] using h
    simpa [Expr.render] using extractSub_render_term M t ht d acc tail
  | .add e t, h, d, acc, tail => by
    obtain ⟨he, ht⟩ := Expr.readable_add M e t h
    have h1 := extractSub_render_expr M e he d acc ('+' :: (t.render ++ tail))
    have h2 := Interpreter.extractSub_plain ['+'] (by decide) d (acc ++ e.render) (t.render ++ tail)
    have h3 := extractSub_render_term M t ht d (acc ++ e.render ++ ['+']) tail
    simp only [Expr.render, List.append_assoc, List.cons_append, List.nil_append,
      List.singleton_append] at h1 h2 h3 ⊢
    rw [h1, h2, h3]
  | .sub e t, h, d, acc, tail => by
    obtain ⟨he, ht⟩ := Expr.readable_sub M e t h
    have h1 := extractSub_render_expr M e he d acc ('-' :: (t.render ++ tail))
    have h2 := Interpreter.extractSub_plain ['-'] (by decide) d (acc ++ e.render) (t.render ++ tail)
    have h3 := extractSub_render_term M t ht d (acc ++ e.render ++ ['-']) tail
    simp only [Expr.render, List.append_assoc, List.cons_append, List.nil_append,
      List.singleton_append] at h1 h2 h3 ⊢
    rw [h1, h2, h3]
theorem extractSub_render_term {D : Type} (M : Machine D) : ∀ (t : Term), t.readable M = true →
    ∀ (d : Nat) (acc : Name) (tail : List Char),
      Interpreter.extractSub (t.render ++ tail) (d + 1) acc = Interpreter.extractSub tail (d + 1) (acc ++ t.render)
  | .factor f, h, d, acc, tail => by
    have hf : f.readable M = true := by simpa [Term.readable] using h
    simpa [Term.render] using extractSub_render_factor M f hf d acc tail
  | .mul t f, h, d, acc, tail => by
    obtain ⟨ht, hf⟩ := Term.readable_mul M t f h
    have h1 := extractSub_render_term M t ht d acc ('*' :: (f.render ++ tail))
    have h2 := Interpreter.extractSub_plain ['*'] (by decide) d (acc ++ t.render) (f.render ++ tail)
    have h3 := extractSub_render_factor M f hf d (acc ++ t.render ++ ['*']) tail
    simp only [Term.render, List.append_assoc, List.cons_append, List.nil_append,
      List.singleton_append] at h1 h2 h3 ⊢
    rw [h1, h2, h3]
  | .div t f, h, d, acc, tail => by
    obtain ⟨ht, hf⟩ := Term.readable_div M t f h
    have h1 := extractSub_render_term M t ht d acc ('/' :: (f.render ++ tail))
    have h2 := Interpreter.extractSub_plain ['/'] (by decide) d (acc ++ t.render) (f.render ++ tail)
    have h3 := extractSub_render_factor M f hf d (acc ++ t.render ++ ['/']) tail
    simp only [Term.render, List.append_assoc, List.cons_append, List.nil_append,
      List.singleton_append] at h1 h2 h3 ⊢
    rw [h1, h2, h3]
theorem extractSub_render_factor {D : Type} (M : Machine D) : ∀ (f : Factor), f.readable M = true →
    ∀ (d : Nat) (acc : Name) (tail : List Char),
      Interpreter.extractSub (f.render ++ tail) (d + 1) acc = Interpreter.extractSub tail (d + 1) (acc ++ f.render)
  | .lit pre text post, h, d, acc, tail => by
    have ht : isUnsignedDecimal text = true := (Factor.readable_lit M pre text post h).1
    have h1 := Interpreter.extractSub_plain (List.replicate pre ' ') (space_not_paren pre) d acc
      (text ++ (List.replicate post ' ' ++ tail))
    have h2 := Interpreter.extractSub_plain text
      (fun c hc => not_paren_of_digit c (isUnsignedDecimal_chars text ht c hc)) d
      (acc ++ List.replicate pre ' ') (List.replicate post ' ' ++ tail)
    have h3 := Interpreter.extractSub_plain (List.replicate post ' ') (space_not_paren post) d
      (acc ++ List.replicate pre ' ' ++ text) tail
    simp only [Factor.render, List.append_assoc] at h1 h2 h3 ⊢
    rw [h1, h2, h3]
  | .group pre e post, h, d, acc, tail => by
    have he : e.readable M = true := by simpa [Factor.readable] using h
    have h1 := Interpreter.extractSub_plain (List.replicate pre ' ') (space_not_paren pre) d acc
      ('(' :: (e.render ++ ')' :: (List.replicate post ' ' ++ tail)))
    have h2 := Interpreter.extractSub_open d (acc ++ List.replicate pre ' ')
      (e.render ++ ')' :: (List.replicate post ' ' ++ tail))
    have h3 := extractSub_render_expr M e he (d + 1) (acc ++ List.replicate pre ' ' ++ ['('])
      (')' :: (List.replicate post ' ' ++ tail))
    have h4 := Interpreter.extractSub_close d (acc ++ List.replicate pre ' ' ++ ['('] ++ e.render)
      (List.replicate post ' ' ++ tail)
    have h5 := Interpreter.extractSub_plain (List.replicate post ' ') (space_not_paren post) d
      (acc ++ List.replicate pre ' ' ++ ['('] ++ e.render ++ [')']) tail
    simp only [Factor.render, List.append_assoc, List.cons_append, List.nil_append,
      List.singleton_append] at h1 h2 h3 h4 h5 ⊢
    rw [h1, h2, h3, h4, h5]
end

/-- The inner loop at a `(` copies exactly the text of the expression up to its `)`. -/
theorem extractSub_group {D : Type} (M : Machine D) (e : Expr) (he : e.readable M = true) (tail : List Char) :
    Interpreter.extractSub (e.render ++ ')' :: tail) 1 [] = (e.render, tail, 0) := by
  have h := extractSub_render_expr M e he 0 [] (')' :: tail)
  simp only [Nat.zero_add, List.nil_append] at h
  rw [h, Interpreter.extractSub_last]

/-! ### The scan of a rendered expression -/

theorem step_group {D : Type} (M : Machine D) (I : Env D) (eval : Name → Map D → Outcome D)
    (expr : Name) (localVars : Map D) (vs : List D) (ops : List Char) (cs sub rest1 : List Char)
    (v : D) (hx : Interpreter.extractSub cs 1 [] = (sub, rest1, 0)) (hv : eval sub localVars = .ok v) :
    step M I eval expr localVars ⟨vs, ops, [], '(' :: cs, true⟩ =
      .more ⟨v :: vs, ops, [], rest1, false⟩ := by
  rw [step_paren_m M I eval expr localVars _ cs rfl]
  simp [hx, hv, flushToken]

theorem scanYields_end {D : Type} (M : Machine D) (I : Env D) (expr : Name) (localVars : Map D)
    (e : Expr) (he : e.admissible M = true) (vs1 : List D) (tok : Name) (eo : Bool)
    (hfl : flushToken M I expr localVars tok vs1 = .ok (e.pendingValues M)) :
    ScanYields M I expr localVars ⟨vs1, e.pendingOperators, tok, [], eo⟩ (.ok (e.value M)) := by
  refine scanYields_done_m M I expr localVars _ _ (by simp) ⟨0, fun k _ => ?_⟩
  rw [step_end_m M I _ expr localVars _ rfl]
  simp [finish, hfl, reduceAll_expr M expr e he]

mutual
theorem scan_expr {D : Type} (M : Machine D) (I : Env D)
    (localVars : Map D) : ∀ (e : Expr), e.admissible M = true →
    ∀ (expr : Name) (rest : List Char) (r : Outcome D),
      (∀ vs1 tok eo, flushToken M I expr localVars tok vs1 = .ok (e.pendingValues M) →
        ScanYields M I expr localVars ⟨vs1, e.pendingOperators, tok, rest, eo⟩ r) →
      ScanYields M I expr localVars ⟨[], [], [], e.render ++ rest, true⟩ r
  | .term t, h, expr, rest, r, hk => by
    have ht : t.admissible M = true := by simpa [Expr.admissible] using h
    refine scan_term M I localVars t ht expr [] [] rest r (Or.inl rfl) ?_
    intro vs1 tok eo hfl
    have := hk vs1 tok eo (by simpa [Expr.pendingValues] using hfl)
    simpa [Expr.pendingOperators] using this
  | .add e t, h, expr, rest, r, hk => by
    obtain ⟨he, ht⟩ := Expr.admissible_add M e t h
    have hgoal : (Expr.add e t).render ++ rest = e.render ++ '+' :: (t.render ++ rest) := by
      simp [Expr.render]
    rw [hgoal]
    refine scan_expr M I localVars e he expr _ r ?_
    intro vs1 tok eo hfl
    refine scanYields_more_m M I expr localVars _ ⟨[e.value M], ['+'], [], t.render ++ rest, true⟩
      r ⟨0, fun k _ => ?_⟩ ?_
    · rw [step_operator_m M I _ expr localVars _ '+' _ rfl (Or.inl rfl)]
      simp only [hfl, reduceWhile_expr M expr '+' (Or.inl rfl) e he]
    · refine scan_term M I localVars t ht expr [e.value M] ['+'] rest r
        (Or.inr (Or.inl rfl)) ?_
      intro vs2 tok2 eo2 hfl2
      exact hk vs2 tok2 eo2 hfl2
  | .sub e t, h, expr, rest, r, hk => by
    obtain ⟨he, ht⟩ := Expr.admissible_sub M e t h
    have hgoal : (Expr.sub e t).render ++ rest = e.render ++ '-' :: (t.render ++ rest) := by
      simp [Expr.render]
    rw [hgoal]
    refine scan_expr M I localVars e he expr _ r ?_
    intro vs1 tok eo hfl
    refine scanYields_more_m M I expr localVars _ ⟨[e.value M], ['-'], [], t.render ++ rest, true⟩
      r ⟨0, fun k _ => ?_⟩ ?_
    · rw [step_operator_m M I _ expr localVars _ '-' _ rfl (Or.inr (Or.inl rfl))]
      simp only [hfl, reduceWhile_expr M expr '-' (Or.inr rfl) e he]
    · refine scan_term M I localVars t ht expr [e.value M] ['-'] rest r
        (Or.inr (Or.inr rfl)) ?_
      intro vs2 tok2 eo2 hfl2
      exact hk vs2 tok2 eo2 hfl2
theorem scan_term {D : Type} (M : Machine D) (I : Env D)
    (localVars : Map D) : ∀ (t : Term), t.admissible M = true →
    ∀ (expr : Name) (vs : List D) (ops : List Char) (rest : List Char) (r : Outcome D),
      (ops = [] ∨ ops = ['+'] ∨ ops = ['-']) →
      (∀ vs1 tok eo, flushToken M I expr localVars tok vs1 = .ok (t.pendingValues M ++ vs) →
        ScanYields M I expr localVars ⟨vs1, t.pendingOperators ++ ops, tok, rest, eo⟩ r) →
      ScanYields M I expr localVars ⟨vs, ops, [], t.render ++ rest, true⟩ r
  | .factor f, h, expr, vs, ops, rest, r, _, hk => by
    have hf : f.admissible M = true := by simpa [Term.admissible] using h
    refine scan_factor M I localVars f hf expr vs ops rest r ?_
    intro vs1 tok eo hfl
    exact hk vs1 tok eo hfl
  | .mul t f, h, expr, vs, ops, rest, r, hops, hk => by
    obtain ⟨ht, hf⟩ := Term.admissible_mul M t f h
    have hgoal : (Term.mul t f).render ++ rest = t.render ++ '*' :: (f.render ++ rest) := by
      simp [Term.render]
    rw [hgoal]
    refine scan_term M I localVars t ht expr vs ops _ r hops ?_
    intro vs1 tok eo hfl
    refine scanYields_more_m M I expr localVars _
      ⟨t.value M :: vs, '*' :: ops, [], f.render ++ rest, true⟩ r ⟨0, fun k _ => ?_⟩ ?_
    · rw [step_operator_m M I _ expr localVars _ '*' _ rfl (Or.inr (Or.inr (Or.inl rfl)))]
      simp only [hfl, reduceWhile_term_mul M expr '*' (Or.inl rfl) t ht vs ops hops]
    · refine scan_factor M I localVars f hf expr (t.value M :: vs) ('*' :: ops) rest r ?_
      intro vs2 tok2 eo2 hfl2
      exact hk vs2 tok2 eo2 hfl2
  | .div t f, h, expr, vs, ops, rest, r, hops, hk => by
    obtain ⟨ht, hf, _⟩ := Term.admissible_div M t f h
    have hgoal : (Term.div t f).render ++ rest = t.render ++ '/' :: (f.render ++ rest) := by
      simp [Term.render]
    rw [hgoal]
    refine scan_term M I localVars t ht expr vs ops _ r hops ?_
    intro vs1 tok eo hfl
    refine scanYields_more_m M I expr localVars _
      ⟨t.value M :: vs, '/' :: ops, [], f.render ++ rest, true⟩ r ⟨0, fun k _ => ?_⟩ ?_
    · rw [step_operator_m M I _ expr localVars _ '/' _ rfl (Or.inr (Or.inr (Or.inr rfl)))]
      simp only [hfl, reduceWhile_term_mul M expr '/' (Or.inr rfl) t ht vs ops hops]
    · refine scan_factor M I localVars f hf expr (t.value M :: vs) ('/' :: ops) rest r ?_
      intro vs2 tok2 eo2 hfl2
      exact hk vs2 tok2 eo2 hfl2
theorem scan_factor {D : Type} (M : Machine D) (I : Env D)
    (localVars : Map D) : ∀ (f : Factor), f.admissible M = true →
    ∀ (expr : Name) (vs : List D) (ops : List Char) (rest : List Char) (r : Outcome D),
      (∀ vs1 tok eo, flushToken M I expr localVars tok vs1 = .ok (f.value M :: vs) →
        ScanYields M I expr localVars ⟨vs1, ops, tok, rest, eo⟩ r) →
      ScanYields M I expr localVars ⟨vs, ops, [], f.render ++ rest, true⟩ r
  | .lit pre text post, h, expr, vs, ops, rest, r, hk => by
    obtain ⟨ht, hnum⟩ := Factor.admissible_lit M pre text post h
    have hgoal : (Factor.lit pre text post).render ++ rest =
        List.replicate pre ' ' ++ (text ++ (List.replicate post ' ' ++ rest)) := by
      simp [Factor.render]
    rw [hgoal]
    refine scanYields_spaces_m M I expr localVars vs ops [] true r pre _ ?_
    refine scanYields_token_m M I expr localVars vs ops true r text [] _
      (fun c hc => isTokenChar_of_digit c (isUnsignedDecimal_chars text ht c hc)) ?_
    rw [List.nil_append]
    refine scanYields_spaces_m M I expr localVars vs ops text true r post _ ?_
    exact hk vs text true (flushToken_literal M I expr localVars text ht hnum vs)
  | .group pre e post, h, expr, vs, ops, rest, r, hk => by
    have he : e.admissible M = true := by simpa [Factor.admissible] using h
    have hsub : ScanYields M I e.render localVars ⟨[], [], [], e.render ++ [], true⟩
        (.ok (e.value M)) :=
      scan_expr M I localVars e he e.render [] (.ok (e.value M))
        (fun vs1 tok eo hfl => scanYields_end M I e.render localVars e he vs1 tok eo hfl)
    rw [List.append_nil] at hsub
    obtain ⟨_, m, hm⟩ := hsub
    have hgoal : (Factor.group pre e post).render ++ rest =
        List.replicate pre ' ' ++ '(' :: (e.render ++ ')' :: (List.replicate post ' ' ++ rest)) := by
      simp [Factor.render]
    rw [hgoal]
    refine scanYields_spaces_m M I expr localVars vs ops [] true r pre _ ?_
    refine scanYields_more_m M I expr localVars _
      ⟨e.value M :: vs, ops, [], List.replicate post ' ' ++ rest, false⟩ r ⟨m, fun k hk1 => ?_⟩ ?_
    · exact step_group M I _ expr localVars vs ops _ e.render _ (e.value M)
        (extractSub_group M e (readable_of_admissible_expr M e he) _) (hm k hk1)
    · refine scanYields_spaces_m M I expr localVars (e.value M :: vs) ops [] false r post _ ?_
      exact hk (e.value M :: vs) [] false (by simp [flushToken, Factor.value])
end

/-- The evaluator returns the value of every admissible expression. -/
theorem yields_expr {D : Type} (M : Machine D) (I : Env D)
    (localVars : Map D) (e : Expr) (he : e.admissible M = true) :
    Yields M I e.render localVars (.ok (e.value M)) := by
  have h := scan_expr M I localVars e he e.render [] (.ok (e.value M))
    (fun vs1 tok eo hfl => scanYields_end M I e.render localVars e he vs1 tok eo hfl)
  rw [List.append_nil] at h
  exact h

end Arith

/-! ## The second program on plain arithmetic -/

namespace Arith

open Proga

theorem digit_not_separator (c : Char) (h : isdigit c = true ∨ c = '.') :
    isspace c = false ∧ isOperatorChar c = false := by
  have h1 := isTokenChar_of_digit c h
  rw [Interpreter.isTokenChar_iff] at h1
  obtain ⟨hs, h2, h3, h4, h5, h6⟩ := h1
  have h7 := (not_paren_of_digit c h).2
  refine ⟨hs, ?_⟩
  simp [isOperatorChar, h2, h3, h4, h5, h6, h7]

theorem scanTokens_operator (c : Char) (cs : List Char) (h1 : isspace c = false)
    (h2 : isOperatorChar c = true) : scanTokens (c :: cs) [] = [c] :: scanTokens cs [] := by
  rw [scanTokens]
  simp [h1, h2]

mutual
theorem scanTokens_render_expr {D : Type} (M : Machine D) : ∀ (e : Expr), e.readable M = true → ∀ (rest : List Char),
    (∀ c cs, rest = c :: cs → isspace c = true ∨ isOperatorChar c = true) →
    scanTokens (e.render ++ rest) [] = e.tokens ++ scanTokens rest []
  | .term t, h, rest, hrest => by
    have ht : t.readable M = true := by simpa [Expr.readable] using h
    simpa [Expr.render, Expr.tokens] using scanTokens_render_term M t ht rest hrest
  | .add e t, h, rest, hrest => by
    obtain ⟨he, ht⟩ := Expr.readable_add M e t h
    have hgoal : (Expr.add e t).render ++ rest = e.render ++ '+' :: (t.render ++ rest) := by
      simp [Expr.render]
    rw [hgoal, scanTokens_render_expr M e he _ (fun c cs hc => by
        cases hc
        exact Or.inr (by decide)),
      scanTokens_operator '+' _ (by decide) (by decide), scanTokens_render_term M t ht rest hrest]
    simp [Expr.tokens]
  | .sub e t, h, rest, hrest => by
    obtain ⟨he, ht⟩ := Expr.readable_sub M e t h
    have hgoal : (Expr.sub e t).render ++ rest = e.render ++ '-' :: (t.render ++ rest) := by
      simp [Expr.render]
    rw [hgoal, scanTokens_render_expr M e he _ (fun c cs hc => by
        cases hc
        exact Or.inr (by decide)),
      scanTokens_operator '-' _ (by decide) (by decide), scanTokens_render_term M t ht rest hrest]
    simp [Expr.tokens]
theorem scanTokens_render_term {D : Type} (M : Machine D) : ∀ (t : Term), t.readable M = true → ∀ (rest : List Char),
    (∀ c cs, rest = c :: cs → isspace c = true ∨ isOperatorChar c = true) →
    scanTokens (t.render ++ rest) [] = t.tokens ++ scanTokens rest []
  | .factor f, h, rest, hrest => by
    have hf : f.readable M = true := by simpa [Term.readable] using h
    simpa [Term.render, Term.tokens] using scanTokens_render_factor M f hf rest hrest
  | .mul t f, h, rest, hrest => by
    obtain ⟨ht, hf⟩ := Term.readable_mul M t f h
    have hgoal : (Term.mul t f).render ++ rest = t.render ++ '*' :: (f.render ++ rest) := by
      simp [Term.render]
    rw [hgoal, scanTokens_render_term M t ht _ (fun c cs hc => by
        cases hc
        exact Or.inr (by decide)),
      scanTokens_operator '*' _ (by decide) (by decide), scanTokens_render_factor M f hf rest hrest]
    simp [Term.tokens]
  | .div t f, h, rest, hrest => by
    obtain ⟨ht, hf⟩ := Term.readable_div M t f h
    have hgoal : (Term.div t f).render ++ rest = t.render ++ '/' :: (f.render ++ rest) := by
      simp [Term.render]
    rw [hgoal, scanTokens_render_term M t ht _ (fun c cs hc => by
        cases hc
        exact Or.inr (by decide)),
      scanTokens_operator '/' _ (by decide) (by decide), scanTokens_render_factor M f hf rest hrest]
    simp [Term.tokens]
theorem scanTokens_render_factor {D : Type} (M : Machine D) : ∀ (f : Factor), f.readable M = true → ∀ (rest : List Char),
    (∀ c cs, rest = c :: cs → isspace c = true ∨ isOperatorChar c = true) →
    scanTokens (f.render ++ rest) [] = f.tokens ++ scanTokens rest []
  | .lit pre text post, h, rest, hrest => by
    have ht : isUnsignedDecimal text = true := (Factor.readable_lit M pre text post h).1
    have hgoal : (Factor.lit pre text post).render ++ rest =
        List.replicate pre ' ' ++ (text ++ (List.replicate post ' ' ++ rest)) := by
      simp [Factor.render]
    have hb : ∀ c cs, List.replicate post ' ' ++ rest = c :: cs →
        isspace c = true ∨ isOperatorChar c = true := by
      intro c cs hc
      cases post with
      | zero => exact hrest c cs (by simpa using hc)
      | succ n =>
        rw [List.replicate_succ, List.cons_append] at hc
        cases hc
        exact Or.inl (by decide)
    rw [hgoal, scanTokens_spaces, scanTokens_run text [] _
        (fun c hc => digit_not_separator c (isUnsignedDecimal_chars text ht c hc)),
      List.nil_append, scanTokens_flush text (isUnsignedDecimal_ne_nil text ht) _ hb,
      scanTokens_spaces]
    simp [Factor.tokens]
  | .group pre e post, h, rest, hrest => by
    have he : e.readable M = true := by simpa [Factor.readable] using h
    have hgoal : (Factor.group pre e post).render ++ rest =
        List.replicate pre ' ' ++ '(' :: (e.render ++ ')' :: (List.replicate post ' ' ++ rest)) := by
      simp [Factor.render]
    rw [hgoal, scanTokens_spaces, scanTokens_operator '(' _ (by decide) (by decide),
      scanTokens_render_expr M e he _ (fun c cs hc => by
        cases hc
        exact Or.inr (by decide)),
      scanTokens_operator ')' _ (by decide) (by decide), scanTokens_spaces]
    simp [Factor.tokens]
end

/-- The function `tokenize` splits the text of an expression into its tokens. -/
theorem tokenize_render {D : Type} (M : Machine D) (e : Expr) (he : e.readable M = true) :
    tokenize e.render = e.tokens := by
  have h := scanTokens_render_expr M e he [] (fun c cs hc => by cases hc)
  rw [List.append_nil] at h
  rw [tokenize_eq_scanTokens, h]
  simp [scanTokens]

theorem isdigit_dot : isdigit '.' = false := by decide

theorem isNumberLoop_decimal : ∀ (s : List Char) (hasDecimal : Bool),
    (∀ c ∈ s, isdigit c = true ∨ c = '.') →
    (s.filter (fun c => c = '.')).length ≤ (if hasDecimal then 0 else 1) →
    isNumberLoop s hasDecimal = true := by
  intro s
  induction s with
  | nil => intro _ _ _; rfl
  | cons c cs ih =>
    intro hd h hn
    have hcs : ∀ x ∈ cs, isdigit x = true ∨ x = '.' := fun x hx => h x (List.mem_cons_of_mem _ hx)
    rw [isNumberLoop]
    by_cases hc : c = '.'
    · subst hc
      simp only [List.filter_cons, decide_True, if_true, List.length_cons] at hn
      have hd0 : hd = false := by
        cases hd
        · rfl
        · simp at hn
      subst hd0
      simp only [isdigit_dot, Bool.false_eq_true, if_false, and_self, if_true]
      refine ih true hcs ?_
      simp only [Bool.false_eq_true, if_false, if_true] at hn ⊢
      omega
    · have hdig : isdigit c = true := by
        rcases h c (List.mem_cons_self _ _) with h1 | h1
        · exact h1
        · exact absurd h1 hc
      simp only [hdig, if_true]
      refine ih hd hcs ?_
      simpa [List.filter_cons, hc] using hn

theorem isNumber_decimal (s : List Char) (h : isUnsignedDecimal s = true) :
    Proga.isNumber s = true := by
  have hne := isUnsignedDecimal_ne_nil s h
  have hch := isUnsignedDecimal_chars s h
  simp only [isUnsignedDecimal, Bool.and_eq_true, decide_eq_true_eq] at h
  simp only [Proga.isNumber, Bool.and_eq_true, decide_eq_true_eq]
  exact ⟨hne, isNumberLoop_decimal s false hch (by simpa using h.1.2)⟩

end Arith

namespace Arith

open Machine.Proga

theorem applyTop_add {D : Type} (M : Machine D) (a b : D) (vs : List D) :
    applyTop M ['+'] (b :: a :: vs) = .ok (M.add a b :: vs) := by
  simp [applyTop]

theorem applyTop_sub {D : Type} (M : Machine D) (a b : D) (vs : List D) :
    applyTop M ['-'] (b :: a :: vs) = .ok (M.sub a b :: vs) := by
  simp [applyTop]

theorem applyTop_mul {D : Type} (M : Machine D) (a b : D) (vs : List D) :
    applyTop M ['*'] (b :: a :: vs) = .ok (M.mul a b :: vs) := by
  simp [applyTop]

theorem applyTop_div {D : Type} (M : Machine D) (a b : D) (vs : List D) :
    applyTop M ['/'] (b :: a :: vs) = .ok (M.div a b :: vs) := by
  simp [applyTop]

theorem getPrecedence_operator (tok : Name)
    (htok : tok = ['+'] ∨ tok = ['-'] ∨ tok = ['*'] ∨ tok = ['/']) :
    Proga.getPrecedence tok ≤ 2 ∧ 1 ≤ Proga.getPrecedence tok := by
  rcases htok with h | h | h | h <;> (subst h; decide)

theorem popWhile_apply {D : Type} (M : Machine D) (tok op : Name) (a b r : D) (vs : List D)
    (os : List Name) (h1 : op ≠ ['('])
    (h2 : Proga.getPrecedence tok ≤ Proga.getPrecedence op)
    (h3 : applyTop M op (b :: a :: vs) = .ok (r :: vs)) :
    popWhile M tok (b :: a :: vs) (op :: os) = popWhile M tok (r :: vs) os := by
  rw [popWhile, if_pos ⟨h1, h2⟩, h3]

/-- An operator that arrives first applies the pending `*` or `/` of a term. -/
theorem popWhile_term {D : Type} (M : Machine D) (tok : Name)
    (htok : tok = ['+'] ∨ tok = ['-'] ∨ tok = ['*'] ∨ tok = ['/']) (t : Term)
    (vs : List D) (os : List Name) :
    popWhile M tok (t.pendingValues M ++ vs) (operatorTokens t.pendingOperators ++ os) =
      popWhile M tok (t.value M :: vs) os := by
  have hp := (getPrecedence_operator tok htok).1
  cases t with
  | factor f => simp [Term.pendingValues, Term.pendingOperators, Term.value, operatorTokens]
  | mul t1 f =>
    simp only [Term.pendingValues, Term.pendingOperators, Term.value, operatorTokens,
      List.cons_append, List.nil_append, List.map_cons, List.map_nil]
    exact popWhile_apply M tok ['*'] _ _ _ vs os (by decide)
      (by simpa [Proga.getPrecedence] using hp) (applyTop_mul M _ _ _)
  | div t1 f =>
    simp only [Term.pendingValues, Term.pendingOperators, Term.value, operatorTokens,
      List.cons_append, List.nil_append, List.map_cons, List.map_nil]
    exact popWhile_apply M tok ['/'] _ _ _ vs os (by decide)
      (by simpa [Proga.getPrecedence] using hp) (applyTop_div M _ _ _)

theorem popWhile_stop {D : Type} (M : Machine D) (tok : Name) (vs : List D) (os : List Name)
    (hos : ∀ op os1, os = op :: os1 →
      op = ['('] ∨ Proga.getPrecedence op < Proga.getPrecedence tok) :
    popWhile M tok vs os = .ok (vs, os) := by
  cases os with
  | nil => cases vs <;> rfl
  | cons op os1 =>
    have hn : ¬ (op ≠ ['('] ∧ Proga.getPrecedence tok ≤ Proga.getPrecedence op) := by
      rintro ⟨h1, h2⟩
      rcases hos op os1 rfl with h | h
      · exact h1 h
      · omega
    rw [popWhile, if_neg hn]

/-- An incoming `*` or `/` leaves the value of the term on the base stacks. -/
theorem popWhile_term_mul {D : Type} (M : Machine D) (tok : Name)
    (htok : tok = ['*'] ∨ tok = ['/']) (t : Term) (vs : List D) (os : List Name)
    (hos : ∀ op os1, os = op :: os1 → op = ['('] ∨ op = ['+'] ∨ op = ['-']) :
    popWhile M tok (t.pendingValues M ++ vs) (operatorTokens t.pendingOperators ++ os) =
      .ok (t.value M :: vs, os) := by
  have h2 : Proga.getPrecedence tok = 2 := by
    rcases htok with h | h <;> (subst h; decide)
  rw [popWhile_term M tok (by tauto) t vs os]
  refine popWhile_stop M tok _ os (fun op os1 h => ?_)
  rcases hos op os1 h with h | h | h
  · exact Or.inl h
  · subst h
    exact Or.inr (by rw [h2]; decide)
  · subst h
    exact Or.inr (by rw [h2]; decide)

/-- An incoming `+` or `-` leaves the value of the expression on the base stacks. -/
theorem popWhile_expr {D : Type} (M : Machine D) (tok : Name)
    (htok : tok = ['+'] ∨ tok = ['-']) (e : Expr) (vs : List D) (os : List Name)
    (hos : ∀ op os1, os = op :: os1 → op = ['(']) :
    popWhile M tok (e.pendingValues M ++ vs) (operatorTokens e.pendingOperators ++ os) =
      .ok (e.value M :: vs, os) := by
  have h1 : Proga.getPrecedence tok = 1 := by
    rcases htok with h | h <;> (subst h; decide)
  have hstop : ∀ ws, popWhile M tok ws os = .ok (ws, os) :=
    fun ws => popWhile_stop M tok ws os (fun op os1 h => Or.inl (hos op os1 h))
  cases e with
  | term t =>
    simp only [Expr.pendingValues, Expr.pendingOperators, Expr.value]
    rw [popWhile_term M tok (by tauto) t vs os, hstop]
  | add e1 t =>
    simp only [Expr.pendingValues, Expr.pendingOperators, Expr.value, operatorTokens,
      List.map_append, List.append_assoc, List.map_cons, List.map_nil, List.cons_append,
      List.nil_append]
    have := popWhile_term M tok (by tauto) t (e1.value M :: vs) (['+'] :: os)
    simp only [operatorTokens] at this
    rw [this, popWhile_apply M tok ['+'] _ _ _ vs os (by decide) (by rw [h1]; decide)
      (applyTop_add M _ _ _), hstop]
  | sub e1 t =>
    simp only [Expr.pendingValues, Expr.pendingOperators, Expr.value, operatorTokens,
      List.map_append, List.append_assoc, List.map_cons, List.map_nil, List.cons_append,
      List.nil_append]
    have := popWhile_term M tok (by tauto) t (e1.value M :: vs) (['-'] :: os)
    simp only [operatorTokens] at this
    rw [this, popWhile_apply M tok ['-'] _ _ _ vs os (by decide) (by rw [h1]; decide)
      (applyTop_sub M _ _ _), hstop]

theorem popUntilOpen_term {D : Type} (M : Machine D) (t : Term) (vs : List D)
    (os : List Name) :
    popUntilOpen M (t.pendingValues M ++ vs) (operatorTokens t.pendingOperators ++ os) =
      popUntilOpen M (t.value M :: vs) os := by
  cases t with
  | factor f => simp [Term.pendingValues, Term.pendingOperators, Term.value, operatorTokens]
  | mul t1 f =>
    simp [Term.pendingValues, Term.pendingOperators, Term.value, operatorTokens, popUntilOpen,
      applyTop_mul]
  | div t1 f =>
    simp [Term.pendingValues, Term.pendingOperators, Term.value, operatorTokens, popUntilOpen,
      applyTop_div]

/-- The loop at a `)` leaves the value of the group over its `(`. -/
theorem popUntilOpen_expr {D : Type} (M : Machine D) (e : Expr) (vs : List D)
    (os : List Name) :
    popUntilOpen M (e.pendingValues M ++ vs)
        (operatorTokens e.pendingOperators ++ ['('] :: os) =
      .ok (e.value M :: vs, ['('] :: os) := by
  have hstop : ∀ ws, popUntilOpen M ws (['('] :: os) = .ok (ws, ['('] :: os) := by
    intro ws
    cases ws <;> simp [popUntilOpen]
  cases e with
  | term t =>
    simp only [Expr.pendingValues, Expr.pendingOperators, Expr.value]
    rw [popUntilOpen_term M t vs _, hstop]
  | add e1 t =>
    simp only [Expr.pendingValues, Expr.pendingOperators, Expr.value, operatorTokens,
      List.map_append, List.append_assoc, List.map_cons, List.map_nil, List.cons_append,
      List.nil_append]
    have := popUntilOpen_term M t (e1.value M :: vs) (['+'] :: ['('] :: os)
    simp only [operatorTokens] at this
    rw [this, popUntilOpen, if_pos (by decide), applyTop_add]
    exact hstop _
  | sub e1 t =>
    simp only [Expr.pendingValues, Expr.pendingOperators, Expr.value, operatorTokens,
      List.map_append, List.append_assoc, List.map_cons, List.map_nil, List.cons_append,
      List.nil_append]
    have := popUntilOpen_term M t (e1.value M :: vs) (['-'] :: ['('] :: os)
    simp only [operatorTokens] at this
    rw [this, popUntilOpen, if_pos (by decide), applyTop_sub]
    exact hstop _

theorem popAll_term {D : Type} (M : Machine D) (t : Term) (vs : List D) (os : List Name) :
    popAll M (t.pendingValues M ++ vs) (operatorTokens t.pendingOperators ++ os) =
      popAll M (t.value M :: vs) os := by
  cases t with
  | factor f => simp [Term.pendingValues, Term.pendingOperators, Term.value, operatorTokens]
  | mul t1 f =>
    simp [Term.pendingValues, Term.pendingOperators, Term.value, operatorTokens, popAll,
      applyTop_mul]
  | div t1 f =>
    simp [Term.pendingValues, Term.pendingOperators, Term.value, operatorTokens, popAll,
      applyTop_div]

/-- The loop after the tokens leaves the value of the expression alone. -/
theorem popAll_expr {D : Type} (M : Machine D) (e : Expr) :
    popAll M (e.pendingValues M) (operatorTokens e.pendingOperators) = .ok [e.value M] := by
  cases e with
  | term t =>
    have := popAll_term M t [] []
    simp only [List.append_nil] at this
    simp only [Expr.pendingValues, Expr.pendingOperators, Expr.value, this]
    simp [popAll]
  | add e1 t =>
    have := popAll_term M t [e1.value M] [['+']]
    simp only [Expr.pendingValues, Expr.pendingOperators, Expr.value, operatorTokens,
      List.map_append, List.map_cons, List.map_nil] at this ⊢
    rw [this]
    simp [popAll, applyTop_add]
  | sub e1 t =>
    have := popAll_term M t [e1.value M] [['-']]
    simp only [Expr.pendingValues, Expr.pendingOperators, Expr.value, operatorTokens,
      List.map_append, List.map_cons, List.map_nil] at this ⊢
    rw [this]
    simp [popAll, applyTop_sub]

theorem stod_of_isNumber {D : Type} (M : Machine D) (text : Name)
    (h : Machine.isNumber M text = true) :
    ∃ pos, M.stod text = some (Machine.numberValue M text, pos) := by
  unfold Machine.isNumber at h
  unfold Machine.numberValue
  cases hs : M.stod text with
  | none => simp [hs] at h
  | some p => exact ⟨p.2, rfl⟩

theorem evalTokens_literal {D : Type} (M : Machine D) (S : State D)
    (call : Name → Proga.Result D) (lv : Map D) (text : Name)
    (h : isUnsignedDecimal text = true) (hnum : Machine.isNumber M text = true)
    (rest : List Name) (ns : List D) (os : List Name) :
    evalTokens M S call lv (text :: rest) ns os =
      evalTokens M S call lv rest (Machine.numberValue M text :: ns) os := by
  obtain ⟨pos, hpos⟩ := stod_of_isNumber M text hnum
  rw [evalTokens, if_pos (isNumber_decimal text h), hpos]

theorem evalTokens_open {D : Type} (M : Machine D) (S : State D)
    (call : Name → Proga.Result D) (lv : Map D) (rest : List Name) (ns : List D)
    (os : List Name) :
    evalTokens M S call lv (['('] :: rest) ns os =
      evalTokens M S call lv rest ns (['('] :: os) := by
  rw [evalTokens, if_neg (by decide), if_neg (by decide), if_pos rfl]

theorem evalTokens_close {D : Type} (M : Machine D) (S : State D)
    (call : Name → Proga.Result D) (lv : Map D) (rest : List Name) (ns ns1 : List D)
    (os os1 : List Name) (h : popUntilOpen M ns os = .ok (ns1, os1)) :
    evalTokens M S call lv ([')'] :: rest) ns os =
      evalTokens M S call lv rest ns1 (os1.drop 1) := by
  rw [evalTokens, if_neg (by decide), if_neg (by decide), if_neg (by decide), if_pos rfl, h]

theorem evalTokens_operator {D : Type} (M : Machine D) (S : State D)
    (call : Name → Proga.Result D) (lv : Map D) (tok : Name)
    (htok : tok = ['+'] ∨ tok = ['-'] ∨ tok = ['*'] ∨ tok = ['/'])
    (rest : List Name) (ns ns1 : List D) (os os1 : List Name)
    (h : popWhile M tok ns os = .ok (ns1, os1)) :
    evalTokens M S call lv (tok :: rest) ns os =
      evalTokens M S call lv rest ns1 (tok :: os1) := by
  have h1 : Proga.isNumber tok = false := by
    rcases htok with h | h | h | h <;> (subst h; decide)
  have h2 : Proga.isValidIdentifier tok = false := by
    rcases htok with h | h | h | h <;> (subst h; decide)
  have h3 : tok ≠ ['('] := by
    rcases htok with h | h | h | h <;> (subst h; decide)
  have h4 : tok ≠ [')'] := by
    rcases htok with h | h | h | h <;> (subst h; decide)
  rw [evalTokens]
  simp only [h1, h2, Bool.false_eq_true, if_false, if_neg h3, if_neg h4, if_pos htok, h]

mutual
theorem evalTokens_expr {D : Type} (M : Machine D) (S : State D)
    (call : Name → Proga.Result D) (lv : Map D) : ∀ (e : Expr), e.readable M = true →
    ∀ (rest : List Name) (ns : List D) (os : List Name),
      (∀ op os1, os = op :: os1 → op = ['(']) →
      evalTokens M S call lv (e.tokens ++ rest) ns os =
        evalTokens M S call lv rest (e.pendingValues M ++ ns)
          (operatorTokens e.pendingOperators ++ os)
  | .term t, h, rest, ns, os, hos => by
    have ht : t.readable M = true := by simpa [Expr.readable] using h
    simpa [Expr.tokens, Expr.pendingValues, Expr.pendingOperators] using
      evalTokens_term M S call lv t ht rest ns os
        (fun op os1 h1 => Or.inl (hos op os1 h1))
  | .add e t, h, rest, ns, os, hos => by
    obtain ⟨he, ht⟩ := Expr.readable_add M e t h
    have hgoal : (Expr.add e t).tokens ++ rest = e.tokens ++ (['+'] :: (t.tokens ++ rest)) := by
      simp [Expr.tokens]
    rw [hgoal, evalTokens_expr M S call lv e he _ ns os hos,
      evalTokens_operator M S call lv ['+'] (Or.inl rfl) _ _ _ _ _
        (popWhile_expr M ['+'] (Or.inl rfl) e ns os hos),
      evalTokens_term M S call lv t ht rest (e.value M :: ns) (['+'] :: os)
        (fun op os1 h1 => by
          cases h1
          exact Or.inr (Or.inl rfl))]
    simp [Expr.pendingValues, Expr.pendingOperators, operatorTokens]
  | .sub e t, h, rest, ns, os, hos => by
    obtain ⟨he, ht⟩ := Expr.readable_sub M e t h
    have hgoal : (Expr.sub e t).tokens ++ rest = e.tokens ++ (['-'] :: (t.tokens ++ rest)) := by
      simp [Expr.tokens]
    rw [hgoal, evalTokens_expr M S call lv e he _ ns os hos,
      evalTokens_operator M S call lv ['-'] (Or.inr (Or.inl rfl)) _ _ _ _ _
        (popWhile_expr M ['-'] (Or.inr rfl) e ns os hos),
      evalTokens_term M S call lv t ht rest (e.value M :: ns) (['-'] :: os)
        (fun op os1 h1 => by
          cases h1
          exact Or.inr (Or.inr rfl))]
    simp [Expr.pendingValues, Expr.pendingOperators, operatorTokens]
theorem evalTokens_term {D : Type} (M : Machine D) (S : State D)
    (call : Name → Proga.Result D) (lv : Map D) : ∀ (t : Term), t.readable M = true →
    ∀ (rest : List Name) (ns : List D) (os : List Name),
      (∀ op os1, os = op :: os1 → op = ['('] ∨ op = ['+'] ∨ op = ['-']) →
      evalTokens M S call lv (t.tokens ++ rest) ns os =
        evalTokens M S call lv rest (t.pendingValues M ++ ns)
          (operatorTokens t.pendingOperators ++ os)
  | .factor f, h, rest, ns, os, _ => by
    have hf : f.readable M = true := by simpa [Term.readable] using h
    simpa [Term.tokens, Term.pendingValues, Term.pendingOperators, operatorTokens, Term.value]
      using evalTokens_factor M S call lv f hf rest ns os
  | .mul t f, h, rest, ns, os, hos => by
    obtain ⟨ht, hf⟩ := Term.readable_mul M t f h
    have hgoal : (Term.mul t f).tokens ++ rest = t.tokens ++ (['*'] :: (f.tokens ++ rest)) := by
      simp [Term.tokens]
    rw [hgoal, evalTokens_term M S call lv t ht _ ns os hos,
      evalTokens_operator M S call lv ['*'] (Or.inr (Or.inr (Or.inl rfl))) _ _ _ _ _
        (popWhile_term_mul M ['*'] (Or.inl rfl) t ns os hos),
      evalTokens_factor M S call lv f hf rest (t.value M :: ns) (['*'] :: os)]
    simp [Term.pendingValues, Term.pendingOperators, operatorTokens]
  | .div t f, h, rest, ns, os, hos => by
    obtain ⟨ht, hf⟩ := Term.readable_div M t f h
    have hgoal : (Term.div t f).tokens ++ rest = t.tokens ++ (['/'] :: (f.tokens ++ rest)) := by
      simp [Term.tokens]
    rw [hgoal, evalTokens_term M S call lv t ht _ ns os hos,
      evalTokens_operator M S call lv ['/'] (Or.inr (Or.inr (Or.inr rfl))) _ _ _ _ _
        (popWhile_term_mul M ['/'] (Or.inr rfl) t ns os hos),
      evalTokens_factor M S call lv f hf rest (t.value M :: ns) (['/'] :: os)]
    simp [Term.pendingValues, Term.pendingOperators, operatorTokens]
theorem evalTokens_factor {D : Type} (M : Machine D) (S : State D)
    (call : Name → Proga.Result D) (lv : Map D) : ∀ (f : Factor), f.readable M = true →
    ∀ (rest : List Name) (ns : List D) (os : List Name),
      evalTokens M S call lv (f.tokens ++ rest) ns os =
        evalTokens M S call lv rest (f.value M :: ns) os
  | .lit pre text post, h, rest, ns, os => by
    obtain ⟨ht, hnum⟩ := Factor.readable_lit M pre text post h
    simpa [Factor.tokens, Factor.value] using
      evalTokens_literal M S call lv text ht hnum rest ns os
  | .group pre e post, h, rest, ns, os => by
    have he : e.readable M = true := by simpa [Factor.readable] using h
    have hgoal : (Factor.group pre e post).tokens ++ rest =
        ['('] :: (e.tokens ++ ([')'] :: rest)) := by
      simp [Factor.tokens]
    rw [hgoal, evalTokens_open, evalTokens_expr M S call lv e he _ ns (['('] :: os)
        (fun op os1 h1 => by
          cases h1
          rfl),
      evalTokens_close M S call lv rest _ _ _ _ (popUntilOpen_expr M e ns os)]
    simp [Factor.value]
end

/-- The evaluator of the second program returns the value of every expression
whose literals it reads, in every state and with any fuel but none: it applies
the same operations to the same operands, and `/` without a test. -/
theorem proga_evaluates_expr {D : Type} (M : Machine D) (S : State D) (lv : Map D) (e : Expr)
    (he : e.readable M = true) (fuel : Nat) :
    Machine.Proga.evaluateExpression M S (fuel + 1) e.render lv = .ok (e.value M) := by
  rw [Machine.Proga.evaluateExpression, tokenize_render M e he]
  have h := evalTokens_expr M S
    (fun token => executeFunction M S (Machine.Proga.evaluateExpression M S fuel) token []) lv e
    he [] [] [] (fun op os1 h1 => by cases h1)
  simp only [List.append_nil] at h
  rw [h, evalTokens, popAll_expr M e]

end Arith


/-! ## Divisors that the guard rejects, and literals that `stod` does not read -/

namespace Arith

open Machine

/-- A quotient whose divisor passes the test `abs(b) < 1e-10` throws "Division by
zero". -/
theorem yields_small_divisor {D : Type} (M : Machine D) (I : Env D) (localVars : Map D)
    (t : Term) (f : Factor) (ht : t.admissible M = true) (hf : f.admissible M = true)
    (hsmall : M.small (f.value M) = true) :
    Yields M I (t.render ++ '/' :: f.render) localVars (.throw .divisionByZero) := by
  rw [yields_iff_scanYields_m]
  have h0 : (Scan.init (t.render ++ '/' :: f.render) : Scan D) =
      ⟨[], [], [], t.render ++ '/' :: (f.render ++ []), true⟩ := by
    simp [Scan.init]
  rw [h0]
  refine scan_term M I localVars t ht _ [] [] _ _ (Or.inl rfl) ?_
  intro vs1 tok eo hfl
  refine scanYields_more_m M I _ localVars _
    ⟨[t.value M], ['/'], [], f.render ++ [], true⟩ _ ⟨0, fun k _ => ?_⟩ ?_
  · rw [step_operator_m M I _ _ localVars _ '/' _ rfl (Or.inr (Or.inr (Or.inr rfl)))]
    simp only [hfl, reduceWhile_term_mul M _ '/' (Or.inr rfl) t ht [] [] (Or.inl rfl)]
  · refine scan_factor M I localVars f hf _ [t.value M] ['/'] [] _ ?_
    intro vs2 tok2 eo2 hfl2
    refine scanYields_done_m M I _ localVars _ _ (by simp) ⟨0, fun k _ => ?_⟩
    rw [step_end_m M I _ _ localVars _ rfl]
    simp [finish, hfl2, reduceAll, applyOperator_div_small_m M _ _ hsmall]

/-! ### A division by a small divisor anywhere in the expression -/

theorem step_group_throw {D : Type} (M : Machine D) (I : Env D)
    (eval : Name → Map D → Outcome D) (expr : Name) (localVars : Map D) (vs : List D)
    (ops : List Char) (cs sub rest1 : List Char) (err : Error)
    (hx : Interpreter.extractSub cs 1 [] = (sub, rest1, 0))
    (hv : eval sub localVars = .throw err) :
    step M I eval expr localVars ⟨vs, ops, [], '(' :: cs, true⟩ = .done (.throw err) := by
  rw [step_paren_m M I eval expr localVars _ cs rfl]
  simp [hx, hv, flushToken]

/-- With the divisor `b` and the dividend `a` on top of the values and `/` on
top of the operators, the scan throws "Division by zero" at the end of the
text and at the next operator. -/
theorem scanYields_div_small {D : Type} (M : Machine D) (I : Env D) (expr : Name)
    (localVars : Map D) (a b : D) (vs : List D) (ops : List Char) (hb : M.small b = true)
    (vs1 : List D) (tok : Name) (eo : Bool) (rest : List Char)
    (hrest : rest = [] ∨ ∃ c cs, rest = c :: cs ∧ (c = '+' ∨ c = '-' ∨ c = '*' ∨ c = '/'))
    (hfl : flushToken M I expr localVars tok vs1 = .ok (b :: a :: vs)) :
    ScanYields M I expr localVars ⟨vs1, '/' :: ops, tok, rest, eo⟩
      (.throw .divisionByZero) := by
  refine scanYields_done_m M I expr localVars _ _ (by simp) ⟨0, fun k _ => ?_⟩
  rcases hrest with rfl | ⟨c, cs, rfl, hc⟩
  · rw [step_end_m M I _ expr localVars _ rfl]
    simp [finish, hfl, reduceAll, applyOperator_div_small_m M _ _ hb]
  · rw [step_operator_m M I _ expr localVars _ c cs rfl hc]
    have hprec : Interpreter.getPrecedence c ≤ Interpreter.getPrecedence '/' := by
      have := Interpreter.getPrecedence_le_two c
      simpa [Interpreter.getPrecedence] using this
    have hred : reduceWhile M expr c (b :: a :: vs) ('/' :: ops) = .throw .divisionByZero := by
      rw [reduceWhile]
      simp [hprec, applyOperator_div_small_m M _ _ hb]
    simp only [hfl, hred]

mutual
theorem fails_expr {D : Type} (M : Machine D) (I : Env D) (localVars : Map D) :
    ∀ (e : Expr), e.readable M = true → e.admissible M = false →
    ∀ (expr : Name) (rest : List Char),
      (rest = [] ∨ ∃ c cs, rest = c :: cs ∧ (c = '+' ∨ c = '-' ∨ c = '*' ∨ c = '/')) →
      ScanYields M I expr localVars ⟨[], [], [], e.render ++ rest, true⟩
        (.throw .divisionByZero)
  | .term t, hr, ha, expr, rest, hrest => by
    have htr : t.readable M = true := by simpa [Expr.readable] using hr
    have hta : t.admissible M = false := by simpa [Expr.admissible] using ha
    exact fails_term M I localVars t htr hta expr [] [] rest (Or.inl rfl) hrest
  | .add e t, hr, ha, expr, rest, hrest => by
    obtain ⟨her, htr⟩ := Expr.readable_add M e t hr
    have hgoal : (Expr.add e t).render ++ rest = e.render ++ '+' :: (t.render ++ rest) := by
      simp [Expr.render]
    rw [hgoal]
    cases he : e.admissible M with
    | false =>
      exact fails_expr M I localVars e her he expr _ (Or.inr ⟨'+', _, rfl, Or.inl rfl⟩)
    | true =>
      have hta : t.admissible M = false := by simpa [Expr.admissible, he] using ha
      refine scan_expr M I localVars e he expr _ _ ?_
      intro vs1 tok eo hfl
      refine scanYields_more_m M I expr localVars _
        ⟨[e.value M], ['+'], [], t.render ++ rest, true⟩ _ ⟨0, fun k _ => ?_⟩ ?_
      · rw [step_operator_m M I _ expr localVars _ '+' _ rfl (Or.inl rfl)]
        simp only [hfl, reduceWhile_expr M expr '+' (Or.inl rfl) e he]
      · exact fails_term M I localVars t htr hta expr [e.value M] ['+'] rest
          (Or.inr (Or.inl rfl)) hrest
  | .sub e t, hr, ha, expr, rest, hrest => by
    obtain ⟨her, htr⟩ := Expr.readable_sub M e t hr
    have hgoal : (Expr.sub e t).render ++ rest = e.render ++ '-' :: (t.render ++ rest) := by
      simp [Expr.render]
    rw [hgoal]
    cases he : e.admissible M with
    | false =>
      exact fails_expr M I localVars e her he expr _
        (Or.inr ⟨'-', _, rfl, Or.inr (Or.inl rfl)⟩)
    | true =>
      have hta : t.admissible M = false := by simpa [Expr.admissible, he] using ha
      refine scan_expr M I localVars e he expr _ _ ?_
      intro vs1 tok eo hfl
      refine scanYields_more_m M I expr localVars _
        ⟨[e.value M], ['-'], [], t.render ++ rest, true⟩ _ ⟨0, fun k _ => ?_⟩ ?_
      · rw [step_operator_m M I _ expr localVars _ '-' _ rfl (Or.inr (Or.inl rfl))]
        simp only [hfl, reduceWhile_expr M expr '-' (Or.inr rfl) e he]
      · exact fails_term M I localVars t htr hta expr [e.value M] ['-'] rest
          (Or.inr (Or.inr rfl)) hrest
theorem fails_term {D : Type} (M : Machine D) (I : Env D) (localVars : Map D) :
    ∀ (t : Term), t.readable M = true → t.admissible M = false →
    ∀ (expr : Name) (vs : List D) (ops : List Char) (rest : List Char),
      (ops = [] ∨ ops = ['+'] ∨ ops = ['-']) →
      (rest = [] ∨ ∃ c cs, rest = c :: cs ∧ (c = '+' ∨ c = '-' ∨ c = '*' ∨ c = '/')) →
      ScanYields M I expr localVars ⟨vs, ops, [], t.render ++ rest, true⟩
        (.throw .divisionByZero)
  | .factor f, hr, ha, expr, vs, ops, rest, _, _ => by
    have hfr : f.readable M = true := by simpa [Term.readable] using hr
    have hfa : f.admissible M = false := by simpa [Term.admissible] using ha
    exact fails_factor M I localVars f hfr hfa expr vs ops rest
  | .mul t f, hr, ha, expr, vs, ops, rest, hops, _ => by
    obtain ⟨htr, hfr⟩ := Term.readable_mul M t f hr
    have hgoal : (Term.mul t f).render ++ rest = t.render ++ '*' :: (f.render ++ rest) := by
      simp [Term.render]
    rw [hgoal]
    cases ht : t.admissible M with
    | false =>
      exact fails_term M I localVars t htr ht expr vs ops _ hops
        (Or.inr ⟨'*', _, rfl, Or.inr (Or.inr (Or.inl rfl))⟩)
    | true =>
      have hfa : f.admissible M = false := by simpa [Term.admissible, ht] using ha
      refine scan_term M I localVars t ht expr vs ops _ _ hops ?_
      intro vs1 tok eo hfl
      refine scanYields_more_m M I expr localVars _
        ⟨t.value M :: vs, '*' :: ops, [], f.render ++ rest, true⟩ _ ⟨0, fun k _ => ?_⟩ ?_
      · rw [step_operator_m M I _ expr localVars _ '*' _ rfl (Or.inr (Or.inr (Or.inl rfl)))]
        simp only [hfl, reduceWhile_term_mul M expr '*' (Or.inl rfl) t ht vs ops hops]
      · exact fails_factor M I localVars f hfr hfa expr (t.value M :: vs) ('*' :: ops) rest
  | .div t f, hr, ha, expr, vs, ops, rest, hops, hrest => by
    obtain ⟨htr, hfr⟩ := Term.readable_div M t f hr
    have hgoal : (Term.div t f).render ++ rest = t.render ++ '/' :: (f.render ++ rest) := by
      simp [Term.render]
    rw [hgoal]
    cases ht : t.admissible M with
    | false =>
      exact fails_term M I localVars t htr ht expr vs ops _ hops
        (Or.inr ⟨'/', _, rfl, Or.inr (Or.inr (Or.inr rfl))⟩)
    | true =>
      refine scan_term M I localVars t ht expr vs ops _ _ hops ?_
      intro vs1 tok eo hfl
      refine scanYields_more_m M I expr localVars _
        ⟨t.value M :: vs, '/' :: ops, [], f.render ++ rest, true⟩ _ ⟨0, fun k _ => ?_⟩ ?_
      · rw [step_operator_m M I _ expr localVars _ '/' _ rfl (Or.inr (Or.inr (Or.inr rfl)))]
        simp only [hfl, reduceWhile_term_mul M expr '/' (Or.inr rfl) t ht vs ops hops]
      · cases hf : f.admissible M with
        | false =>
          exact fails_factor M I localVars f hfr hf expr (t.value M :: vs) ('/' :: ops) rest
        | true =>
          have hsmall : M.small (f.value M) = true := by
            simpa [Term.admissible, ht, hf] using ha
          refine scan_factor M I localVars f hf expr (t.value M :: vs) ('/' :: ops) rest _ ?_
          intro vs2 tok2 eo2 hfl2
          exact scanYields_div_small M I expr localVars (t.value M) (f.value M) vs ops hsmall
            vs2 tok2 eo2 rest hrest hfl2
theorem fails_factor {D : Type} (M : Machine D) (I : Env D) (localVars : Map D) :
    ∀ (f : Factor), f.readable M = true → f.admissible M = false →
    ∀ (expr : Name) (vs : List D) (ops : List Char) (rest : List Char),
      ScanYields M I expr localVars ⟨vs, ops, [], f.render ++ rest, true⟩
        (.throw .divisionByZero)
  | .lit pre text post, hr, ha, expr, vs, ops, rest => by
    simp only [Factor.readable] at hr
    simp only [Factor.admissible, hr] at ha
    cases ha
  | .group pre e post, hr, ha, expr, vs, ops, rest => by
    have her : e.readable M = true := by simpa [Factor.readable] using hr
    have hea : e.admissible M = false := by simpa [Factor.admissible] using ha
    have hsub : ScanYields M I e.render localVars ⟨[], [], [], e.render ++ [], true⟩
        (.throw .divisionByZero) :=
      fails_expr M I localVars e her hea e.render [] (Or.inl rfl)
    rw [List.append_nil] at hsub
    obtain ⟨_, m, hm⟩ := hsub
    have hgoal : (Factor.group pre e post).render ++ rest =
        List.replicate pre ' ' ++
          '(' :: (e.render ++ ')' :: (List.replicate post ' ' ++ rest)) := by
      simp [Factor.render]
    rw [hgoal]
    refine scanYields_spaces_m M I expr localVars vs ops [] true _ pre _ ?_
    refine scanYields_done_m M I expr localVars _ _ (by simp) ⟨m, fun k hk1 => ?_⟩
    exact step_group_throw M I _ expr localVars vs ops _ e.render _ .divisionByZero
      (extractSub_group M e her _) (hm k hk1)
end

/-- A text of token characters that `stod` does not read completely and that
names no variable is an undefined name. -/
theorem yields_unread_token {D : Type} (M : Machine D) (I : Env D) (localVars : Map D)
    (text : Name) (hne : text ≠ []) (htok : ∀ c ∈ text, Interpreter.isTokenChar c = true)
    (hnum : Machine.isNumber M text = false) (hvar : I.variables.find text = none)
    (hloc : localVars.find text = none) :
    Yields M I text localVars (.throw (.undefinedName text text)) := by
  rw [yields_iff_scanYields_m]
  have h := scanYields_token_m M I text localVars [] [] true (.throw (.undefinedName text text))
    text [] [] htok
  simp only [List.nil_append, List.append_nil] at h
  refine h ?_
  refine scanYields_done_m M I _ localVars _ _ (by simp) ⟨0, fun k _ => ?_⟩
  rw [step_end_m M I _ _ localVars _ rfl]
  simp [finish, flushToken, hne, hnum, hvar, hloc]

/-- In the second program an unsigned decimal for which `stod` throws ends the
program: nothing catches the exception. -/
theorem proga_unread_literal {D : Type} (M : Machine D) (S : Machine.Proga.State D)
    (lv : Map D) (text : Name) (hdec : isUnsignedDecimal text = true)
    (hstod : M.stod text = none) (fuel : Nat) :
    Machine.Proga.evaluateExpression M S (fuel + 1) text lv = .outside := by
  have htok : Proga.tokenize text = [text] := by
    rw [Proga.tokenize_eq_scanTokens]
    have h := Proga.scanTokens_run text [] []
      (fun c hc => digit_not_separator c (isUnsignedDecimal_chars text hdec c hc))
    rw [List.append_nil, List.nil_append] at h
    rw [h]
    simp [Proga.scanTokens, isUnsignedDecimal_ne_nil text hdec]
  rw [Machine.Proga.evaluateExpression, htok, Machine.Proga.evalTokens,
    if_pos (isNumber_decimal text hdec), hstod]

end Arith


/-! ## The properties of the specification -/

/-- C1 (counterexample): on the machine that rounds to `double`, `4.35*100`
evaluates to 7652600929320959/2^44 (printed 434.99999999999994), not to 435:
the literal and the product are rounded; and the literal 1 followed by 309
zeros, which is beyond the range of `double`, is not read by `stod`, so the
evaluation throws "Undefined variable or function" instead of returning its
value; and `1/(0.3-0.2-0.1+0.0000000001)`, whose divisor is `1e-10` in exact
arithmetic (there the evaluation returns 10000000000) and 9.999997e-11 as the
machine computes it, throws "Division by zero". -/
theorem C1_rounded_and_unread_literals :
    (∃ n, ∀ fuel, n ≤ fuel →
      Machine.evaluateExpression Binary64.machine ⟨[], []⟩ fuel "4.35*100".toList [] =
        .ok (7652600929320959 / 17592186044416)) ∧
    (7652600929320959 / 17592186044416 : ℚ) ≠ 435 ∧
    (∃ n, ∀ fuel, n ≤ fuel →
      Machine.evaluateExpression Binary64.machine ⟨[], []⟩ fuel
          ('1' :: List.replicate 309 '0') [] =
        .throw (.undefinedName ('1' :: List.replicate 309 '0')
          ('1' :: List.replicate 309 '0'))) ∧
    (∃ n, ∀ fuel, n ≤ fuel →
      Machine.evaluateExpression Binary64.machine ⟨[], []⟩ fuel
        "1/(0.3-0.2-0.1+0.0000000001)".toList [] = .throw .divisionByZero) ∧
    (∃ n, ∀ fuel, n ≤ fuel →
      Interpreter.evaluateExpression ⟨[], []⟩ Interpreter.stodDecimal fuel
        "1/(0.3-0.2-0.1+0.0000000001)".toList [] = .ok 10000000000) := by
  refine ⟨?_, by norm_num, ?_, ?_,
    (Interpreter.yields_of_eq _ Interpreter.stodDecimal
      "1/(0.3-0.2-0.1+0.0000000001)".toList [] (.ok 10000000000) 40
      (by decide!) (by simp)).2⟩
  · have h := (Arith.yields_expr Binary64.machine ⟨[], []⟩ []
      (.term (.mul (.factor (.lit 0 "4.35".toList 0)) (.lit 0 "100".toList 0)))
      (by decide!)).2
    have hr : (Arith.Expr.term (.mul (.factor (.lit 0 "4.35".toList 0))
        (.lit 0 "100".toList 0))).render = "4.35*100".toList := by decide
    have hv : (Arith.Expr.term (.mul (.factor (.lit 0 "4.35".toList 0))
        (.lit 0 "100".toList 0))).value Binary64.machine =
        7652600929320959 / 17592186044416 := by decide!
    rw [hr, hv] at h
    exact h
  · refine (Arith.yields_unread_token Binary64.machine ⟨[], []⟩ []
      ('1' :: List.replicate 309 '0') (List.cons_ne_nil _ _) ?_ (by decide!) rfl rfl).2
    intro c hc
    rcases List.mem_cons.1 hc with rfl | h
    · decide
    · rw [List.eq_of_mem_replicate h]
      decide
  · have h := (Arith.yields_small_divisor Binary64.machine ⟨[], []⟩ []
      (.factor (.lit 0 ['1'] 0))
      (.group 0 (.add (.sub (.sub (.term (.factor (.lit 0 "0.3".toList 0)))
        (.factor (.lit 0 "0.2".toList 0))) (.factor (.lit 0 "0.1".toList 0)))
        (.factor (.lit 0 "0.0000000001".toList 0))) 0)
      (by decide!) (by decide!) (by decide!)).2
    have hr : (Arith.Term.factor (.lit 0 ['1'] 0)).render ++ '/' ::
        (Arith.Factor.group 0 (.add (.sub (.sub (.term (.factor (.lit 0 "0.3".toList 0)))
          (.factor (.lit 0 "0.2".toList 0))) (.factor (.lit 0 "0.1".toList 0)))
          (.factor (.lit 0 "0.0000000001".toList 0))) 0).render =
        "1/(0.3-0.2-0.1+0.0000000001)".toList := by decide
    rw [hr] at h
    exact h

/-- C1 (amended): on every machine, for every expression built from unsigned
decimal literals that `stod` reads completely, the binary operators `+ - * /`
and parentheses in operand position, in which no divisor, as the machine
computes it, passes the test `abs(b) < 1e-10`, `evaluateExpression` returns
(for every state of the interpreter, every local binding and all sufficient
fuel) the value of the expression in standard arithmetic carried out by the
machine: `*` and `/` bind tighter than `+` and `-`, equal precedence associates
to the left, groups are evaluated as a unit, every literal is the number
`stod` reads and every operation is the operation of the machine. -/
theorem C1_plain_arithmetic {D : Type} (M : Machine D) (I : Machine.Env D)
    (localVars : Map D) (e : Arith.Expr) (he : e.admissible M = true) :
    ∃ n, ∀ fuel, n ≤ fuel →
      Machine.evaluateExpression M I fuel e.render localVars = .ok (e.value M) :=
  (Arith.yields_expr M I localVars e he).2

/-- C1 (amended) on the machine that rounds to `double`, at `2 + 3 * 4`,
`(2 + 3) * 4` and `10 - 4 - 3`: the values are 14, 20 and 3. -/
theorem C1_plain_arithmetic_witness :
    (∃ n, ∀ fuel, n ≤ fuel →
      Machine.evaluateExpression Binary64.machine ⟨[], []⟩ fuel "2 + 3 * 4".toList [] =
        .ok 14) ∧
    (∃ n, ∀ fuel, n ≤ fuel →
      Machine.evaluateExpression Binary64.machine ⟨[], []⟩ fuel "(2 + 3) * 4".toList [] =
        .ok 20) ∧
    (∃ n, ∀ fuel, n ≤ fuel →
      Machine.evaluateExpression Binary64.machine ⟨[], []⟩ fuel "10 - 4 - 3".toList [] =
        .ok 3) := by
  refine ⟨?_, ?_, ?_⟩
  · have h := C1_plain_arithmetic Binary64.machine ⟨[], []⟩ []
      (Arith.Expr.add (.term (.factor (.lit 0 ['2'] 1)))
        (.mul (.factor (.lit 1 ['3'] 1)) (.lit 1 ['4'] 0))) (by decide!)
    have hr : (Arith.Expr.add (.term (.factor (.lit 0 ['2'] 1)))
        (.mul (.factor (.lit 1 ['3'] 1)) (.lit 1 ['4'] 0))).render = "2 + 3 * 4".toList := by
      decide
    have hv : (Arith.Expr.add (.term (.factor (.lit 0 ['2'] 1)))
        (.mul (.factor (.lit 1 ['3'] 1)) (.lit 1 ['4'] 0))).value Binary64.machine = 14 := by
      decide!
    rw [hr, hv] at h
    exact h
  · have h := C1_plain_arithmetic Binary64.machine ⟨[], []⟩ []
      (Arith.Expr.term (.mul (.factor (.group 0 (.add (.term (.factor (.lit 0 ['2'] 1)))
        (.factor (.lit 1 ['3'] 0))) 1)) (.lit 1 ['4'] 0))) (by decide!)
    have hr : (Arith.Expr.term (.mul (.factor (.group 0 (.add (.term (.factor (.lit 0 ['2'] 1)))
        (.factor (.lit 1 ['3'] 0))) 1)) (.lit 1 ['4'] 0))).render = "(2 + 3) * 4".toList := by
      decide
    have hv : (Arith.Expr.term (.mul (.factor (.group 0 (.add (.term (.factor (.lit 0 ['2'] 1)))
        (.factor (.lit 1 ['3'] 0))) 1)) (.lit 1 ['4'] 0))).value Binary64.machine = 20 := by
      decide!
    rw [hr, hv] at h
    exact h
  · have h := C1_plain_arithmetic Binary64.machine ⟨[], []⟩ []
      (Arith.Expr.sub (.sub (.term (.factor (.lit 0 ['1', '0'] 1))) (.factor (.lit 1 ['4'] 1)))
        (.factor (.lit 1 ['3'] 0))) (by decide!)
    have hr : (Arith.Expr.sub (.sub (.term (.factor (.lit 0 ['1', '0'] 1)))
        (.factor (.lit 1 ['4'] 1))) (.factor (.lit 1 ['3'] 0))).render =
        "10 - 4 - 3".toList := by decide
    have hv : (Arith.Expr.sub (.sub (.term (.factor (.lit 0 ['1', '0'] 1)))
        (.factor (.lit 1 ['4'] 1))) (.factor (.lit 1 ['3'] 0))).value Binary64.machine = 3 := by
      decide!
    rw [hr, hv] at h
    exact h

/-- C2 (the code at the failing input): in the empty interpreter `2(3+4)`
evaluates to 7, the value of the group alone, while `2*(3+4)` evaluates to 14;
the literal before the parenthesis is pushed as a separate operand and no `*`
is inserted. -/
theorem C2_literal_before_group_not_multiplied :
    (∃ n, ∀ fuel, n ≤ fuel →
      Interpreter.evaluateExpression ⟨[], []⟩ Interpreter.stodDecimal fuel "2(3+4)".toList [] =
        .ok 7) ∧
    (∃ n, ∀ fuel, n ≤ fuel →
      Interpreter.evaluateExpression ⟨[], []⟩ Interpreter.stodDecimal fuel "2*(3+4)".toList [] =
        .ok 14) :=
  ⟨(Interpreter.yields_of_eq ⟨[], []⟩ Interpreter.stodDecimal "2(3+4)".toList [] (.ok 7) 12
      (by decide!) (by simp)).2,
    (Interpreter.yields_of_eq ⟨[], []⟩ Interpreter.stodDecimal "2*(3+4)".toList [] (.ok 14) 12
      (by decide!) (by simp)).2⟩

/-- C3: a call `f(a1,...,ak)` of a function stored under a valid name `f` with
`k` parameters, whose `k` arguments are non-empty texts with balanced
parentheses and no top-level comma that evaluate under the caller's bindings
to `vals`, ends exactly as the body does under the caller's bindings
overwritten with the parameters: names that are not parameters keep the
caller's binding, and (distinct) parameters are bound to the argument values. -/
theorem C3_function_call (I : Interpreter) (stod : Stod) (localVars : Map ℚ) (f : Name)
    (func : Function) (args : List Name) (vals : List ℚ) (r : Outcome ℚ)
    (hf : I.functions.find f = some func) (hname : Interpreter.isValidName f = true)
    (hlen : args.length = func.params.length)
    (hargs : List.Forall₂ (fun a v => Interpreter.isArgument a = true ∧
      Interpreter.Yields I stod (Interpreter.trim a) localVars (.ok v)) args vals)
    (hbody : Interpreter.Yields I stod func.expression
      (Interpreter.bindParams localVars func.params vals) r) :
    Interpreter.Yields I stod (f ++ '(' :: (Interpreter.joinArgs args ++ [')'])) localVars r ∧
    (∀ x, x ∉ func.params →
      (Interpreter.bindParams localVars func.params vals).find x = localVars.find x) ∧
    (func.params.Nodup → ∀ p v, (p, v) ∈ func.params.zip vals →
      (Interpreter.bindParams localVars func.params vals).find p = some v) := by
  obtain ⟨hne, halnum⟩ := Interpreter.isValidName_chars f hname
  exact ⟨Interpreter.yields_call I stod localVars f func args vals r hf hne
      (fun c hc => Interpreter.isTokenChar_of_isalnum c (halnum c hc)) hargs hlen hbody,
    fun x hx => Interpreter.find_bindParams_of_not_mem x _ _ _ hx,
    fun hnd p v hpv => Interpreter.find_bindParams_of_mem _ _ _ p v hnd hpv⟩

/-- C3 after the line `square(n): n*n`: the call `square(5)` returns 25. -/
theorem C3_function_call_witness :
    (Interpreter.processInstruction ⟨[], []⟩ Interpreter.stodDecimal 0
      "square(n): n*n".toList).state.functions.find "square".toList =
        some ⟨["n".toList], "n*n".toList⟩ ∧
    Interpreter.Yields
      (Interpreter.processInstruction ⟨[], []⟩ Interpreter.stodDecimal 0
        "square(n): n*n".toList).state
      Interpreter.stodDecimal "square(5)".toList [] (.ok 25) :=
  ⟨by decide,
    (C3_function_call
      (Interpreter.processInstruction ⟨[], []⟩ Interpreter.stodDecimal 0
        "square(n): n*n".toList).state
      Interpreter.stodDecimal [] "square".toList ⟨["n".toList], "n*n".toList⟩ ["5".toList] [5]
      (.ok 25) (by decide) (by decide) (by decide)
      (List.Forall₂.cons ⟨by decide,
        Interpreter.yields_of_eq _ _ _ _ _ 5 (by decide!) (by simp)⟩ List.Forall₂.nil)
      (Interpreter.yields_of_eq _ _ _ _ _ 8 (by decide!) (by simp))).1⟩

/-- C4 (the code at the failing input): after `n = 10` and `square(n): n*n` the
call `square(5)` returns 100.  The parameter `n` is bound to 5, but the token
`n` of the body is looked up among the global variables first. -/
theorem C4_global_hides_parameter :
    (Interpreter.processInstruction
        (Interpreter.processInstruction ⟨[], []⟩ Interpreter.stodDecimal 5 "n = 10".toList).state
        Interpreter.stodDecimal 0 "square(n): n*n".toList).state =
      ⟨[("n".toList, .int 10)], [("square".toList, ⟨["n".toList], "n*n".toList⟩)]⟩ ∧
    (Interpreter.bindParams [] ["n".toList] [5]).find "n".toList = some 5 ∧
    (∃ n, ∀ fuel, n ≤ fuel →
      Interpreter.evaluateExpression
        ⟨[("n".toList, .int 10)], [("square".toList, ⟨["n".toList], "n*n".toList⟩)]⟩
        Interpreter.stodDecimal fuel "square(5)".toList [] = .ok 100) :=
  ⟨by decide!, by decide!,
    (Interpreter.yields_of_eq _ _ _ _ (.ok 100) 20 (by decide!) (by simp)).2⟩

/-- C6: a call of a stored function with `k` parameters whose argument list
consists of `m ≠ k` non-empty top-level argument texts (commas inside
parentheses do not split) that all evaluate throws "Incorrect number of
arguments" with both counts, whatever follows the call; and a definition line
`name(params):body` with a valid name is accepted for every body text: nothing
is evaluated or checked when a function is defined. -/
theorem C6_arity_checked_at_call (I : Interpreter) (stod : Stod) (localVars : Map ℚ)
    (f : Name) (func : Function) (args : List Name) (vals : List ℚ) (rest : List Char)
    (hf : I.functions.find f = some func) (hname : Interpreter.isValidName f = true)
    (hargs : List.Forall₂ (fun a v => Interpreter.isArgument a = true ∧
      Interpreter.Yields I stod (Interpreter.trim a) localVars (.ok v)) args vals)
    (hne : args.length ≠ func.params.length) :
    Interpreter.Yields I stod (f ++ '(' :: (Interpreter.joinArgs args ++ ')' :: rest)) localVars
      (.throw (.incorrectArguments f func.params.length args.length
        (f ++ '(' :: (Interpreter.joinArgs args ++ ')' :: rest)))) ∧
    (∀ (J : Interpreter) (fuel : Nat) (name params body : Name),
      Interpreter.isValidName name = true → (∀ c ∈ params, c ≠ ')' ∧ c ≠ ':') →
      Interpreter.processInstruction J stod fuel (name ++ '(' :: (params ++ ')' :: ':' :: body)) =
        ⟨⟨J.variables, J.functions.insert name
            ⟨Interpreter.parseParameters params, Interpreter.parseExpression body⟩⟩,
          [], .ok ()⟩) := by
  obtain ⟨hne1, halnum⟩ := Interpreter.isValidName_chars f hname
  exact ⟨Interpreter.yields_call_arity I stod localVars f func args vals rest hf hne1
      (fun c hc => Interpreter.isTokenChar_of_isalnum c (halnum c hc)) hargs hne,
    fun J fuel name params body h1 h2 =>
      Interpreter.processInstruction_define J stod fuel name params body h1 h2⟩

/-- C6 at `square(5,(6))` for the one-parameter `square`, and at the definition
`f(a): g(a,a)/undefined` in the empty interpreter. -/
theorem C6_arity_checked_at_call_witness :
    Interpreter.Yields ⟨[], [("square".toList, ⟨["n".toList], "n*n".toList⟩)]⟩
      Interpreter.stodDecimal "square(5,(6))".toList []
      (.throw (.incorrectArguments "square".toList 1 2 "square(5,(6))".toList)) ∧
    Interpreter.processInstruction ⟨[], []⟩ Interpreter.stodDecimal 0
        "f(a): g(a,a)/undefined".toList =
      ⟨⟨[], [("f".toList, ⟨["a".toList], "g(a,a)/undefined".toList⟩)]⟩, [], .ok ()⟩ :=
  ⟨(C6_arity_checked_at_call ⟨[], [("square".toList, ⟨["n".toList], "n*n".toList⟩)]⟩
      Interpreter.stodDecimal [] "square".toList ⟨["n".toList], "n*n".toList⟩
      ["5".toList, "(6)".toList] [5, 6] [] (by decide) (by decide)
      (List.Forall₂.cons ⟨by decide, Interpreter.yields_of_eq _ _ _ _ _ 5 (by decide!) (by simp)⟩
        (List.Forall₂.cons
          ⟨by decide, Interpreter.yields_of_eq _ _ _ _ _ 8 (by decide!) (by simp)⟩
          List.Forall₂.nil))
      (by decide)).1,
    (C6_arity_checked_at_call ⟨[], [("square".toList, ⟨["n".toList], "n*n".toList⟩)]⟩
      Interpreter.stodDecimal [] "square".toList ⟨["n".toList], "n*n".toList⟩
      ["5".toList, "(6)".toList] [5, 6] [] (by decide) (by decide)
      (List.Forall₂.cons ⟨by decide, Interpreter.yields_of_eq _ _ _ _ _ 5 (by decide!) (by simp)⟩
        (List.Forall₂.cons
          ⟨by decide, Interpreter.yields_of_eq _ _ _ _ _ 8 (by decide!) (by simp)⟩
          List.Forall₂.nil))
      (by decide)).2 ⟨[], []⟩ 0 "f".toList "a".toList " g(a,a)/undefined".toList
      (by decide) (by decide)⟩

/-- C7: whenever the scan holds a pending token that is not a number, not a
global variable and not a local binding, and (after white space) the input
ends, or an operator follows, or a `(` follows and the token is not a function
name, `evaluateExpression` throws: "Undefined variable or function" naming the
token, or, at a `(` without matching `)`, "Mismatched parentheses", which is
checked first.  In particular an expression that begins with such a token
followed by an operator or by nothing throws the undefined-name error. -/
theorem C7_undefined_identifier (I : Interpreter) (stod : Stod) (expr : Name)
    (localVars : Map ℚ) (s : Interpreter.Scan) (ws tail : List Char)
    (hne : s.token ≠ []) (hnum : Interpreter.isNumber stod s.token = false)
    (hvar : I.variables.find s.token = none) (hloc : localVars.find s.token = none)
    (hws : ∀ c ∈ ws, isspace c = true) (hrest : s.rest = ws ++ tail) :
    (tail = [] →
      Interpreter.ScanYields I stod expr localVars s (.throw (.undefinedName s.token expr))) ∧
    (∀ c cs, tail = c :: cs → (c = '+' ∨ c = '-' ∨ c = '*' ∨ c = '/') →
      Interpreter.ScanYields I stod expr localVars s (.throw (.undefinedName s.token expr))) ∧
    (∀ cs, tail = '(' :: cs → I.functions.find s.token = none →
      Interpreter.ScanYields I stod expr localVars s
        (.throw (if (Interpreter.extractSub cs 1 []).2.2 = 0 then .undefinedName s.token expr
          else .mismatchedParentheses expr))) ∧
    ((∀ c ∈ s.token, Interpreter.isTokenChar c = true) →
      (tail = [] ∨ ∃ c cs, tail = c :: cs ∧ (c = '+' ∨ c = '-' ∨ c = '*' ∨ c = '/')) →
      Interpreter.Yields I stod (s.token ++ (ws ++ tail)) localVars
        (.throw (.undefinedName s.token (s.token ++ (ws ++ tail))))) := by
  obtain ⟨vs, ops, tok, rest, eo⟩ := s
  simp only at hne hnum hvar hloc hrest
  subst hrest
  have hend : ∀ (e : Name) (vs1 : List ℚ) (ops1 : List Char) (eo1 : Bool),
      Interpreter.ScanYields I stod e localVars ⟨vs1, ops1, tok, ws ++ [], eo1⟩
        (.throw (.undefinedName tok e)) := by
    intro e vs1 ops1 eo1
    refine Interpreter.scanYields_whitespace I stod e localVars vs1 ops1 tok eo1 _ ws [] hws ?_
    refine Interpreter.scanYields_done I stod e localVars _ _ (by simp) ⟨0, fun k _ => ?_⟩
    rw [Interpreter.step_end I stod _ e localVars _ rfl]
    simp [Interpreter.finish,
      Interpreter.flushToken_undefined I stod e localVars tok vs1 hne hnum hvar hloc]
  have hop : ∀ (e : Name) (vs1 : List ℚ) (ops1 : List Char) (eo1 : Bool) (c : Char)
      (cs : List Char), (c = '+' ∨ c = '-' ∨ c = '*' ∨ c = '/') →
      Interpreter.ScanYields I stod e localVars ⟨vs1, ops1, tok, ws ++ c :: cs, eo1⟩
        (.throw (.undefinedName tok e)) := by
    intro e vs1 ops1 eo1 c cs hc
    refine Interpreter.scanYields_whitespace I stod e localVars vs1 ops1 tok eo1 _ ws _ hws ?_
    refine Interpreter.scanYields_done I stod e localVars _ _ (by simp) ⟨0, fun k _ => ?_⟩
    rw [Interpreter.step_operator I stod _ e localVars _ c cs rfl hc]
    simp [Interpreter.flushToken_undefined I stod e localVars tok vs1 hne hnum hvar hloc]
  refine ⟨?_, ?_, ?_, ?_⟩
  · intro ht
    subst ht
    exact hend expr vs ops eo
  · intro c cs ht hc
    subst ht
    exact hop expr vs ops eo c cs hc
  · intro cs ht hfun
    subst ht
    refine Interpreter.scanYields_whitespace I stod expr localVars vs ops tok eo _ ws _ hws ?_
    refine Interpreter.scanYields_done I stod expr localVars _ _ ?_ ⟨0, fun k _ => ?_⟩
    · split <;> simp
    · rw [Interpreter.step_paren I stod _ expr localVars _ cs rfl]
      by_cases hcount : (Interpreter.extractSub cs 1 []).2.2 = 0
      · simp [hcount, hne, hfun,
          Interpreter.flushToken_undefined I stod expr localVars tok vs hne hnum hvar hloc]
      · simp [hcount]
  · intro htok ht
    rw [Interpreter.yields_iff_scanYields]
    refine Interpreter.scanYields_token I stod _ localVars [] [] true _ tok [] _ htok ?_
    rw [List.nil_append]
    rcases ht with ht | ⟨c, cs, ht, hc⟩
    · subst ht
      exact hend _ [] [] true
    · subst ht
      exact hop _ [] [] true c cs hc

/-- C7 at the expressions `x`, `1 + y * 2` (after the `+`) and `zz (1`: with no
variables and no functions they throw, naming `x`, `y`, and reporting the
parenthesis. -/
theorem C7_undefined_identifier_witness :
    Interpreter.Yields ⟨[], []⟩ Interpreter.stodDecimal "x".toList []
      (.throw (.undefinedName "x".toList "x".toList)) ∧
    Interpreter.ScanYields ⟨[], []⟩ Interpreter.stodDecimal "1 + y * 2".toList []
      ⟨[1], ['+'], "y".toList, " * 2".toList, true⟩
      (.throw (.undefinedName "y".toList "1 + y * 2".toList)) ∧
    Interpreter.ScanYields ⟨[], []⟩ Interpreter.stodDecimal "zz (1".toList []
      ⟨[], [], "zz".toList, " (1".toList, true⟩
      (.throw (.mismatchedParentheses "zz (1".toList)) :=
  ⟨(C7_undefined_identifier ⟨[], []⟩ Interpreter.stodDecimal "x".toList []
      ⟨[], [], "x".toList, [], true⟩ [] [] (by decide) (by decide) (by decide) (by decide)
      (by decide) (by decide)).2.2.2 (by decide) (Or.inl rfl),
    (C7_undefined_identifier ⟨[], []⟩ Interpreter.stodDecimal "1 + y * 2".toList []
      ⟨[1], ['+'], "y".toList, " * 2".toList, true⟩ [' '] "* 2".toList (by decide) (by decide)
      (by decide) (by decide) (by decide) (by decide)).2.1 '*' " 2".toList (by decide)
      (by decide),
    (C7_undefined_identifier ⟨[], []⟩ Interpreter.stodDecimal "zz (1".toList []
      ⟨[], [], "zz".toList, " (1".toList, true⟩ [' '] "(1".toList (by decide) (by decide)
      (by decide) (by decide) (by decide) (by decide)).2.2.1 "1".toList (by decide)
      (by decide)⟩

/-- C8 (the code at the failing input): `x = 2 - 0.00000000001` computes
`v = 1.99999999999`, whose nearest integer is 2 and which is within `1e-10` of
it, and stores Integer 1: the stored integer is `static_cast<int>(v)`, the
truncation of `v`, not the integer that `round(v)` found.  (`x = 4/2` stores
Integer 2 and `x = 5/2` stores Float 2.5.) -/
theorem C8_inferred_integer_is_truncated :
    (∀ fuel, 30 ≤ fuel →
      Interpreter.processInstruction ⟨[], []⟩ Interpreter.stodDecimal fuel
          "x = 2 - 0.00000000001".toList =
        ⟨⟨[("x".toList, .int 1)], []⟩, [], .ok ()⟩) ∧
    Interpreter.cRound (2 - 1 / 100000000000) = 2 ∧
    |(2 - 1 / 100000000000 : ℚ) - 2| < Interpreter.epsilon ∧
    (∀ fuel, 30 ≤ fuel →
      Interpreter.processInstruction ⟨[], []⟩ Interpreter.stodDecimal fuel "x = 4/2".toList =
        ⟨⟨[("x".toList, .int 2)], []⟩, [], .ok ()⟩) ∧
    (∀ fuel, 30 ≤ fuel →
      Interpreter.processInstruction ⟨[], []⟩ Interpreter.stodDecimal fuel "x = 5/2".toList =
        ⟨⟨[("x".toList, .float (5 / 2))], []⟩, [], .ok ()⟩) := by
  refine ⟨fun fuel h => ?_, by decide!, by decide!, fun fuel h => ?_, fun fuel h => ?_⟩
  · rw [Interpreter.processInstruction_mono _ _ 30 fuel _ h (by decide!)]
    decide!
  · rw [Interpreter.processInstruction_mono _ _ 30 fuel _ h (by decide!)]
    decide!
  · rw [Interpreter.processInstruction_mono _ _ 30 fuel _ h (by decide!)]
    decide!

/-- C9 (the code at the failing input): the value `v = 0.0000000001` lies at
distance exactly `1e-10` from its nearest integer 0.  The typed declaration
`x(i) = 0.0000000001` tests `> 1e-10`, accepts it and stores Integer 0; the
plain assignment `x = 0.0000000001` tests `< 1e-10` and stores Float `v`.
(`x(i) = 5/2` throws and `x(i) = 4/2` stores Integer 2.) -/
theorem C9_typed_and_plain_differ_at_threshold :
    |(1 / 10000000000 : ℚ) - Interpreter.cRound (1 / 10000000000)| = Interpreter.epsilon ∧
    (∀ fuel, 30 ≤ fuel →
      Interpreter.processInstruction ⟨[], []⟩ Interpreter.stodDecimal fuel
          "x(i) = 0.0000000001".toList =
        ⟨⟨[("x".toList, .int 0)], []⟩, [], .ok ()⟩) ∧
    (∀ fuel, 30 ≤ fuel →
      Interpreter.processInstruction ⟨[], []⟩ Interpreter.stodDecimal fuel
          "x = 0.0000000001".toList =
        ⟨⟨[("x".toList, .float (1 / 10000000000))], []⟩, [], .ok ()⟩) ∧
    (∀ fuel, 30 ≤ fuel →
      Interpreter.processInstruction ⟨[], []⟩ Interpreter.stodDecimal fuel "x(i) = 5/2".toList =
        ⟨⟨[], []⟩, [], .throw (.nonIntegerValue "x".toList)⟩) ∧
    (∀ fuel, 30 ≤ fuel →
      Interpreter.processInstruction ⟨[], []⟩ Interpreter.stodDecimal fuel "x(i) = 4/2".toList =
        ⟨⟨[("x".toList, .int 2)], []⟩, [], .ok ()⟩) := by
  refine ⟨by decide!, fun fuel h => ?_, fun fuel h => ?_, fun fuel h => ?_, fun fuel h => ?_⟩
  · rw [Interpreter.processInstruction_mono _ _ 30 fuel _ h (by decide!)]
    decide!
  · rw [Interpreter.processInstruction_mono _ _ 30 fuel _ h (by decide!)]
    decide!
  · rw [Interpreter.processInstruction_mono _ _ 30 fuel _ h (by decide!)]
    decide!
  · rw [Interpreter.processInstruction_mono _ _ 30 fuel _ h (by decide!)]
    decide!

/-- C10: whenever `processInstruction` throws, for whatever reason, the
variable map and the function map after the call are those before the call. -/
theorem C10_no_change_on_error (I : Interpreter) (stod : Stod) (fuel : Nat) (line : Name)
    (e : Error) (h : (Interpreter.processInstruction I stod fuel line).outcome = .throw e) :
    (Interpreter.processInstruction I stod fuel line).state = I := by
  unfold Interpreter.processInstruction at h ⊢
  dsimp only at h ⊢
  split
  · rfl
  · rename_i ht
    simp only [ht, if_false] at h
    cases h1 : Interpreter.functionDefinitionBlock I (Interpreter.trim line) with
    | some eff =>
      simp only [h1] at h ⊢
      exact Interpreter.functionDefinitionBlock_state I _ eff h1 e h
    | none =>
      simp only [h1] at h ⊢
      cases h2 : Interpreter.assignmentBlock I stod fuel (Interpreter.trim line) with
      | some eff =>
        simp only [h2] at h ⊢
        exact Interpreter.assignmentBlock_state I stod fuel _ eff h2 e h
      | none =>
        simp only [h2] at h ⊢
        cases h3 : Interpreter.printBlock I (Interpreter.trim line) with
        | some eff =>
          simp only [h3]
          exact Interpreter.printBlock_state I _ eff h3
        | none => rfl

/-- C10 at the failing assignment `a = a/0` in a state that defines `a`: the
division by zero leaves `a` and the functions as they were. -/
theorem C10_no_change_on_error_witness :
    (Interpreter.processInstruction
        ⟨[("a".toList, .int 1)], [("f".toList, ⟨["n".toList], "n".toList⟩)]⟩
        Interpreter.stodDecimal 30 "a = a/0".toList).outcome = .throw .divisionByZero ∧
    (Interpreter.processInstruction
        ⟨[("a".toList, .int 1)], [("f".toList, ⟨["n".toList], "n".toList⟩)]⟩
        Interpreter.stodDecimal 30 "a = a/0".toList).state =
      ⟨[("a".toList, .int 1)], [("f".toList, ⟨["n".toList], "n".toList⟩)]⟩ :=
  ⟨by decide!,
    C10_no_change_on_error ⟨[("a".toList, .int 1)], [("f".toList, ⟨["n".toList], "n".toList⟩)]⟩
      Interpreter.stodDecimal 30 "a = a/0".toList .divisionByZero (by decide!)⟩

/-- C11: when no text with a `)` is read as a number or names a variable, a local
binding or a function (true of every state that `processInstruction` builds),
an expression whose parentheses are unbalanced never makes
`evaluateExpression` return a number; when moreover no function is defined,
the evaluation ends and throws; and at a `(` reached by the scan whose
matching `)` is missing, the pass throws `Mismatched parentheses`, whatever
the locals of the scan are. -/
theorem C11_unbalanced_parentheses_fail (I : Interpreter) (stod : Stod) (localVars : Map ℚ)
    (hclosed : Interpreter.ClosedNames I stod localVars) :
    (∀ expr : Name, Interpreter.balanced expr = false →
      ∀ fuel v, Interpreter.evaluateExpression I stod fuel expr localVars ≠ .ok v) ∧
    (I.functions = [] → ∀ expr : Name, Interpreter.balanced expr = false →
      ∃ e, Interpreter.Yields I stod expr localVars (.throw e)) ∧
    (∀ (eval : Name → Map ℚ → Outcome ℚ) (expr : Name) (s : Interpreter.Scan) (cs : List Char),
      s.rest = '(' :: cs → Interpreter.closesFrom 0 cs = false →
      Interpreter.step I stod eval expr localVars s =
        .done (.throw (.mismatchedParentheses expr))) := by
  have h1 : ∀ expr : Name, Interpreter.balanced expr = false →
      ∀ fuel v, Interpreter.evaluateExpression I stod fuel expr localVars ≠ .ok v := by
    intro expr hb fuel v h
    have := Interpreter.balanced_of_scanLoop I stod localVars hclosed expr fuel
      (Interpreter.Scan.init expr) v (by simp [Interpreter.Scan.init])
      (by simp [Interpreter.Scan.init]) h
    simp only [Interpreter.Scan.init, Interpreter.balanced] at this hb
    rw [this] at hb
    cases hb
  refine ⟨h1, ?_, ?_⟩
  · intro hfun expr hb
    obtain ⟨r, hr, n, hn⟩ :=
      Interpreter.yields_total I stod hfun (expr.length + 1) expr (Nat.lt_succ_self _) localVars
    cases r with
    | ok v => exact absurd (hn n (le_refl _)) (h1 expr hb n v)
    | throw e => exact ⟨e, hr, n, hn⟩
    | noFuel => exact absurd rfl hr
  · intro eval expr s cs hrest hcl
    rw [Interpreter.step_paren I stod eval expr localVars s cs hrest]
    have h0 : (Interpreter.extractSub cs 1 []).2.2 ≠ 0 := by
      intro h
      rw [Interpreter.extractSub_count cs 0 [], hcl] at h
      cases h
    rw [if_pos h0]

/-- C11 at `(1+2`, at `1+2)` and at the second `(` of `2*(1+(3)`, in the empty
interpreter with the decimal reader. -/
theorem C11_unbalanced_parentheses_fail_witness :
    (∀ fuel v, Interpreter.evaluateExpression ⟨[], []⟩ Interpreter.stodDecimal fuel
      "(1+2".toList [] ≠ .ok v) ∧
    (∃ e, Interpreter.Yields ⟨[], []⟩ Interpreter.stodDecimal "1+2)".toList [] (.throw e)) ∧
    Interpreter.step ⟨[], []⟩ Interpreter.stodDecimal (fun _ _ => .noFuel) "2*(1+(3)".toList []
        ⟨[2], ['*'], [], "(1+(3)".toList, true⟩ =
      .done (.throw (.mismatchedParentheses "2*(1+(3)".toList)) :=
  have h := C11_unbalanced_parentheses_fail ⟨[], []⟩ Interpreter.stodDecimal []
    Interpreter.closedNames_empty
  ⟨h.1 "(1+2".toList (by decide), h.2.1 rfl "1+2)".toList (by decide),
    h.2.2 (fun _ _ => .noFuel) "2*(1+(3)".toList ⟨[2], ['*'], [], "(1+(3)".toList, true⟩
      "1+(3)".toList rfl (by decide)⟩

/-- C12 (counterexample): the line `1f(x): x` has a `:` with a `(` before it and
is not stored as a function definition: it is rejected because `1f` is not a
valid name, and no function is defined. -/
theorem C12_function_line_not_stored :
    Interpreter.isFunctionLine (Interpreter.trim "1f(x): x".toList) = true ∧
    Interpreter.processInstruction ⟨[], []⟩ Interpreter.stodDecimal 0 "1f(x): x".toList =
      ⟨⟨[], []⟩, [], .throw (.invalidFunctionName "1f".toList)⟩ := by
  constructor <;> decide

/-- C12 (amended): `processInstruction` classifies the trimmed line in a fixed
order.  A blank line does nothing.  A line with a `:` and a `(` before it is a
function definition, also when it contains `=` or begins with `print`: it is
stored when the name before the `(` is valid and rejected with "Invalid function
name" otherwise.  Otherwise a line with `=` is an assignment or typed
declaration, also when it begins with `print`: it prints nothing and leaves the
functions alone.  Otherwise a line that begins with `print` is a print
statement: it leaves the state alone and ends normally or with "Variable not
found".  Every other line throws "Unknown instruction". -/
theorem C12_classification_order (I : Interpreter) (stod : Stod) (fuel : Nat) (line : Name) :
    (Interpreter.trim line = [] →
      Interpreter.processInstruction I stod fuel line = ⟨I, [], .ok ()⟩) ∧
    (Interpreter.isFunctionLine (Interpreter.trim line) = true →
      (Interpreter.isValidName (Interpreter.definedName (Interpreter.trim line)) = true →
        Interpreter.processInstruction I stod fuel line =
          ⟨⟨I.variables, I.functions.insert (Interpreter.definedName (Interpreter.trim line))
            (Interpreter.definedFunction (Interpreter.trim line))⟩, [], .ok ()⟩) ∧
      (Interpreter.isValidName (Interpreter.definedName (Interpreter.trim line)) = false →
        Interpreter.processInstruction I stod fuel line =
          ⟨I, [], .throw (.invalidFunctionName
            (Interpreter.definedName (Interpreter.trim line)))⟩)) ∧
    (Interpreter.isFunctionLine (Interpreter.trim line) = false → '=' ∈ Interpreter.trim line →
      Interpreter.processInstruction I stod fuel line =
        Interpreter.storeAssigned I (Interpreter.trim line)
          (Interpreter.evaluateExpression I stod fuel
            (Interpreter.assignedExpression (Interpreter.trim line)) []) ∧
      (Interpreter.processInstruction I stod fuel line).output = [] ∧
      (Interpreter.processInstruction I stod fuel line).state.functions = I.functions) ∧
    (Interpreter.isFunctionLine (Interpreter.trim line) = false → '=' ∉ Interpreter.trim line →
      (Interpreter.trim line).take 5 = Interpreter.printWord →
      (Interpreter.processInstruction I stod fuel line).state = I ∧
      ((Interpreter.processInstruction I stod fuel line).outcome = .ok () ∨
        ∃ n, (Interpreter.processInstruction I stod fuel line).outcome =
          .throw (.variableNotFound n))) ∧
    (Interpreter.trim line ≠ [] → Interpreter.isFunctionLine (Interpreter.trim line) = false →
      '=' ∉ Interpreter.trim line → (Interpreter.trim line).take 5 ≠ Interpreter.printWord →
      Interpreter.processInstruction I stod fuel line =
        ⟨I, [], .throw (.unknownInstruction (Interpreter.trim line))⟩) := by
  refine ⟨?_, ?_, ?_, ?_, ?_⟩
  · intro h0
    rw [Interpreter.processInstruction_eq, if_pos h0]
  · intro h1
    have h0 : Interpreter.trim line ≠ [] := by
      intro h
      rw [h] at h1
      revert h1
      decide
    rw [Interpreter.processInstruction_eq, if_neg h0, if_pos h1]
    exact ⟨fun hv => by rw [if_pos hv], fun hv => by rw [if_neg (by simp [hv])]⟩
  · intro h1 h2
    have h0 : Interpreter.trim line ≠ [] := by
      intro h
      rw [h] at h2
      simp at h2
    have hE : Interpreter.processInstruction I stod fuel line =
        Interpreter.storeAssigned I (Interpreter.trim line)
          (Interpreter.evaluateExpression I stod fuel
            (Interpreter.assignedExpression (Interpreter.trim line)) []) := by
      rw [Interpreter.processInstruction_eq, if_neg h0, if_neg (by simp [h1]), if_pos h2]
    refine ⟨hE, ?_, ?_⟩
    · rw [hE]
      exact Interpreter.storeAssigned_output I _ _
    · rw [hE]
      by_cases hok : (Interpreter.storeAssigned I (Interpreter.trim line)
          (Interpreter.evaluateExpression I stod fuel
            (Interpreter.assignedExpression (Interpreter.trim line)) [])).outcome = .ok ()
      · obtain ⟨_, var, _, _, hJ⟩ := Interpreter.storeAssigned_ok I _ _ hok
        rw [hJ I]
      · rw [Interpreter.storeAssigned_state I _ _ hok]
  · intro h1 h2 h3
    have h0 : Interpreter.trim line ≠ [] := by
      intro h
      rw [h] at h3
      revert h3
      decide
    rw [Interpreter.processInstruction_eq, if_neg h0, if_neg (by simp [h1]), if_neg h2]
    cases hp : Interpreter.printBlock I (Interpreter.trim line) with
    | some eff => exact Interpreter.printBlock_some I _ eff hp
    | none => exact absurd h3 ((Interpreter.printBlock_eq_none_iff I _).1 hp)
  · intro h0 h1 h2 h3
    rw [Interpreter.processInstruction_eq, if_neg h0, if_neg (by simp [h1]), if_neg h2,
      (Interpreter.printBlock_eq_none_iff I _).2 h3]

/-- C12 at `print = 5`, which defines the variable `print` and prints nothing, at
`print(x): x = 1`, which defines the function `print`, and at `hello`. -/
theorem C12_classification_order_witness :
    Interpreter.processInstruction ⟨[], []⟩ Interpreter.stodDecimal 9 "print = 5".toList =
      ⟨⟨[("print".toList, .int 5)], []⟩, [], .ok ()⟩ ∧
    Interpreter.processInstruction ⟨[], []⟩ Interpreter.stodDecimal 9 "print(x): x = 1".toList =
      ⟨⟨[], [("print".toList, ⟨["x".toList], "x = 1".toList⟩)]⟩, [], .ok ()⟩ ∧
    Interpreter.processInstruction ⟨[], []⟩ Interpreter.stodDecimal 9 "hello".toList =
      ⟨⟨[], []⟩, [], .throw (.unknownInstruction "hello".toList)⟩ := by
  refine ⟨?_, ?_, ?_⟩
  · rw [((C12_classification_order ⟨[], []⟩ Interpreter.stodDecimal 9 "print = 5".toList).2.2.1
      (by decide) (by decide)).1]
    decide!
  · rw [(C12_classification_order ⟨[], []⟩ Interpreter.stodDecimal 9
      "print(x): x = 1".toList).2.1 (by decide) |>.1 (by decide)]
    decide
  · rw [(C12_classification_order ⟨[], []⟩ Interpreter.stodDecimal 9 "hello".toList).2.2.2.2
      (by decide) (by decide) (by decide) (by decide)]
    decide

/-- C13 (counterexample): with `x` holding 1, the line `x = x + 1` is processed
successfully twice, and the second processing changes the environment again:
`x` is 2 after the first and 3 after the second. -/
theorem C13_assignment_not_idempotent :
    Interpreter.processInstruction ⟨[("x".toList, .int 1)], []⟩ Interpreter.stodDecimal 20
        "x = x + 1".toList = ⟨⟨[("x".toList, .int 2)], []⟩, [], .ok ()⟩ ∧
    Interpreter.processInstruction ⟨[("x".toList, .int 2)], []⟩ Interpreter.stodDecimal 20
        "x = x + 1".toList = ⟨⟨[("x".toList, .int 3)], []⟩, [], .ok ()⟩ ∧
    (Interpreter.processInstruction
        (Interpreter.processInstruction ⟨[("x".toList, .int 1)], []⟩ Interpreter.stodDecimal 20
          "x = x + 1".toList).state Interpreter.stodDecimal 20 "x = x + 1".toList).state ≠
      (Interpreter.processInstruction ⟨[("x".toList, .int 1)], []⟩ Interpreter.stodDecimal 20
        "x = x + 1".toList).state := by
  refine ⟨by decide!, by decide!, by decide!⟩

/-- C13 (amended): a line that is processed successfully and is a function
definition, or an assignment (plain or typed) whose expression evaluates in the
environment after the first processing to what it evaluated to before, is
processed successfully a second time and leaves the environment as it is after
the first processing. -/
theorem C13_idempotent_when_value_unchanged (I : Interpreter) (stod : Stod) (fuel : Nat)
    (line : Name)
    (hok : (Interpreter.processInstruction I stod fuel line).outcome = .ok ())
    (hkind : Interpreter.isFunctionLine (Interpreter.trim line) = true ∨
      ('=' ∈ Interpreter.trim line ∧
        Interpreter.evaluateExpression (Interpreter.processInstruction I stod fuel line).state
            stod fuel (Interpreter.assignedExpression (Interpreter.trim line)) [] =
          Interpreter.evaluateExpression I stod fuel
            (Interpreter.assignedExpression (Interpreter.trim line)) [])) :
    Interpreter.processInstruction (Interpreter.processInstruction I stod fuel line).state
        stod fuel line =
      ⟨(Interpreter.processInstruction I stod fuel line).state, [], .ok ()⟩ := by
  have h0 : Interpreter.trim line ≠ [] := by
    intro h
    rw [h] at hkind
    rcases hkind with h1 | h1
    · revert h1
      decide
    · simp at h1
  by_cases h1 : Interpreter.isFunctionLine (Interpreter.trim line) = true
  · have hE := Interpreter.processInstruction_eq I stod fuel line
    rw [if_neg h0, if_pos h1] at hE
    by_cases hv : Interpreter.isValidName (Interpreter.definedName (Interpreter.trim line)) = true
    · rw [if_pos hv] at hE
      rw [Interpreter.processInstruction_eq, if_neg h0, if_pos h1, if_pos hv, hE]
      simp only [Map.insert_insert]
    · rw [if_neg hv] at hE
      rw [hE] at hok
      cases hok
  · rcases hkind with h2 | ⟨h2, hval⟩
    · exact absurd h2 h1
    · have hE := Interpreter.processInstruction_eq I stod fuel line
      rw [if_neg h0, if_neg h1, if_pos h2] at hE
      rw [hE] at hok
      obtain ⟨value, var, hr, _, hJ⟩ := Interpreter.storeAssigned_ok I _ _ hok
      rw [Interpreter.processInstruction_eq, if_neg h0, if_neg h1, if_pos h2, hval, hE, hJ I,
        hJ]
      simp only [Map.insert_insert]

/-- C13 (amended) at `x = 4/2` and at `square(n): n*n`, each processed twice. -/
theorem C13_idempotent_when_value_unchanged_witness :
    Interpreter.processInstruction
        (Interpreter.processInstruction ⟨[("x".toList, .int 7)], []⟩ Interpreter.stodDecimal 20
          "x = 4/2".toList).state Interpreter.stodDecimal 20 "x = 4/2".toList =
      ⟨⟨[("x".toList, .int 2)], []⟩, [], .ok ()⟩ ∧
    Interpreter.processInstruction
        (Interpreter.processInstruction ⟨[], []⟩ Interpreter.stodDecimal 20
          "square(n): n*n".toList).state Interpreter.stodDecimal 20 "square(n): n*n".toList =
      ⟨⟨[], [("square".toList, ⟨["n".toList], "n*n".toList⟩)]⟩, [], .ok ()⟩ := by
  constructor
  · rw [C13_idempotent_when_value_unchanged ⟨[("x".toList, .int 7)], []⟩
      Interpreter.stodDecimal 20 "x = 4/2".toList (by decide!)
      (Or.inr ⟨by decide, by decide!⟩)]
    decide!
  · rw [C13_idempotent_when_value_unchanged ⟨[], []⟩ Interpreter.stodDecimal 20
      "square(n): n*n".toList (by decide) (Or.inl (by decide))]
    decide

/-- C15 (the code at the failing input): in every state without a variable of
empty name, the line `print ;` throws "Variable not found" (for the empty name
that is left when the `;` is removed) and prints nothing, while `print` and
`print;` print every variable once, in the order of the map.  (`print x` for an
undefined `x` throws "Variable not found".) -/
theorem C15_print_space_semicolon_throws (I : Interpreter) (stod : Stod) (fuel : Nat)
    (hempty : I.variables.find [] = none) :
    Interpreter.processInstruction I stod fuel "print ;".toList =
      ⟨I, [], .throw (.variableNotFound [])⟩ ∧
    Interpreter.processInstruction I stod fuel "print".toList = ⟨I, I.variables, .ok ()⟩ ∧
    Interpreter.processInstruction I stod fuel "print;".toList = ⟨I, I.variables, .ok ()⟩ ∧
    (I.variables.find "x".toList = none →
      Interpreter.processInstruction I stod fuel "print x".toList =
        ⟨I, [], .throw (.variableNotFound "x".toList)⟩) := by
  have hp : ∀ (t : Name), Interpreter.trim t = t → t ≠ [] →
      Interpreter.isFunctionLine t = false → '=' ∉ t →
      Interpreter.processInstruction I stod fuel t =
        match Interpreter.printBlock I t with
        | some eff => eff
        | none => ⟨I, [], .throw (.unknownInstruction t)⟩ := by
    intro t h1 h2 h3 h4
    rw [Interpreter.processInstruction_eq, h1, if_neg h2, if_neg (by simp [h3]), if_neg h4]
  refine ⟨?_, ?_, ?_, ?_⟩
  · rw [hp _ (by decide) (by decide) (by decide) (by decide)]
    have h1 : Interpreter.dropSemicolon (Interpreter.trim (List.drop 5 "print ;".toList)) = [] := by
      decide
    simp only [Interpreter.printBlock, h1, hempty]
    rfl
  · rw [hp _ (by decide) (by decide) (by decide) (by decide)]
    rfl
  · rw [hp _ (by decide) (by decide) (by decide) (by decide)]
    rfl
  · intro hx
    rw [hp _ (by decide) (by decide) (by decide) (by decide)]
    have h1 : Interpreter.dropSemicolon (Interpreter.trim (List.drop 5 "print x".toList)) =
        "x".toList := by decide
    simp only [Interpreter.printBlock, h1, hx]
    rfl

/-- C15 in the state with the variables `a = 1` and `b = 2.5`. -/
theorem C15_print_space_semicolon_throws_witness :
    Interpreter.processInstruction ⟨[("a".toList, .int 1), ("b".toList, .float 2.5)], []⟩
        Interpreter.stodDecimal 0 "print ;".toList =
      ⟨⟨[("a".toList, .int 1), ("b".toList, .float 2.5)], []⟩, [],
        .throw (.variableNotFound [])⟩ ∧
    Interpreter.processInstruction ⟨[("a".toList, .int 1), ("b".toList, .float 2.5)], []⟩
        Interpreter.stodDecimal 0 "print;".toList =
      ⟨⟨[("a".toList, .int 1), ("b".toList, .float 2.5)], []⟩,
        [("a".toList, .int 1), ("b".toList, .float 2.5)], .ok ()⟩ :=
  ⟨(C15_print_space_semicolon_throws ⟨[("a".toList, .int 1), ("b".toList, .float 2.5)], []⟩
      Interpreter.stodDecimal 0 (by decide)).1,
    (C15_print_space_semicolon_throws ⟨[("a".toList, .int 1), ("b".toList, .float 2.5)], []⟩
      Interpreter.stodDecimal 0 (by decide)).2.2.1⟩

/-- C16 (counterexample): the lines `f(1x): 2` and `f(a b): a`, whose parameters
`1x` and `a b` are not valid identifiers, are accepted and define `f`. -/
theorem C16_parameter_names_not_checked :
    Interpreter.isValidName "1x".toList = false ∧
    Interpreter.isValidName "a b".toList = false ∧
    Interpreter.processInstruction ⟨[], []⟩ Interpreter.stodDecimal 0 "f(1x): 2".toList =
      ⟨⟨[], [("f".toList, ⟨["1x".toList], "2".toList⟩)]⟩, [], .ok ()⟩ ∧
    Interpreter.processInstruction ⟨[], []⟩ Interpreter.stodDecimal 0 "f(a b): a".toList =
      ⟨⟨[], [("f".toList, ⟨["a b".toList], "a".toList⟩)]⟩, [], .ok ()⟩ := by
  refine ⟨by decide, by decide, by decide, by decide⟩

/-- C16 (amended): of a function-definition line only the function name is
checked.  When the name before the `(` is not a valid identifier the line is
rejected with "Invalid function name" and nothing is defined.  When it is valid
the line is accepted, and the parameter list is stored as `parseParameters`
returns it: split at commas, trimmed, empty pieces dropped, no validation; so a
line `name(params):body` is accepted for every parameter text. -/
theorem C16_only_function_name_checked (I : Interpreter) (stod : Stod) (fuel : Nat)
    (line : Name) (hfl : Interpreter.isFunctionLine (Interpreter.trim line) = true) :
    (Interpreter.isValidName (Interpreter.definedName (Interpreter.trim line)) = false →
      Interpreter.processInstruction I stod fuel line =
        ⟨I, [], .throw (.invalidFunctionName (Interpreter.definedName (Interpreter.trim line)))⟩) ∧
    (Interpreter.isValidName (Interpreter.definedName (Interpreter.trim line)) = true →
      (Interpreter.processInstruction I stod fuel line).outcome = .ok () ∧
      (Interpreter.processInstruction I stod fuel line).state.functions.find
          (Interpreter.definedName (Interpreter.trim line)) =
        some (Interpreter.definedFunction (Interpreter.trim line))) ∧
    (∀ name params body : Name, Interpreter.isValidName name = true →
      (∀ c ∈ params, c ≠ ')' ∧ c ≠ ':') →
      Interpreter.processInstruction I stod fuel (name ++ '(' :: (params ++ ')' :: ':' :: body)) =
        ⟨⟨I.variables, I.functions.insert name
          ⟨Interpreter.parseParameters params, Interpreter.parseExpression body⟩⟩, [], .ok ()⟩) := by
  have h0 : Interpreter.trim line ≠ [] := by
    intro h
    rw [h] at hfl
    revert hfl
    decide
  have hE := Interpreter.processInstruction_eq I stod fuel line
  rw [if_neg h0, if_pos hfl] at hE
  refine ⟨?_, ?_, ?_⟩
  · intro hv
    rw [hE, if_neg (by simp [hv])]
  · intro hv
    rw [hE, if_pos hv]
    exact ⟨rfl, by simp [Map.find_insert]⟩
  · intro name params body hname hparams
    exact Interpreter.processInstruction_define I stod fuel name params body hname hparams

/-- C16 (amended) at `1f(x): x` (rejected) and at `f(1x, ,y z): 2` (accepted with
the parameters `1x` and `y z`). -/
theorem C16_only_function_name_checked_witness :
    Interpreter.processInstruction ⟨[], []⟩ Interpreter.stodDecimal 0 "1f(x): x".toList =
      ⟨⟨[], []⟩, [], .throw (.invalidFunctionName "1f".toList)⟩ ∧
    Interpreter.processInstruction ⟨[], []⟩ Interpreter.stodDecimal 0 "f(1x, ,y z): 2".toList =
      ⟨⟨[], [("f".toList, ⟨["1x".toList, "y z".toList], "2".toList⟩)]⟩, [], .ok ()⟩ := by
  constructor
  · rw [(C16_only_function_name_checked ⟨[], []⟩ Interpreter.stodDecimal 0 "1f(x): x".toList
      (by decide)).1 (by decide)]
    decide
  · have h := (C16_only_function_name_checked ⟨[], []⟩ Interpreter.stodDecimal 0
      "1f(x): x".toList (by decide)).2.2 "f".toList "1x, ,y z".toList " 2".toList (by decide)
      (by decide)
    rw [show "f(1x, ,y z): 2".toList = "f".toList ++ '(' :: ("1x, ,y z".toList ++ ')' :: ':' ::
      " 2".toList) by decide, h]
    decide

/-- C17: `run` processes the lines in order and stops at the first line that
throws: when the lines `pre` all succeed and the line `bad` then throws `e`, the
state and the printed output after `pre ++ bad :: post` are those after `pre`
alone, and the error is reported for `bad`; the lines `post` have no effect. -/
theorem C17_stop_on_first_error (I : Interpreter) (stod : Stod) (fuel : Nat)
    (pre post : List Name) (bad : Name) (e : Error)
    (hpre : (Interpreter.run I stod fuel pre).ending = .finished)
    (hbad : (Interpreter.processInstruction (Interpreter.run I stod fuel pre).state stod fuel
      bad).outcome = .throw e) :
    Interpreter.run I stod fuel (pre ++ bad :: post) =
      ⟨(Interpreter.run I stod fuel pre).state, (Interpreter.run I stod fuel pre).output,
        .stoppedAt bad e⟩ := by
  rw [Interpreter.run_append stod fuel pre I (bad :: post) hpre]
  obtain ⟨hs, ho⟩ := Interpreter.processInstruction_throw _ stod fuel bad e hbad
  have hrun : Interpreter.run (Interpreter.run I stod fuel pre).state stod fuel (bad :: post) =
      ⟨(Interpreter.run I stod fuel pre).state, [], .stoppedAt bad e⟩ := by
    rw [Interpreter.run]
    rcases hp : Interpreter.processInstruction (Interpreter.run I stod fuel pre).state stod fuel
      bad with ⟨I1, out, oc⟩
    rw [hp] at hbad hs ho
    simp only at hbad hs ho
    subst hbad hs ho
    rfl
  rw [hrun]
  simp

/-- C17 at the script `a = 3`, `print a`, `b = a/0`, `c = 5`, `print`. -/
theorem C17_stop_on_first_error_witness :
    Interpreter.run ⟨[], []⟩ Interpreter.stodDecimal 20
        ["a = 3".toList, "print a".toList, "b = a/0".toList, "c = 5".toList, "print".toList] =
      ⟨⟨[("a".toList, .int 3)], []⟩, [("a".toList, .int 3)],
        .stoppedAt "b = a/0".toList .divisionByZero⟩ := by
  have h := C17_stop_on_first_error ⟨[], []⟩ Interpreter.stodDecimal 20
    ["a = 3".toList, "print a".toList] ["c = 5".toList, "print".toList] "b = a/0".toList
    .divisionByZero (by decide!) (by decide!)
  rw [show ["a = 3".toList, "print a".toList, "b = a/0".toList, "c = 5".toList,
      "print".toList] = ["a = 3".toList, "print a".toList] ++ "b = a/0".toList ::
      ["c = 5".toList, "print".toList] from rfl, h]
  decide!

/-- C18 (the code at the failing input): after `processLine` has stored
`square(n): n*n`, the second program evaluates `square(5)` to 5.  The token
`square` is evaluated by `executeFunction(token, {})`, a call without
arguments, which finds one parameter and zero arguments and returns `0.0`; the
group `(5)` is then pushed as a second operand and is the result. -/
theorem C18_proga_call_ignores_arguments :
    Proga.processLine ⟨[], []⟩ Interpreter.stodDecimal 0 "square(n): n*n".toList =
      ⟨⟨[], [("square".toList, ⟨"square".toList, ["n".toList], "n*n".toList⟩)]⟩, [], .ok ()⟩ ∧
    Proga.tokenize "square(5)".toList = ["square".toList, ['('], ['5'], [')']] ∧
    (∀ fuel,
      Proga.executeFunction ⟨[], [("square".toList, ⟨"square".toList, ["n".toList], "n*n".toList⟩)]⟩
        (Proga.evaluateExpression
          ⟨[], [("square".toList, ⟨"square".toList, ["n".toList], "n*n".toList⟩)]⟩
          Interpreter.stodDecimal fuel) "square".toList [] = .ok 0) ∧
    (∀ fuel,
      Proga.evaluateExpression
        ⟨[], [("square".toList, ⟨"square".toList, ["n".toList], "n*n".toList⟩)]⟩
        Interpreter.stodDecimal (fuel + 1) "square(5)".toList [] = .ok 5) := by
  refine ⟨by decide!, by decide, fun fuel => rfl, fun fuel => ?_⟩
  have hcall : (fun token => Proga.executeFunction
      ⟨[], [("square".toList, ⟨"square".toList, ["n".toList], "n*n".toList⟩)]⟩
      (Proga.evaluateExpression
        ⟨[], [("square".toList, ⟨"square".toList, ["n".toList], "n*n".toList⟩)]⟩
        Interpreter.stodDecimal fuel) token []) = fun _ => Proga.Result.ok 0 := by
    funext token
    unfold Proga.executeFunction
    by_cases h : token = "square".toList
    · subst h
      rfl
    · have h1 : ¬ token = ['s', 'q', 'u', 'a', 'r', 'e'] := h
      simp [Map.find, h1]
  rw [Proga.evaluateExpression, hcall]
  decide!

/-- C19 (the code at the failing input): in the second program the line `x = y`
with `y` undefined stores 0 in `x`: a new `x` is created, and an `x` that held
5 is overwritten.  The evaluator reports the undefined name and returns `0.0`,
and `processLine` stores what it returns; the same happens for the invalid
token of `x = 3 $ 4`. -/
theorem C19_proga_failed_assignment_writes_zero :
    (∀ fuel, Proga.processLine ⟨[], []⟩ Interpreter.stodDecimal (fuel + 1) "x = y".toList =
      ⟨⟨[("x".toList, 0)], []⟩, [], .ok ()⟩) ∧
    (∀ fuel,
      Proga.processLine ⟨[("x".toList, 5)], []⟩ Interpreter.stodDecimal (fuel + 1) "x = y".toList =
        ⟨⟨[("x".toList, 0)], []⟩, [], .ok ()⟩) ∧
    (∀ fuel,
      Proga.processLine ⟨[("x".toList, 5)], []⟩ Interpreter.stodDecimal (fuel + 1)
          "x = 3 $ 4".toList =
        ⟨⟨[("x".toList, 0)], []⟩, [], .ok ()⟩) := by
  have hcall : ∀ (S : Proga.State) (fuel : Nat), S.functions = [] →
      (fun token => Proga.executeFunction S (Proga.evaluateExpression S Interpreter.stodDecimal fuel)
        token []) = fun _ => Proga.Result.ok 0 := by
    intro S fuel hS
    funext token
    simp [Proga.executeFunction, hS, Map.find]
  have heval : ∀ (S : Proga.State) (fuel : Nat) (e : Name), S.functions = [] →
      Proga.evaluateExpression S Interpreter.stodDecimal (fuel + 1) e [] =
        Proga.evaluateExpression S Interpreter.stodDecimal 1 e [] := by
    intro S fuel e hS
    rw [Proga.evaluateExpression, Proga.evaluateExpression, hcall S fuel hS, hcall S 0 hS]
  have hline : ∀ (S : Proga.State) (fuel : Nat) (line : Name), S.functions = [] →
      Proga.processLine S Interpreter.stodDecimal (fuel + 1) line =
        Proga.processLine S Interpreter.stodDecimal 1 line := by
    intro S fuel line hS
    simp only [Proga.processLine, Proga.assign, heval S fuel _ hS]
  refine ⟨fun fuel => ?_, fun fuel => ?_, fun fuel => ?_⟩
  · rw [hline _ fuel _ rfl]
    decide!
  · rw [hline _ fuel _ rfl]
    decide!
  · rw [hline _ fuel _ rfl]
    decide!

/-- C20: a pending token `t` that resolves to a value `x` (as a numeric literal,
a global variable or a local binding) and is not a function name, directly
followed by a group `(e)` whose text evaluates to `v`: the pass at the `(` pushes
`x` and then `v` as two operands and leaves the operator stack unchanged
(whatever the operands, the operators and the flag before, and whatever
follows the group); and the expression `t(e)` on its own evaluates to `v`. -/
theorem C20_token_then_group_pushes_twice (I : Interpreter) (stod : Stod) (localVars : Map ℚ)
    (t e : Name) (x v : ℚ) (ht : t ≠ []) (htok : ∀ c ∈ t, Interpreter.isTokenChar c = true)
    (hfun : I.functions.find t = none)
    (hx : Interpreter.flushToken I stod (t ++ '(' :: (e ++ [')'])) localVars t [] = .ok [x])
    (hbal : Interpreter.balanced e = true)
    (hv : Interpreter.Yields I stod e localVars (.ok v)) :
    (∀ (expr : Name) (values : List ℚ) (operators tail : List Char) (expectOperand : Bool),
      ∃ n, ∀ fuel, n ≤ fuel →
        Interpreter.step I stod (Interpreter.evaluateExpression I stod fuel) expr localVars
            ⟨values, operators, t, '(' :: (e ++ ')' :: tail), expectOperand⟩ =
          .more ⟨v :: x :: values, operators, [], tail, false⟩) ∧
    Interpreter.Yields I stod (t ++ '(' :: (e ++ [')'])) localVars (.ok v) := by
  obtain ⟨_, n, hn⟩ := hv
  have hstep : ∀ (expr : Name) (values : List ℚ) (operators tail : List Char)
      (expectOperand : Bool), ∀ fuel, n ≤ fuel →
        Interpreter.step I stod (Interpreter.evaluateExpression I stod fuel) expr localVars
            ⟨values, operators, t, '(' :: (e ++ ')' :: tail), expectOperand⟩ =
          .more ⟨v :: x :: values, operators, [], tail, false⟩ := by
    intro expr values operators tail expectOperand fuel hle
    exact Interpreter.step_token_group I stod _ expr localVars values operators t _ e tail
      expectOperand x v ht hfun
      (Interpreter.flushToken_resolved I stod _ localVars t x ht hx expr values)
      (Interpreter.extractSub_balanced_group e tail hbal) (hn fuel hle)
  refine ⟨fun expr values operators tail expectOperand =>
    ⟨n, hstep expr values operators tail expectOperand⟩, ?_⟩
  rw [Interpreter.yields_iff_scanYields]
  have h1 := Interpreter.scanYields_token I stod (t ++ '(' :: (e ++ [')'])) localVars [] [] true
    (.ok v) t [] ('(' :: (e ++ [')'])) htok
  simp only [List.nil_append] at h1
  apply h1
  refine Interpreter.scanYields_more I stod _ localVars _ ⟨[v, x], [], [], [], false⟩ (.ok v)
    ⟨n, fun k hk => hstep _ [] [] [] true k hk⟩ ?_
  refine Interpreter.scanYields_done I stod _ localVars _ _ (by simp) ⟨0, fun k _ => ?_⟩
  rw [Interpreter.step_end I stod _ _ localVars _ rfl]
  simp [Interpreter.finish, Interpreter.flushToken, Interpreter.reduceAll]

/-- C20 at the token `2` before `(3+4)`: inside `1+2(3+4)*5` the pass pushes 2 and
7 over the 1 and leaves the `+` alone, and `2(3+4)` on its own evaluates to 7. -/
theorem C20_token_then_group_pushes_twice_witness :
    (∃ n, ∀ fuel, n ≤ fuel →
        Interpreter.step ⟨[], []⟩ Interpreter.stodDecimal
            (Interpreter.evaluateExpression ⟨[], []⟩ Interpreter.stodDecimal fuel)
            "1+2(3+4)*5".toList []
            ⟨[1], ['+'], "2".toList, "(3+4)*5".toList, true⟩ =
          .more ⟨[7, 2, 1], ['+'], [], "*5".toList, false⟩) ∧
    Interpreter.Yields ⟨[], []⟩ Interpreter.stodDecimal "2(3+4)".toList [] (.ok 7) :=
  have h := C20_token_then_group_pushes_twice ⟨[], []⟩ Interpreter.stodDecimal [] "2".toList
    "3+4".toList 2 7 (by decide) (by decide) rfl (by decide!) (by decide)
    (Interpreter.yields_of_eq ⟨[], []⟩ Interpreter.stodDecimal "3+4".toList [] (.ok 7) 8
      (by decide!) (by simp))
  ⟨h.1 "1+2(3+4)*5".toList [1] ['+'] "*5".toList true, h.2⟩

/-- C21 (the code at the failing input): in the empty interpreter `6/(2)(3)`
evaluates to 1 and `6/(2)*(3)` to 9.  At the second `(` the `*` is pushed on the
operator stack without the reduction loop that a written operator runs first,
so the pending `/` is applied after the product: 6/(2*3).  The same happens
after a call: with `f(): 2`, `6/f()(3)` is 1 and `6/f()*(3)` is 9. -/
theorem C21_implicit_product_binds_tighter :
    (∃ n, ∀ fuel, n ≤ fuel →
      Interpreter.evaluateExpression ⟨[], []⟩ Interpreter.stodDecimal fuel "6/(2)(3)".toList [] =
        .ok 1) ∧
    (∃ n, ∀ fuel, n ≤ fuel →
      Interpreter.evaluateExpression ⟨[], []⟩ Interpreter.stodDecimal fuel "6/(2)*(3)".toList [] =
        .ok 9) ∧
    (∃ n, ∀ fuel, n ≤ fuel →
      Interpreter.evaluateExpression ⟨[], [("f".toList, ⟨[], "2".toList⟩)]⟩
        Interpreter.stodDecimal fuel "6/f()(3)".toList [] = .ok 1) ∧
    (∃ n, ∀ fuel, n ≤ fuel →
      Interpreter.evaluateExpression ⟨[], [("f".toList, ⟨[], "2".toList⟩)]⟩
        Interpreter.stodDecimal fuel "6/f()*(3)".toList [] = .ok 9) :=
  ⟨(Interpreter.yields_of_eq ⟨[], []⟩ Interpreter.stodDecimal "6/(2)(3)".toList [] (.ok 1) 12
      (by decide!) (by simp)).2,
    (Interpreter.yields_of_eq ⟨[], []⟩ Interpreter.stodDecimal "6/(2)*(3)".toList [] (.ok 9) 12
      (by decide!) (by simp)).2,
    (Interpreter.yields_of_eq ⟨[], [("f".toList, ⟨[], "2".toList⟩)]⟩ Interpreter.stodDecimal
      "6/f()(3)".toList [] (.ok 1) 12 (by decide!) (by simp)).2,
    (Interpreter.yields_of_eq ⟨[], [("f".toList, ⟨[], "2".toList⟩)]⟩ Interpreter.stodDecimal
      "6/f()*(3)".toList [] (.ok 9) 12 (by decide!) (by simp)).2⟩

/-- C22 (the code at the failing input): with `f(): 7` and `g(a): a+1` stored,
`f( )` throws "Empty expression" while `f()` returns 7, and `g(1, )` throws
"Empty expression" while `g(1,)` returns 2: an argument piece is tested for
emptiness before it is trimmed, so a piece of white space is evaluated as the
empty expression.  Outside argument lists white space is skipped: `1 2 + 3` and
`12+3` both return 15, `g( 1 )` returns 2. -/
theorem C22_blank_argument_is_evaluated :
    (∃ n, ∀ fuel, n ≤ fuel →
      Interpreter.evaluateExpression
        ⟨[], [("f".toList, ⟨[], "7".toList⟩), ("g".toList, ⟨["a".toList], "a+1".toList⟩)]⟩
        Interpreter.stodDecimal fuel "f( )".toList [] = .throw (.emptyExpression [])) ∧
    (∃ n, ∀ fuel, n ≤ fuel →
      Interpreter.evaluateExpression
        ⟨[], [("f".toList, ⟨[], "7".toList⟩), ("g".toList, ⟨["a".toList], "a+1".toList⟩)]⟩
        Interpreter.stodDecimal fuel "f()".toList [] = .ok 7) ∧
    (∃ n, ∀ fuel, n ≤ fuel →
      Interpreter.evaluateExpression
        ⟨[], [("f".toList, ⟨[], "7".toList⟩), ("g".toList, ⟨["a".toList], "a+1".toList⟩)]⟩
        Interpreter.stodDecimal fuel "g(1, )".toList [] = .throw (.emptyExpression [])) ∧
    (∃ n, ∀ fuel, n ≤ fuel →
      Interpreter.evaluateExpression
        ⟨[], [("f".toList, ⟨[], "7".toList⟩), ("g".toList, ⟨["a".toList], "a+1".toList⟩)]⟩
        Interpreter.stodDecimal fuel "g(1,)".toList [] = .ok 2) ∧
    (∃ n, ∀ fuel, n ≤ fuel →
      Interpreter.evaluateExpression
        ⟨[], [("f".toList, ⟨[], "7".toList⟩), ("g".toList, ⟨["a".toList], "a+1".toList⟩)]⟩
        Interpreter.stodDecimal fuel "g( 1 )".toList [] = .ok 2) ∧
    (∃ n, ∀ fuel, n ≤ fuel →
      Interpreter.evaluateExpression ⟨[], []⟩ Interpreter.stodDecimal fuel "1 2 + 3".toList [] =
        .ok 15) ∧
    (∃ n, ∀ fuel, n ≤ fuel →
      Interpreter.evaluateExpression ⟨[], []⟩ Interpreter.stodDecimal fuel "12+3".toList [] =
        .ok 15) :=
  ⟨(Interpreter.yields_of_eq _ Interpreter.stodDecimal "f( )".toList []
      (.throw (.emptyExpression [])) 12 (by decide!) (by simp)).2,
    (Interpreter.yields_of_eq _ Interpreter.stodDecimal "f()".toList [] (.ok 7) 12
      (by decide!) (by simp)).2,
    (Interpreter.yields_of_eq _ Interpreter.stodDecimal "g(1, )".toList []
      (.throw (.emptyExpression [])) 12 (by decide!) (by simp)).2,
    (Interpreter.yields_of_eq _ Interpreter.stodDecimal "g(1,)".toList [] (.ok 2) 12
      (by decide!) (by simp)).2,
    (Interpreter.yields_of_eq _ Interpreter.stodDecimal "g( 1 )".toList [] (.ok 2) 12
      (by decide!) (by simp)).2,
    (Interpreter.yields_of_eq _ Interpreter.stodDecimal "1 2 + 3".toList [] (.ok 15) 12
      (by decide!) (by simp)).2,
    (Interpreter.yields_of_eq _ Interpreter.stodDecimal "12+3".toList [] (.ok 15) 12
      (by decide!) (by simp)).2⟩

/-- C23 (counterexample): on the machine that rounds to `double`, for
`1/(0.3-0.2-0.1+0.0000000001)`, whose divisor is exactly `1e-10` in exact
arithmetic (there the evaluation returns 10000000000, last part) and
9.999997e-11 as the machine computes it, the first program
throws "Division by zero" while the second, which has no guard, returns
5242881455191927/2^19 (printed 10000002775.558332); and for the literal 1
followed by 309 zeros, beyond the range of `double`, the first program throws
"Undefined variable or function" while in the second the exception of `stod`
ends the program: neither returns a value. -/
theorem C23_variants_differ :
    (∃ n, ∀ fuel, n ≤ fuel →
      Machine.evaluateExpression Binary64.machine ⟨[], []⟩ fuel
        "1/(0.3-0.2-0.1+0.0000000001)".toList [] = .throw .divisionByZero) ∧
    (∀ fuel,
      Machine.Proga.evaluateExpression Binary64.machine ⟨[], []⟩ (fuel + 1)
        "1/(0.3-0.2-0.1+0.0000000001)".toList [] = .ok (5242881455191927 / 524288)) ∧
    (∃ n, ∀ fuel, n ≤ fuel →
      Machine.evaluateExpression Binary64.machine ⟨[], []⟩ fuel
          ('1' :: List.replicate 309 '0') [] =
        .throw (.undefinedName ('1' :: List.replicate 309 '0')
          ('1' :: List.replicate 309 '0'))) ∧
    (∀ fuel,
      Machine.Proga.evaluateExpression Binary64.machine ⟨[], []⟩ (fuel + 1)
        ('1' :: List.replicate 309 '0') [] = .outside) ∧
    (∃ n, ∀ fuel, n ≤ fuel →
      Interpreter.evaluateExpression ⟨[], []⟩ Interpreter.stodDecimal fuel
        "1/(0.3-0.2-0.1+0.0000000001)".toList [] = .ok 10000000000) := by
  refine ⟨?_, fun fuel => ?_, ?_, fun fuel => ?_,
    (Interpreter.yields_of_eq _ Interpreter.stodDecimal
      "1/(0.3-0.2-0.1+0.0000000001)".toList [] (.ok 10000000000) 40
      (by decide!) (by simp)).2⟩
  · have h := (Arith.yields_small_divisor Binary64.machine ⟨[], []⟩ []
      (.factor (.lit 0 ['1'] 0))
      (.group 0 (.add (.sub (.sub (.term (.factor (.lit 0 "0.3".toList 0)))
        (.factor (.lit 0 "0.2".toList 0))) (.factor (.lit 0 "0.1".toList 0)))
        (.factor (.lit 0 "0.0000000001".toList 0))) 0)
      (by decide!) (by decide!) (by decide!)).2
    have hr : (Arith.Term.factor (.lit 0 ['1'] 0)).render ++ '/' ::
        (Arith.Factor.group 0 (.add (.sub (.sub (.term (.factor (.lit 0 "0.3".toList 0)))
          (.factor (.lit 0 "0.2".toList 0))) (.factor (.lit 0 "0.1".toList 0)))
          (.factor (.lit 0 "0.0000000001".toList 0))) 0).render =
        "1/(0.3-0.2-0.1+0.0000000001)".toList := by decide
    rw [hr] at h
    exact h
  · have h := Arith.proga_evaluates_expr Binary64.machine ⟨[], []⟩ []
      (.term (.div (.factor (.lit 0 ['1'] 0))
        (.group 0 (.add (.sub (.sub (.term (.factor (.lit 0 "0.3".toList 0)))
          (.factor (.lit 0 "0.2".toList 0))) (.factor (.lit 0 "0.1".toList 0)))
          (.factor (.lit 0 "0.0000000001".toList 0))) 0)))
      (by decide!) fuel
    have hr : (Arith.Expr.term (.div (.factor (.lit 0 ['1'] 0))
        (.group 0 (.add (.sub (.sub (.term (.factor (.lit 0 "0.3".toList 0)))
          (.factor (.lit 0 "0.2".toList 0))) (.factor (.lit 0 "0.1".toList 0)))
          (.factor (.lit 0 "0.0000000001".toList 0))) 0))).render =
        "1/(0.3-0.2-0.1+0.0000000001)".toList := by decide
    have hv : (Arith.Expr.term (.div (.factor (.lit 0 ['1'] 0))
        (.group 0 (.add (.sub (.sub (.term (.factor (.lit 0 "0.3".toList 0)))
          (.factor (.lit 0 "0.2".toList 0))) (.factor (.lit 0 "0.1".toList 0)))
          (.factor (.lit 0 "0.0000000001".toList 0))) 0))).value Binary64.machine =
        5242881455191927 / 524288 := by decide!
    rw [hr, hv] at h
    exact h
  · refine (Arith.yields_unread_token Binary64.machine ⟨[], []⟩ []
      ('1' :: List.replicate 309 '0') (List.cons_ne_nil _ _) ?_ (by decide!) rfl rfl).2
    intro c hc
    rcases List.mem_cons.1 hc with rfl | h
    · decide
    · rw [List.eq_of_mem_replicate h]
      decide
  · exact Arith.proga_unread_literal Binary64.machine ⟨[], []⟩ []
      ('1' :: List.replicate 309 '0') (by decide!) (by decide!) fuel

/-- C23 (amended): on every machine, for every expression built from unsigned
decimal literals that `stod` reads completely, `+ - * /` and parentheses in
operand position (spaces allowed around literals and groups) in which no
divisor, as the machine computes it, passes the test `abs(b) < 1e-10`, both
evaluators return the same value, the value of the expression in standard
arithmetic carried out by the machine: the first program in every state and
local environment once the fuel suffices, the second in every state and local
environment. -/
theorem C23_variants_agree_on_arithmetic {D : Type} (M : Machine D) (I : Machine.Env D)
    (S : Machine.Proga.State D) (localVars localVariables : Map D) (e : Arith.Expr)
    (he : e.admissible M = true) :
    ∃ n, ∀ fuel, n ≤ fuel →
      Machine.evaluateExpression M I fuel e.render localVars = .ok (e.value M) ∧
      Machine.Proga.evaluateExpression M S fuel e.render localVariables = .ok (e.value M) := by
  obtain ⟨_, n, hn⟩ := Arith.yields_expr M I localVars e he
  refine ⟨n + 1, fun fuel hle => ⟨hn fuel (by omega), ?_⟩⟩
  obtain ⟨k, rfl⟩ : ∃ k, fuel = k + 1 := ⟨fuel - 1, by omega⟩
  exact Arith.proga_evaluates_expr M S localVariables e
    (Arith.readable_of_admissible_expr M e he) k

/-- C23 (amended) on the machine that rounds to `double`, at
`(1.5 + 2) * 4 / 0.5 - 3`: both evaluators return 25. -/
theorem C23_variants_agree_on_arithmetic_witness :
    ∃ n, ∀ fuel, n ≤ fuel →
      Machine.evaluateExpression Binary64.machine ⟨[], []⟩ fuel
        "(1.5 + 2) * 4 / 0.5 - 3".toList [] = .ok 25 ∧
      Machine.Proga.evaluateExpression Binary64.machine ⟨[], []⟩ fuel
        "(1.5 + 2) * 4 / 0.5 - 3".toList [] = .ok 25 := by
  have h := C23_variants_agree_on_arithmetic Binary64.machine ⟨[], []⟩ ⟨[], []⟩ [] []
    (.sub (.term (.div (.mul (.factor (.group 0
      (.add (.term (.factor (.lit 0 "1.5".toList 1))) (.factor (.lit 1 "2".toList 0))) 1))
      (.lit 1 "4".toList 1)) (.lit 1 "0.5".toList 1))) (.factor (.lit 1 "3".toList 0)))
    (by decide!)
  have hr : (Arith.Expr.sub (.term (.div (.mul (.factor (.group 0
      (.add (.term (.factor (.lit 0 "1.5".toList 1))) (.factor (.lit 1 "2".toList 0))) 1))
      (.lit 1 "4".toList 1)) (.lit 1 "0.5".toList 1))) (.factor (.lit 1 "3".toList 0))).render =
      "(1.5 + 2) * 4 / 0.5 - 3".toList := by decide
  have hv : (Arith.Expr.sub (.term (.div (.mul (.factor (.group 0
      (.add (.term (.factor (.lit 0 "1.5".toList 1))) (.factor (.lit 1 "2".toList 0))) 1))
      (.lit 1 "4".toList 1)) (.lit 1 "0.5".toList 1))) (.factor (.lit 1 "3".toList 0))).value
      Binary64.machine = 25 := by decide!
  rw [hr, hv] at h
  exact h

